import Mathlib

/-!
# FEProjector (IBTK): mass-matrix assembly and L2 projection

A shallow embedding of `ibtk/src/lagrangian/FEProjector.cpp`, followed by the cache
class of `ibtk/include/ibtk/MappingCache.h`.

* `double` values are modelled by exact rationals (`ℚ`). The loops are given twice:
  with exact sums, products and quotients, and, in the namespace `Rounded`, with
  these operations taken from a parameter `Arith` (any rounding; `double_arithmetic`
  is IEEE 754 binary64 rounding to nearest). Statements about the exact loops are
  statements in exact arithmetic; a quotient by a zero trace (NaN in the source) is
  kept out of them by hypothesis.
* libMesh `DenseMatrix<double>` / `DenseVector<double>` are a pair of dimensions
  with an entry function; PETSc matrices and vectors are entry functions over
  global DOF indices.
* C++ `for` loops are left folds over `List.range`, threading the mutated object.
* Heap objects carry the address they were allocated at; `std::map` members are
  functions from the key to an optional value.
* The libMesh / PETSc services the projector only calls (constraint application,
  constraint enforcement, the Krylov solve, the options database) are fields of
  the structures `DofMap` and `Petsc`.
-/

namespace IBTK

/-! ## Dense element matrices and vectors -/

/-- The libMesh dense matrix: `m` rows, `n` columns and the entries `M(i,j)`. -/
structure DenseMatrix where
  m : Nat
  n : Nat
  val : Nat → Nat → ℚ

/-- The libMesh dense vector: its size and the entries `v(i)`. -/
structure DenseVector where
  size : Nat
  val : Nat → ℚ

namespace DenseMatrix

/-- The default-constructed (empty) matrix, `DenseMatrix<double> M_e;`. -/
def empty : DenseMatrix := ⟨0, 0, fun _ _ => 0⟩

/-- The assignment `M(i,j) = v`. -/
def set (M : DenseMatrix) (i j : Nat) (v : ℚ) : DenseMatrix :=
  { M with val := fun a b => if a = i ∧ b = j then v else M.val a b }

/-- The libMesh call `M.resize(new_m, new_n)`: it sets the dimensions and zeroes
every entry. -/
def resize (_M : DenseMatrix) (new_m new_n : Nat) : DenseMatrix :=
  ⟨new_m, new_n, fun _ _ => 0⟩

end DenseMatrix

namespace DenseVector

/-- The default-constructed (empty) vector. -/
def empty : DenseVector := ⟨0, fun _ => 0⟩

/-- The assignment `v(i) = x`. -/
def set (v : DenseVector) (i : Nat) (x : ℚ) : DenseVector :=
  { v with val := fun a => if a = i then x else v.val a }

/-- The libMesh call `v.resize(n)`: it sets the size and zeroes every entry. -/
def resize (_v : DenseVector) (n : Nat) : DenseVector := ⟨n, fun _ => 0⟩

end DenseVector

/-! ## `prune_roundoff_entries` -/

/-- The largest finite double, `std::numeric_limits<double>::max()`. -/
def DBL_MAX : ℚ := 2 ^ 1024 - 2 ^ 971

/-- The literal `1e-12` as the decimal number `10 ^ (-12)`, multiplied exactly in
`prune_step`. The value of the double literal is `literal_1e_12`, and the
comparison with the product as the code computes it is that of
`Rounded.prune_step`. -/
def prune_tol : ℚ := 1 / 10 ^ 12

/-- First loop of `prune_roundoff_entries`: the running minimum of the diagonal,
started at `DBL_MAX`. -/
def min_diagonal_entry (M_e : DenseMatrix) : ℚ :=
  (List.range (min M_e.m M_e.n)).foldl (fun acc i => min (M_e.val i i) acc) DBL_MAX

/-- Body of the inner loop of `prune_roundoff_entries` at `(i, j)`. -/
def prune_step (thr : ℚ) (i : Nat) (M : DenseMatrix) (j : Nat) : DenseMatrix :=
  if i = j then M
  else if |M.val i j| < prune_tol * thr then M.set i j 0 else M

/-- Remove entries that are due to roundoff in an element mass matrix. -/
def prune_roundoff_entries (M_e : DenseMatrix) : DenseMatrix :=
  let thr := min_diagonal_entry M_e
  (List.range M_e.m).foldl
    (fun M i => (List.range M_e.n).foldl (prune_step thr i) M) M_e

/-! ## Mesh, DOF map and finite-element data (read by the projector) -/

/-- The mesh. Elements and nodes are named by natural numbers; every accessor
used by the projector is a field. -/
structure MeshBase where
  /-- The range `active_local_elements_begin() .. active_local_elements_end()`. -/
  active_local_elements : List Nat
  mesh_dimension : Nat
  /-- Value of `elem->volume()`. -/
  volume : Nat → ℚ
  /-- Value of `elem->n_sides()`. -/
  n_sides : Nat → Nat
  /-- Whether `elem->neighbor_ptr(side)` is non-null. -/
  neighbor_ptr : Nat → Nat → Bool
  /-- Value of `elem->n_nodes()`. -/
  n_nodes : Nat → Nat
  /-- Value of `elem->is_node_on_side(n, side)`. -/
  is_node_on_side : Nat → Nat → Nat → Bool
  /-- Value of `elem->node_ptr(n)`. -/
  node_ptr : Nat → Nat → Nat
  /-- The ids written by `boundary_info->boundary_ids(elem, side, bdry_ids)`. -/
  boundary_ids : Nat → Nat → List Int

/-- The DOF map of a system together with its `SystemDofMapCache`. The two
constraint services are libMesh code and are fields here. -/
structure DofMap where
  n_variables : Nat
  n_constrained_dofs : Nat
  is_constrained_dof : Nat → Bool
  /-- The call `constrain_element_matrix(M_e, dofs, false)`: it rewrites both the
  element matrix and the index list. -/
  constrain_element_matrix : DenseMatrix → List Nat → DenseMatrix × List Nat
  /-- The call `enforce_constraints_exactly(system, &v)`. -/
  enforce_constraints_exactly : (Nat → ℚ) → (Nat → ℚ)
  /-- The entry `dof_map_cache.dof_indices(elem)[var_num]`. -/
  dof_indices : Nat → Nat → List Nat

/-- The finite-element object built for the type of variable 0 with its default
quadrature rule: the data it holds after `fe->reinit(elem)`. -/
structure FEBase where
  /-- Value of `qrule->n_points()`. -/
  n_points : Nat → Nat
  /-- Value of `JxW[qp]`. -/
  JxW : Nat → Nat → ℚ
  /-- Value of `phi[i][qp]`. -/
  phi : Nat → Nat → Nat → ℚ

/-- A libMesh system. -/
structure System where
  number : Nat
  dof_map : DofMap
  fe : FEBase
  /-- Value of `node->n_comp(sys_num, var_num)`. -/
  n_comp : Nat → Nat → Nat
  /-- Value of `node->dof_number(sys_num, var_num, comp)`. -/
  dof_number : Nat → Nat → Nat → Nat

/-- The equation systems object held by `d_fe_data`. -/
structure EquationSystems where
  get_mesh : MeshBase
  get_system : String → System

/-- The seven boundary ids `FEDataManager::ZERO_DISPLACEMENT_*_BDRY_ID`; their
values are declared in a header outside this source tree. The last field is the
unspecified value a read of the three-entry array `dirichlet_bdry_id_set` yields
at an index past its end. -/
structure BdryIds where
  X : Int
  Y : Int
  Z : Int
  XY : Int
  XZ : Int
  YZ : Int
  XYZ : Int
  /-- Value read at `dirichlet_bdry_id_set[comp]` for `comp >= 3`. -/
  past_end : Nat → Int

/-! ## PETSc objects -/

inductive SolverType where
  | GMRES
  | MINRES
  deriving DecidableEq, Repr

inductive PreconditionerType where
  | ILU_PRECOND
  | JACOBI_PRECOND
  deriving DecidableEq, Repr

/-- A heap-allocated `PetscLinearSolver<double>`; `addr` is the address given by
`new`, so two handles are the same pointer exactly when their `addr` agree. -/
structure PetscLinearSolver where
  addr : Nat
  init_done : Bool
  reuse_preconditioner : Bool
  preconditioner_type : PreconditionerType
  solver_type : SolverType

/-- A heap-allocated `PetscMatrix<double>` with the three `MatSetOption` flags. -/
structure PetscMatrix where
  addr : Nat
  val : Nat → Nat → ℚ
  ignore_zero_entries : Bool
  spd : Bool
  symmetry_eternal : Bool

/-- A heap-allocated `PetscVector<double>`. -/
structure PetscVector where
  addr : Nat
  val : Nat → ℚ

namespace PetscLinearSolver

/-- The object `new PetscLinearSolver<double>(comm)` with the libMesh defaults. -/
def new (addr : Nat) : PetscLinearSolver :=
  ⟨addr, false, false, PreconditionerType.ILU_PRECOND, SolverType.GMRES⟩

end PetscLinearSolver

namespace PetscMatrix

/-- The object `new PetscMatrix<double>(comm)` after `attach_dof_map` and `init`:
all entries zero. -/
def new (addr : Nat) : PetscMatrix := ⟨addr, fun _ _ => 0, false, false, false⟩

/-- The call `M.set(i, j, v)` (insert the value). -/
def set (M : PetscMatrix) (i j : Nat) (v : ℚ) : PetscMatrix :=
  { M with val := fun a b => if a = i ∧ b = j then v else M.val a b }

/-- The call `M.add_matrix(dm, dof_indices)`: every `dm(i,j)` is added to the
global entry `(dof_indices[i], dof_indices[j])`. -/
def add_matrix (M : PetscMatrix) (dm : DenseMatrix) (dof_indices : List Nat) : PetscMatrix :=
  { M with val := fun a b => M.val a b +
      ∑ i in Finset.range dm.m, ∑ j in Finset.range dm.n,
        if dof_indices.get? i = some a ∧ dof_indices.get? j = some b then dm.val i j else 0 }

end PetscMatrix

namespace PetscVector

/-- The call `v.add_vector(dv, dof_indices)`: every `dv(i)` is added to the
global entry `dof_indices[i]`. -/
def add_vector (v : PetscVector) (dv : DenseVector) (dof_indices : List Nat) : PetscVector :=
  { v with val := fun a => v.val a +
      ∑ i in Finset.range dv.size, if dof_indices.get? i = some a then dv.val i else 0 }

end PetscVector

/-! ## The element loops shared by the three builders -/

/-- The quadrature loop
`for i, for j, for qp: M_e(i, j) += (phi[i][qp] * phi[j][qp]) * JxW[qp]`
in exact arithmetic (no rounding, no underflow); `Rounded.quadrature_loop` is the
loop with the operations of an arithmetic. -/
def quadrature_loop (phi : Nat → Nat → ℚ) (JxW : Nat → ℚ) (n_basis n_qp : Nat)
    (M_e : DenseMatrix) : DenseMatrix :=
  (List.range n_basis).foldl (fun M i =>
    (List.range n_basis).foldl (fun M j =>
      (List.range n_qp).foldl (fun M qp =>
        M.set i j (M.val i j + (phi i qp * phi j qp) * JxW qp)) M) M) M_e

/-- The trace loop `tr_M = 0.0; for i: tr_M += M_e(i, i)`. -/
def trace_loop (n_basis : Nat) (M_e : DenseMatrix) : ℚ :=
  (List.range n_basis).foldl (fun tr_M i => tr_M + M_e.val i i) 0

/-- The lumping loop of `buildDiagonalL2MassMatrix`:
`for i: M_e_vec(i) = vol * M_e(i, i) / tr_M`, in exact arithmetic. The quotient
stands for the source's only where `tr_M` is not zero: at `tr_M = 0` the source
computes `0.0 / 0.0` (NaN), which is not represented. -/
def lump_vector_loop (vol tr_M : ℚ) (n_basis : Nat) (M_e : DenseMatrix)
    (M_e_vec : DenseVector) : DenseVector :=
  (List.range n_basis).foldl (fun v i => v.set i (vol * M_e.val i i / tr_M)) M_e_vec

/-- The lumping loop of `buildLumpedL2ProjectionSolver`:
`for i: M_e_diagonal(i, i) = vol * M_e(i, i) / tr_M`, in exact arithmetic. The
quotient stands for the source's only where `tr_M` is not zero: at `tr_M = 0` the
source computes `0.0 / 0.0` (NaN), which is not represented. -/
def lump_matrix_loop (vol tr_M : ℚ) (n_basis : Nat) (M_e : DenseMatrix)
    (M_e_diagonal : DenseMatrix) : DenseMatrix :=
  (List.range n_basis).foldl (fun D i => D.set i i (vol * M_e.val i i / tr_M)) M_e_diagonal

/-- The element matrix of one element and variable after `resize` and the
quadrature loop. -/
def element_mass_matrix (sys : System) (elem var_num : Nat) (M_e : DenseMatrix) : DenseMatrix :=
  let n_basis := (sys.dof_map.dof_indices elem var_num).length
  quadrature_loop (sys.fe.phi elem) (sys.fe.JxW elem) n_basis (sys.fe.n_points elem)
    (M_e.resize n_basis n_basis)

/-! ## `get_dirichlet_bdry_ids` and the Dirichlet reset -/

/-- The bitwise OR of the recognised zero-displacement ids in `bdry_ids`. -/
def get_dirichlet_bdry_ids (ids : BdryIds) (bdry_ids : List Int) : Int :=
  bdry_ids.foldl (fun dirichlet_bdry_ids bdry_id =>
    if bdry_id = ids.X ∨ bdry_id = ids.Y ∨ bdry_id = ids.Z ∨ bdry_id = ids.XY ∨
        bdry_id = ids.XZ ∨ bdry_id = ids.YZ ∨ bdry_id = ids.XYZ
    then Int.lor dirichlet_bdry_ids bdry_id else dirichlet_bdry_ids) 0

/-- The read `dirichlet_bdry_id_set[comp]` of the array `{X, Y, Z}`. The array has
three entries; for `comp >= 3` the source reads past its end (undefined
behaviour), and the value read there is the unspecified `ids.past_end comp`. -/
def dirichlet_bdry_id_set (ids : BdryIds) (comp : Nat) : Int :=
  match [ids.X, ids.Y, ids.Z].get? comp with
  | some bdry_id => bdry_id
  | none => ids.past_end comp

/-- The innermost loop of the reset: for every `idx` of the element's index list
both `(node_dof_index, idx)` and `(idx, node_dof_index)` are set to `1` when the
two indices agree and to `0` otherwise. -/
def reset_dof (dof_indices_var : List Nat) (node_dof_index : Nat) (M : PetscMatrix) :
    PetscMatrix :=
  dof_indices_var.foldl (fun M idx =>
    (M.set node_dof_index idx (if node_dof_index = idx then 1 else 0)).set
      idx node_dof_index (if node_dof_index = idx then 1 else 0)) M

/-- The loops over `var_num` and `comp` for one node of a tagged boundary side. -/
def reset_node (ids : BdryIds) (sys : System) (elem node : Nat) (dirichlet_bdry_ids : Int)
    (M : PetscMatrix) : PetscMatrix :=
  (List.range sys.dof_map.n_variables).foldl (fun M var_num =>
    (List.range (sys.n_comp node var_num)).foldl (fun M comp =>
      if Int.land dirichlet_bdry_ids (dirichlet_bdry_id_set ids comp) = 0 then M
      else
        let node_dof_index := sys.dof_number node var_num comp
        if sys.dof_map.is_constrained_dof node_dof_index = false then M
        else reset_dof (sys.dof_map.dof_indices elem var_num) node_dof_index M) M) M

/-- The body of the loop over the sides of one element. -/
def reset_side (ids : BdryIds) (mesh : MeshBase) (sys : System) (elem : Nat)
    (M : PetscMatrix) (side : Nat) : PetscMatrix :=
  if mesh.neighbor_ptr elem side then M
  else
    let dirichlet_bdry_ids := get_dirichlet_bdry_ids ids (mesh.boundary_ids elem side)
    if dirichlet_bdry_ids = 0 then M
    else
      (List.range (mesh.n_nodes elem)).foldl (fun M n =>
        if mesh.is_node_on_side elem n side
        then reset_node ids sys elem (mesh.node_ptr elem n) dirichlet_bdry_ids M
        else M) M

/-- Reset values at Dirichlet boundaries (second element loop of
`buildL2ProjectionSolver`). -/
def reset_dirichlet (ids : BdryIds) (mesh : MeshBase) (sys : System) (M : PetscMatrix) :
    PetscMatrix :=
  mesh.active_local_elements.foldl (fun M elem =>
    (List.range (mesh.n_sides elem)).foldl (reset_side ids mesh sys elem) M) M

/-! ## The projector and its three builders -/

/-- The `FEProjector` object: the equation systems it reads, the logging flag and
the five caches keyed by system name. `heap_next` is the next address handed out
by `new`, and `plog` the lines written to the log stream. -/
structure FEProjector where
  d_fe_data : EquationSystems
  d_enable_logging : Bool
  d_L2_proj_solver : String → Option PetscLinearSolver
  d_L2_proj_matrix : String → Option PetscMatrix
  d_lumped_L2_proj_solver : String → Option PetscLinearSolver
  d_lumped_L2_proj_matrix : String → Option PetscMatrix
  d_L2_proj_matrix_diag : String → Option PetscVector
  heap_next : Nat
  plog : List String

/-- The constructor `FEProjector(fe_data, enable_logging)`: all caches empty. -/
def FEProjector.mk_empty (fe_data : EquationSystems) (enable_logging : Bool) : FEProjector :=
  ⟨fe_data, enable_logging, fun _ => none, fun _ => none, fun _ => none, fun _ => none,
    fun _ => none, 0, []⟩

/-- The map assignment `d[system_name] = std::move(obj)`. -/
def map_assign {α : Type} (d : String → Option α) (system_name : String) (obj : α) :
    String → Option α :=
  fun k => if k = system_name then some obj else d k

/-- The line appended to the log when `d_enable_logging` holds. -/
def log_line (p : FEProjector) (msg system_name : String) : List String :=
  if p.d_enable_logging then p.plog ++ [msg ++ system_name ++ "\n"] else p.plog

/-- Body of the loop over `var_num` in `buildL2ProjectionSolver`; the state is the
scratch element matrix and the global matrix. -/
def consistent_elem_var (sys : System) (elem : Nat) (st : DenseMatrix × PetscMatrix)
    (var_num : Nat) : DenseMatrix × PetscMatrix :=
  let M_e := element_mass_matrix sys elem var_num st.1
  let c := sys.dof_map.constrain_element_matrix M_e (sys.dof_map.dof_indices elem var_num)
  let M_e := prune_roundoff_entries c.1
  (M_e, st.2.add_matrix M_e c.2)

/-- Loop over the mesh to construct the system matrix (`buildL2ProjectionSolver`). -/
def assemble_consistent (mesh : MeshBase) (sys : System) (M_mat : PetscMatrix) : PetscMatrix :=
  (mesh.active_local_elements.foldl (fun st elem =>
    (List.range sys.dof_map.n_variables).foldl (consistent_elem_var sys elem) st)
    (DenseMatrix.empty, M_mat)).2

/-- The global matrix right after `new`, `attach_dof_map`, `init` and the three
`MatSetOption` calls. -/
def new_mass_matrix (addr : Nat) : PetscMatrix :=
  { PetscMatrix.new addr with
    ignore_zero_entries := true, spd := true, symmetry_eternal := true }

/-- The matrix stored by a building call of `buildL2ProjectionSolver`: element
loop, then the Dirichlet reset. -/
def built_L2_proj_matrix (ids : BdryIds) (p : FEProjector) (system_name : String) :
    PetscMatrix :=
  let mesh := p.d_fe_data.get_mesh
  let sys := p.d_fe_data.get_system system_name
  reset_dirichlet ids mesh sys (assemble_consistent mesh sys (new_mass_matrix (p.heap_next + 1)))

/-- The solver stored by a building call of `buildL2ProjectionSolver`. -/
def built_L2_proj_solver (p : FEProjector) : PetscLinearSolver :=
  { PetscLinearSolver.new p.heap_next with
    reuse_preconditioner := true,
    preconditioner_type := PreconditionerType.JACOBI_PRECOND,
    solver_type := SolverType.MINRES, init_done := true }

/-- The function `FEProjector::buildL2ProjectionSolver(system_name)`. -/
def buildL2ProjectionSolver (ids : BdryIds) (p : FEProjector) (system_name : String) :
    FEProjector × PetscLinearSolver × PetscMatrix :=
  match p.d_L2_proj_solver system_name, p.d_L2_proj_matrix system_name with
  | some solver, some M_mat => (p, solver, M_mat)
  | _, _ =>
    let solver := built_L2_proj_solver p
    let M_mat := built_L2_proj_matrix ids p system_name
    ({ p with d_L2_proj_solver := map_assign p.d_L2_proj_solver system_name solver,
              d_L2_proj_matrix := map_assign p.d_L2_proj_matrix system_name M_mat,
              heap_next := p.heap_next + 2,
              plog := log_line p
                "FEProjector::buildL2ProjectionSolver(): building L2 projection solver for system: "
                system_name },
      solver, M_mat)

/-- Body of the loop over `var_num` in `buildDiagonalL2MassMatrix`; the state is
the two scratch objects and the global vector. Constraints are not applied. -/
def diagonal_elem_var (mesh : MeshBase) (sys : System) (elem : Nat)
    (st : DenseMatrix × DenseVector × PetscVector) (var_num : Nat) :
    DenseMatrix × DenseVector × PetscVector :=
  let n_basis := (sys.dof_map.dof_indices elem var_num).length
  let M_e := element_mass_matrix sys elem var_num st.1
  let M_e_vec := st.2.1.resize n_basis
  let vol := mesh.volume elem
  let tr_M := trace_loop n_basis M_e
  let M_e_vec := lump_vector_loop vol tr_M n_basis M_e M_e_vec
  (M_e, M_e_vec, st.2.2.add_vector M_e_vec (sys.dof_map.dof_indices elem var_num))

/-- Loop over the mesh of `buildDiagonalL2MassMatrix`. -/
def assemble_diagonal (mesh : MeshBase) (sys : System) (M_vec : PetscVector) : PetscVector :=
  (mesh.active_local_elements.foldl (fun st elem =>
    (List.range sys.dof_map.n_variables).foldl (diagonal_elem_var mesh sys elem) st)
    (DenseMatrix.empty, DenseVector.empty, M_vec)).2.2

/-- The vector stored by a building call of `buildDiagonalL2MassMatrix`: a zero
clone of the solution vector filled by the element loop. -/
def built_L2_proj_matrix_diag (p : FEProjector) (system_name : String) : PetscVector :=
  assemble_diagonal p.d_fe_data.get_mesh (p.d_fe_data.get_system system_name)
    ⟨p.heap_next, fun _ => 0⟩

/-- The function `FEProjector::buildDiagonalL2MassMatrix(system_name)`. -/
def buildDiagonalL2MassMatrix (p : FEProjector) (system_name : String) :
    FEProjector × PetscVector :=
  match p.d_L2_proj_matrix_diag system_name with
  | some M_vec => (p, M_vec)
  | none =>
    let M_vec := built_L2_proj_matrix_diag p system_name
    ({ p with d_L2_proj_matrix_diag := map_assign p.d_L2_proj_matrix_diag system_name M_vec,
              heap_next := p.heap_next + 1,
              plog := log_line p
                "FEProjector::buildDiagonalL2MassMatrix(): building diagonal L2 mass matrix for system: "
                system_name },
      M_vec)

/-- Body of the loop over `var_num` in `buildLumpedL2ProjectionSolver`; the state
is the two scratch matrices and the global matrix. -/
def lumped_elem_var (mesh : MeshBase) (sys : System) (elem : Nat)
    (st : DenseMatrix × DenseMatrix × PetscMatrix) (var_num : Nat) :
    DenseMatrix × DenseMatrix × PetscMatrix :=
  let n_basis := (sys.dof_map.dof_indices elem var_num).length
  let M_e := element_mass_matrix sys elem var_num st.1
  let M_e_diagonal := st.2.1.resize n_basis n_basis
  let vol := mesh.volume elem
  let tr_M := trace_loop n_basis M_e
  let M_e_diagonal := lump_matrix_loop vol tr_M n_basis M_e M_e_diagonal
  let c := sys.dof_map.constrain_element_matrix M_e_diagonal
    (sys.dof_map.dof_indices elem var_num)
  let M_e_diagonal := prune_roundoff_entries c.1
  (M_e, M_e_diagonal, st.2.2.add_matrix M_e_diagonal c.2)

/-- Loop over the mesh of `buildLumpedL2ProjectionSolver`. -/
def assemble_lumped (mesh : MeshBase) (sys : System) (M_mat : PetscMatrix) : PetscMatrix :=
  (mesh.active_local_elements.foldl (fun st elem =>
    (List.range sys.dof_map.n_variables).foldl (lumped_elem_var mesh sys elem) st)
    (DenseMatrix.empty, DenseMatrix.empty, M_mat)).2.2

/-- The matrix stored by a building call of `buildLumpedL2ProjectionSolver`. -/
def built_lumped_L2_proj_matrix (p : FEProjector) (system_name : String) : PetscMatrix :=
  assemble_lumped p.d_fe_data.get_mesh (p.d_fe_data.get_system system_name)
    (new_mass_matrix (p.heap_next + 1))

/-- The solver stored by a building call of `buildLumpedL2ProjectionSolver`. -/
def built_lumped_L2_proj_solver (p : FEProjector) : PetscLinearSolver :=
  { PetscLinearSolver.new p.heap_next with init_done := true, reuse_preconditioner := true }

/-- The function `FEProjector::buildLumpedL2ProjectionSolver(system_name)`. -/
def buildLumpedL2ProjectionSolver (p : FEProjector) (system_name : String) :
    FEProjector × PetscLinearSolver × PetscMatrix :=
  match p.d_lumped_L2_proj_solver system_name, p.d_lumped_L2_proj_matrix system_name with
  | some solver, some M_mat => (p, solver, M_mat)
  | _, _ =>
    let solver := built_lumped_L2_proj_solver p
    let M_mat := built_lumped_L2_proj_matrix p system_name
    ({ p with d_lumped_L2_proj_solver := map_assign p.d_lumped_L2_proj_solver system_name solver,
              d_lumped_L2_proj_matrix := map_assign p.d_lumped_L2_proj_matrix system_name M_mat,
              heap_next := p.heap_next + 2,
              plog := log_line p
                "FEProjector::buildLumpedL2ProjectionSolver(): building lumped L2 projection solver for system: "
                system_name },
      solver, M_mat)

/-! ## `computeL2Projection` -/

/-- The PETSc runtime as seen by `computeL2Projection`: the error codes of the
calls wrapped in `IBTK_CHKERRQ`, the options database and the Krylov solve. -/
structure Petsc where
  /-- Error code of `VecPointwiseDivide`. -/
  VecPointwiseDivide_ierr : Int
  /-- Error code of `PetscOptionsGetReal` for `-ksp_rtol`. -/
  ksp_rtol_ierr : Int
  /-- The value of `-ksp_rtol` when the option is set. -/
  ksp_rtol : Option ℚ
  /-- Error code of `PetscOptionsGetInt` for `-ksp_max_it`. -/
  ksp_max_it_ierr : Int
  /-- The value of `-ksp_max_it` when the option is set. -/
  ksp_max_it : Option Int
  /-- Error code of `KSPSetFromOptions`. -/
  KSPSetFromOptions_ierr : Int
  /-- The call `solver->solve(M, P, U, F, tol, m_its)`: the solution written to
  `U` and the converged reason left in the KSP object. -/
  solve : PetscLinearSolver → PetscMatrix → PetscMatrix → PetscVector → PetscVector →
    ℚ → Nat → (Nat → ℚ) × Int
  /-- Error code of `KSPGetConvergedReason`. -/
  KSPGetConvergedReason_ierr : Int

/-- The calls into the linear-algebra backend made by one projection. -/
inductive PetscCall where
  | VecPointwiseDivide (M_diag_vec : PetscVector)
  | solve (solver : PetscLinearSolver) (M_mat lumped_mass : PetscMatrix) (tol : ℚ)
      (max_its : Nat)

/-- What a returning call of `computeL2Projection` leaves behind. -/
structure ProjectionResult where
  projector : FEProjector
  U_vec : PetscVector
  converged : Bool
  calls : List PetscCall

/-- The call `v.close()`; it does not change any entry. -/
def PetscVector.close (v : PetscVector) : PetscVector := v

/-- The conversion of an `int` to `unsigned int`. -/
def to_unsigned (i : Int) : Nat := (i % 2 ^ 32).toNat

/-- The pair `proj_solver_components`: the consistent pair when requested, else
the lumped pair. -/
def select_solver_components (ids : BdryIds) (p : FEProjector) (system_name : String)
    (consistent_mass_matrix : Bool) : FEProjector × PetscLinearSolver × PetscMatrix :=
  if consistent_mass_matrix then buildL2ProjectionSolver ids p system_name
  else buildLumpedL2ProjectionSolver p system_name

/-- The argument `rtol_set ? runtime_rtol : tol`. -/
def tol_used (petsc : Petsc) (tol : ℚ) : ℚ :=
  match petsc.ksp_rtol with
  | some runtime_rtol => runtime_rtol
  | none => tol

/-- The argument `max_it_set ? runtime_max_it : max_its`, of type `unsigned int`. -/
def max_its_used (petsc : Petsc) (max_its : Nat) : Nat :=
  match petsc.ksp_max_it with
  | some runtime_max_it => to_unsigned runtime_max_it
  | none => max_its

/-- The tail of `computeL2Projection`: optional `U_vec.close()`, then
`enforce_constraints_exactly`, then the return of `converged`. -/
def finish_projection (system : System) (close_U : Bool) (p : FEProjector)
    (U_vec : PetscVector) (converged : Bool) (calls : List PetscCall) : ProjectionResult :=
  let U_vec := if close_U then U_vec.close else U_vec
  ⟨p, { U_vec with val := system.dof_map.enforce_constraints_exactly U_vec.val }, converged,
    calls⟩

/-- The function `FEProjector::computeL2Projection`. The result is `none` when an
`IBTK_CHKERRQ` check aborts the run. -/
def computeL2Projection (ids : BdryIds) (petsc : Petsc) (p : FEProjector)
    (U_vec F_vec : PetscVector) (system_name : String)
    (consistent_mass_matrix close_U close_F : Bool) (tol : ℚ) (max_its : Nat) :
    Option ProjectionResult :=
  let F_vec := if close_F then F_vec.close else F_vec
  let system := p.d_fe_data.get_system system_name
  if consistent_mass_matrix = false ∧ system.dof_map.n_constrained_dofs = 0 then
    let r := buildDiagonalL2MassMatrix p system_name
    let M_diag_vec := r.2
    if petsc.VecPointwiseDivide_ierr ≠ 0 then none
    else
      let U_vec : PetscVector := { U_vec with val := fun i => F_vec.val i / M_diag_vec.val i }
      some (finish_projection system close_U r.1 U_vec true
        [PetscCall.VecPointwiseDivide M_diag_vec])
  else
    let proj_solver_components :=
      select_solver_components ids p system_name consistent_mass_matrix
    let l := buildLumpedL2ProjectionSolver proj_solver_components.1 system_name
    let lumped_mass := l.2.2
    let solver := proj_solver_components.2.1
    let M_mat := proj_solver_components.2.2
    if petsc.ksp_rtol_ierr ≠ 0 then none
    else if petsc.ksp_max_it_ierr ≠ 0 then none
    else if petsc.KSPSetFromOptions_ierr ≠ 0 then none
    else
      let s := petsc.solve solver M_mat lumped_mass U_vec F_vec (tol_used petsc tol)
        (max_its_used petsc max_its)
      if petsc.KSPGetConvergedReason_ierr ≠ 0 then none
      else
        let U_vec : PetscVector := { U_vec with val := s.1 }
        some (finish_projection system close_U l.1 U_vec (decide (s.2 > 0))
          [PetscCall.solve solver M_mat lumped_mass (tol_used petsc tol)
            (max_its_used petsc max_its)])

/-- The condition under which the diagonal mass vector is used directly. -/
def direct_division (p : FEProjector) (system_name : String) (consistent_mass_matrix : Bool) :
    Prop :=
  consistent_mass_matrix = false ∧
    (p.d_fe_data.get_system system_name).dof_map.n_constrained_dofs = 0

/-- The error codes checked on the iterative path are all zero. -/
def Petsc.SolveOk (petsc : Petsc) : Prop :=
  petsc.ksp_rtol_ierr = 0 ∧ petsc.ksp_max_it_ierr = 0 ∧ petsc.KSPSetFromOptions_ierr = 0 ∧
    petsc.KSPGetConvergedReason_ierr = 0

/-- The matrix passed to the solve as preconditioning matrix. -/
def lumped_mass_of (ids : BdryIds) (p : FEProjector) (system_name : String)
    (consistent_mass_matrix : Bool) : PetscMatrix :=
  (buildLumpedL2ProjectionSolver
    (select_solver_components ids p system_name consistent_mass_matrix).1 system_name).2.2

/-- The outcome `(solution, converged reason)` of the solve issued on the
iterative path. -/
def solve_outcome (ids : BdryIds) (petsc : Petsc) (p : FEProjector) (U_vec F_vec : PetscVector)
    (system_name : String) (consistent_mass_matrix : Bool) (tol : ℚ) (max_its : Nat) :
    (Nat → ℚ) × Int :=
  petsc.solve (select_solver_components ids p system_name consistent_mass_matrix).2.1
    (select_solver_components ids p system_name consistent_mass_matrix).2.2
    (lumped_mass_of ids p system_name consistent_mass_matrix) U_vec F_vec
    (tol_used petsc tol) (max_its_used petsc max_its)

/-! ## Specification-side notions and concrete inputs -/

/-- Specification notion "`d` is the smallest diagonal entry of `M`": `d` is a
diagonal entry and no diagonal entry is below it. -/
def IsSmallestDiagonal (M : DenseMatrix) (d : ℚ) : Prop :=
  (∃ k, k < min M.m M.n ∧ M.val k k = d) ∧ ∀ k, k < min M.m M.n → d ≤ M.val k k

/-- A 2 x 2 element matrix with unit diagonal and off-diagonal entries `1e-13`. -/
def tiny_offdiag : DenseMatrix := ⟨2, 2, fun i j => if i = j then 1 else 1 / 10 ^ 13⟩

/-- A 2 x 2 element matrix with unit diagonal and off-diagonal entries `1/2`. -/
def half_offdiag : DenseMatrix := ⟨2, 2, fun i j => if i = j then 1 else 1 / 2⟩

/-- A mesh of one element (number 0) of volume 1. -/
def unit_mesh : MeshBase :=
  { active_local_elements := [0], mesh_dimension := 2, volume := fun _ => 1,
    n_sides := fun _ => 0, neighbor_ptr := fun _ _ => false, n_nodes := fun _ => 0,
    is_node_on_side := fun _ _ _ => false, node_ptr := fun _ n => n,
    boundary_ids := fun _ _ => [] }

/-- A DOF map without constraints: one variable, DOFs `0, 1` on element 0, both
constraint services the identity. -/
def free_dof_map : DofMap :=
  { n_variables := 1, n_constrained_dofs := 0, is_constrained_dof := fun _ => false,
    constrain_element_matrix := fun M d => (M, d),
    enforce_constraints_exactly := fun v => v,
    dof_indices := fun elem var_num => if elem = 0 ∧ var_num = 0 then [0, 1] else [] }

/-- A system with two basis functions and one quadrature point of weight 1 where
both basis functions take the value `1/2`. -/
def two_dof_system : System :=
  { number := 0, dof_map := free_dof_map,
    fe := { n_points := fun _ => 1, JxW := fun _ _ => 1, phi := fun _ _ _ => 1 / 2 },
    n_comp := fun _ _ => 1, dof_number := fun node _ _ => node }

/-- The libMesh behaviour of a DOF map whose constraint set is empty: no DOF is
constrained, `constrain_element_matrix` leaves the element matrix and the index
list as they are, and `enforce_constraints_exactly` leaves the vector as it is. -/
def DofMap.Unconstrained (dm : DofMap) : Prop :=
  dm.n_constrained_dofs = 0 ∧ (∀ d, dm.is_constrained_dof d = false) ∧
  (∀ M_e dofs, dm.constrain_element_matrix M_e dofs = (M_e, dofs)) ∧
  (∀ v, dm.enforce_constraints_exactly v = v)

/-- Sample values of the seven zero-displacement ids: one bit per axis. -/
def sample_bdry_ids : BdryIds :=
  ⟨0x100, 0x200, 0x400, 0x300, 0x500, 0x600, 0x700, fun _ => 0⟩

/-- The system name used in the concrete inputs. -/
def sample_name : String := "U"

/-- A freshly constructed projector over the one-element mesh and the
two-DOF system. -/
def two_dof_projector : FEProjector :=
  FEProjector.mk_empty ⟨unit_mesh, fun _ => two_dof_system⟩ false

/-- A DOF map without constraints: one variable, DOFs `0, 1, 2` on element 0. -/
def free_dof_map3 : DofMap :=
  { n_variables := 1, n_constrained_dofs := 0, is_constrained_dof := fun _ => false,
    constrain_element_matrix := fun M d => (M, d),
    enforce_constraints_exactly := fun v => v,
    dof_indices := fun elem var_num => if elem = 0 ∧ var_num = 0 then [0, 1, 2] else [] }

/-- Basis values of the rank-deficient system: at quadrature point 0 the three
basis functions take the values `1, 1e-13, 1`, at quadrature point 1 the values
`0, 1, 1`. -/
def rank2_phi (i qp : Nat) : ℚ :=
  match i, qp with
  | 0, 0 => 1
  | 1, 0 => 1 / 10 ^ 13
  | 2, 0 => 1
  | 1, 1 => 1
  | 2, 1 => 1
  | _, _ => 0

/-- A system with three basis functions and two quadrature points of weight 1;
its element mass matrix has rank 2 and the entry `(0, 1)` equal to `1e-13`. -/
def rank2_system : System :=
  { number := 0, dof_map := free_dof_map3,
    fe := { n_points := fun _ => 2, JxW := fun _ _ => 1, phi := fun _ => rank2_phi },
    n_comp := fun _ _ => 1, dof_number := fun node _ _ => node }

/-- A freshly constructed projector over the one-element mesh and the
rank-deficient system. -/
def rank2_projector : FEProjector :=
  FEProjector.mk_empty ⟨unit_mesh, fun _ => rank2_system⟩ false

/-- The test vector `(1, 1, -1)`. -/
def rank2_x (a : Nat) : ℚ := if a = 2 then -1 else 1

/-- A backend in which every checked call succeeds, no runtime option is set, and
the solve returns the source vector with the converged reason `2`. -/
def quiet_petsc : Petsc :=
  { VecPointwiseDivide_ierr := 0, ksp_rtol_ierr := 0, ksp_rtol := none, ksp_max_it_ierr := 0,
    ksp_max_it := none, KSPSetFromOptions_ierr := 0,
    solve := fun _ _ _ _ F _ _ => (F.val, 2), KSPGetConvergedReason_ierr := 0 }

/-- A backend in which every checked call succeeds and the solve leaves the
initial guess in place with the reason `-3` (iteration cap reached). -/
def stalled_petsc : Petsc :=
  { VecPointwiseDivide_ierr := 0, ksp_rtol_ierr := 0, ksp_rtol := none, ksp_max_it_ierr := 0,
    ksp_max_it := none, KSPSetFromOptions_ierr := 0,
    solve := fun _ _ _ U _ _ _ => (U.val, -3), KSPGetConvergedReason_ierr := 0 }

/-- The vector with every entry `0`. -/
def zero_vec : PetscVector := ⟨100, fun _ => 0⟩

/-- The vector with every entry `1`. -/
def ones_vec : PetscVector := ⟨101, fun _ => 1⟩

/-- Specification notion: the quadratic form `x^T M x` over the global DOFs
`0 .. N-1`. -/
def quad_form (M : Nat → Nat → ℚ) (x : Nat → ℚ) (N : Nat) : ℚ :=
  ∑ a in Finset.range N, ∑ b in Finset.range N, x a * M a b * x b

/-- Specification notion: the lumped entry `vol(e) * M_e(i,i) / trace(M_e)` of local
DOF `i` of variable `v` on element `e`, with `M_e` the quadrature mass matrix. -/
def lumped_entry (mesh : MeshBase) (sys : System) (e v i : Nat) : ℚ :=
  mesh.volume e * (element_mass_matrix sys e v DenseMatrix.empty).val i i /
    ∑ k in Finset.range (sys.dof_map.dof_indices e v).length,
      (element_mass_matrix sys e v DenseMatrix.empty).val k k

/-- Specification notion: the contribution of element `e` to global DOF `g`, summed
over the variables `v` and the local indices `i` with `dof(e, v, i) = g`. -/
def lumped_contribution (mesh : MeshBase) (sys : System) (g e : Nat) : ℚ :=
  ∑ v in Finset.range sys.dof_map.n_variables,
    ∑ i in Finset.range (sys.dof_map.dof_indices e v).length,
      if (sys.dof_map.dof_indices e v).get? i = some g then lumped_entry mesh sys e v i else 0

/-- Specification notion: the diagonal mass vector at global DOF `g`, the sum of
the contributions of all active local elements. -/
def diagonal_mass_spec (mesh : MeshBase) (sys : System) (g : Nat) : ℚ :=
  (mesh.active_local_elements.map (lumped_contribution mesh sys g)).sum

/-- A system with two basis functions and two quadrature points of weight `1/2`
(total weight 1, the element volume): the basis values are `(1, 0)` at point 0 and
`(1/2, 1/2)` at point 1, so they sum to 1 at both points. -/
def skew_system : System :=
  { number := 0, dof_map := free_dof_map,
    fe := { n_points := fun _ => 2, JxW := fun _ _ => 1 / 2,
            phi := fun _ i qp => if qp = 0 then (if i = 0 then 1 else 0) else 1 / 2 },
    n_comp := fun _ _ => 1, dof_number := fun node _ _ => node }

/-- A backend in which every checked call succeeds and the options database holds
`-ksp_rtol 1e-3` and `-ksp_max_it -1`. -/
def negative_cap_petsc : Petsc :=
  { VecPointwiseDivide_ierr := 0, ksp_rtol_ierr := 0, ksp_rtol := some (1 / 10 ^ 3),
    ksp_max_it_ierr := 0, ksp_max_it := some (-1), KSPSetFromOptions_ierr := 0,
    solve := fun _ _ _ _ F _ _ => (F.val, 2), KSPGetConvergedReason_ierr := 0 }

/-- A backend in which every checked call succeeds and the options database holds
`-ksp_max_it 50` only. -/
def capped_petsc : Petsc :=
  { VecPointwiseDivide_ierr := 0, ksp_rtol_ierr := 0, ksp_rtol := none,
    ksp_max_it_ierr := 0, ksp_max_it := some 50, KSPSetFromOptions_ierr := 0,
    solve := fun _ _ _ _ F _ _ => (F.val, 2), KSPGetConvergedReason_ierr := 0 }

/-- The seven-way test of `get_dirichlet_bdry_ids`: `t` is one of the recognised
zero-displacement ids. -/
def recognized_bdry_id (ids : BdryIds) (t : Int) : Prop :=
  t = ids.X ∨ t = ids.Y ∨ t = ids.Z ∨ t = ids.XY ∨ t = ids.XZ ∨ t = ids.YZ ∨ t = ids.XYZ

/-- The exact mass matrix of the bilinear element on the unit square (nodes
numbered around the square): `1/9` on the diagonal, `1/18` between neighbouring
nodes, `1/36` between opposite nodes. -/
def q4_mass (i j : Nat) : ℚ :=
  if i = j then 1 / 9 else if (i + j) % 2 = 0 then 1 / 36 else 1 / 18

/-- Specification notion: the mesh is one element (number 0) of volume 1 carrying
one scalar variable with the four DOFs `0, 1, 2, 3`, without constraints, and the
quadrature rule integrates the products of the bilinear basis functions exactly. -/
def IsUnitSquareQ4 (mesh : MeshBase) (sys : System) : Prop :=
  mesh.active_local_elements = [0] ∧ mesh.volume 0 = 1 ∧ sys.dof_map.n_variables = 1 ∧
  sys.dof_map.dof_indices 0 0 = [0, 1, 2, 3] ∧ sys.dof_map.Unconstrained ∧
  ∀ i j, i < 4 → j < 4 →
    ∑ qp in Finset.range (sys.fe.n_points 0),
      (sys.fe.phi 0 i qp * sys.fe.phi 0 j qp) * sys.fe.JxW 0 qp = q4_mass i j

/-- Points of the two-point rule on `[0, 1]` that is exact for quadratics:
`0` and `2/3`. -/
def radau_point (a : Nat) : ℚ := if a = 0 then 0 else 2 / 3

/-- Weights of the two-point rule: `1/4` at `0` and `3/4` at `2/3`. -/
def radau_weight (a : Nat) : ℚ := if a = 0 then 1 / 4 else 3 / 4

/-- The bilinear basis functions of the unit square at the tensor point
`qp = 2 a + b`, i.e. `(x, y) = (radau_point a, radau_point b)`. -/
def q4_phi (i qp : Nat) : ℚ :=
  match i with
  | 0 => (1 - radau_point (qp / 2)) * (1 - radau_point (qp % 2))
  | 1 => radau_point (qp / 2) * (1 - radau_point (qp % 2))
  | 2 => radau_point (qp / 2) * radau_point (qp % 2)
  | 3 => (1 - radau_point (qp / 2)) * radau_point (qp % 2)
  | _ => 0

/-- A DOF map without constraints: one variable, DOFs `0, 1, 2, 3` on element 0. -/
def free_dof_map4 : DofMap :=
  { n_variables := 1, n_constrained_dofs := 0, is_constrained_dof := fun _ => false,
    constrain_element_matrix := fun M d => (M, d),
    enforce_constraints_exactly := fun v => v,
    dof_indices := fun elem var_num => if elem = 0 ∧ var_num = 0 then [0, 1, 2, 3] else [] }

/-- The bilinear unit-square system with the four-point tensor rule, which
integrates the products of two bilinear functions exactly. -/
def q4_system : System :=
  { number := 0, dof_map := free_dof_map4,
    fe := { n_points := fun _ => 4,
            JxW := fun _ qp => radau_weight (qp / 2) * radau_weight (qp % 2),
            phi := fun _ => q4_phi },
    n_comp := fun _ _ => 1, dof_number := fun node _ _ => node }

/-- A freshly constructed projector over the unit-square mesh and system. -/
def q4_projector : FEProjector :=
  FEProjector.mk_empty ⟨unit_mesh, fun _ => q4_system⟩ false

/-- Specification notion: entry `g` of the product `M x` over the global DOFs
`0 .. N-1`. -/
def mat_vec (M : Nat → Nat → ℚ) (x : Nat → ℚ) (N g : Nat) : ℚ :=
  ∑ b in Finset.range N, M g b * x b

/-- A DOF map with no DOFs at all: every index list is empty, nothing is
constrained. -/
def empty_dof_map : DofMap :=
  { n_variables := 1, n_constrained_dofs := 0, is_constrained_dof := fun _ => false,
    constrain_element_matrix := fun M d => (M, d),
    enforce_constraints_exactly := fun v => v,
    dof_indices := fun _ _ => [] }

/-- A system with zero DOFs. -/
def zero_dof_system : System :=
  { number := 0, dof_map := empty_dof_map,
    fe := { n_points := fun _ => 1, JxW := fun _ _ => 1, phi := fun _ _ _ => 1 / 2 },
    n_comp := fun _ _ => 1, dof_number := fun node _ _ => node }

/-- A freshly constructed projector over the one-element mesh and the zero-DOF
system. -/
def zero_dof_projector : FEProjector :=
  FEProjector.mk_empty ⟨unit_mesh, fun _ => zero_dof_system⟩ false

/-- Specification notion: the members of `bdry_ids` that equal one of the seven
recognised zero-displacement ids, in list order and with their multiplicity. -/
def recognized_members (ids : BdryIds) (bdry_ids : List Int) : List Int :=
  bdry_ids.filter (fun t => decide (t = ids.X ∨ t = ids.Y ∨ t = ids.Z ∨ t = ids.XY ∨
    t = ids.XZ ∨ t = ids.YZ ∨ t = ids.XYZ))

/-- The states of an `FEProjector` reachable from the constructor call
`FEProjector(fe_data, enable_logging)` by calls of the three builders and by
returning calls of `computeL2Projection`, with arbitrary arguments. -/
inductive FEProjector.Reachable (ids : BdryIds) (fe_data : EquationSystems)
    (enable_logging : Bool) : FEProjector → Prop
  | fresh : FEProjector.Reachable ids fe_data enable_logging
      (FEProjector.mk_empty fe_data enable_logging)
  | consistent (p : FEProjector) (system_name : String) :
      FEProjector.Reachable ids fe_data enable_logging p →
      FEProjector.Reachable ids fe_data enable_logging
        (buildL2ProjectionSolver ids p system_name).1
  | lumped (p : FEProjector) (system_name : String) :
      FEProjector.Reachable ids fe_data enable_logging p →
      FEProjector.Reachable ids fe_data enable_logging
        (buildLumpedL2ProjectionSolver p system_name).1
  | diagonal (p : FEProjector) (system_name : String) :
      FEProjector.Reachable ids fe_data enable_logging p →
      FEProjector.Reachable ids fe_data enable_logging
        (buildDiagonalL2MassMatrix p system_name).1
  | projection (petsc : Petsc) (p : FEProjector) (U_vec F_vec : PetscVector)
      (system_name : String) (consistent_mass_matrix close_U close_F : Bool) (tol : ℚ)
      (max_its : Nat) (r : ProjectionResult) :
      FEProjector.Reachable ids fe_data enable_logging p →
      computeL2Projection ids petsc p U_vec F_vec system_name consistent_mass_matrix close_U
        close_F tol max_its = some r →
      FEProjector.Reachable ids fe_data enable_logging r.projector

/-- The solver map and the matrix map of each pair hold the same keys. -/
def FEProjector.PairedCaches (p : FEProjector) : Prop :=
  ∀ k : String,
    ((p.d_L2_proj_solver k).isSome ↔ (p.d_L2_proj_matrix k).isSome) ∧
    ((p.d_lumped_L2_proj_solver k).isSome ↔ (p.d_lumped_L2_proj_matrix k).isSome)

/-- The hypotheses of division safety on a mesh and a system: non-negative
quadrature weights, positive element volumes, and every local basis function
non-zero at some quadrature point of positive weight. -/
def PositiveQuadrature (mesh : MeshBase) (sys : System) : Prop :=
  (∀ e qp, 0 ≤ sys.fe.JxW e qp) ∧
  (∀ e, e ∈ mesh.active_local_elements → 0 < mesh.volume e) ∧
  (∀ e, e ∈ mesh.active_local_elements → ∀ v, v < sys.dof_map.n_variables →
    ∀ i, i < (sys.dof_map.dof_indices e v).length →
      ∃ qp, qp < sys.fe.n_points e ∧ 0 < sys.fe.JxW e qp ∧ sys.fe.phi e i qp ≠ 0)

/-- Global DOF `g` belongs to at least one active local element. -/
def dof_on_mesh (mesh : MeshBase) (sys : System) (g : Nat) : Prop :=
  ∃ e, e ∈ mesh.active_local_elements ∧ ∃ v, v < sys.dof_map.n_variables ∧
    g ∈ sys.dof_map.dof_indices e v

/-! ## `MappingCache` (`ibtk/include/ibtk/MappingCache.h`) -/

/-- The type `MappingCache::key_type`: the tuple (element type, quadrature type,
order), each libMesh enum as its number. -/
abbrev MappingCache.key_type : Type := Nat × Nat × Nat

/-- A `Mapping<dim, spacedim>` object as seen by the cache: its address and the
two arguments of `Mapping::build` it was built from. -/
structure Mapping where
  addr : Nat
  quad_key : MappingCache.key_type
  update_flags : Nat

/-- The call `Mapping<dim, spacedim>::build(quad_key, update_flags)`, allocating
the new object at address `addr`. -/
def Mapping.build (quad_key : MappingCache.key_type) (update_flags addr : Nat) : Mapping :=
  ⟨addr, quad_key, update_flags⟩

/-- The class `MappingCache<dim, spacedim>`: the template arguments, the member
`d_update_flags`, the map `d_mappings` and the address of the next allocation. -/
structure MappingCache where
  dim : Int
  spacedim : Int
  d_update_flags : Nat
  d_mappings : MappingCache.key_type → Option Mapping
  heap_next : Nat

/-- The constructor `MappingCache(update_flags)`: an empty map. -/
def MappingCache.mk_empty (dim spacedim : Int) (update_flags : Nat) : MappingCache :=
  ⟨dim, spacedim, update_flags, fun _ => none, 0⟩

/-- The call `d_mappings.emplace(quad_key, std::move(mapping))` followed by
`*(*(...).first).second`: the element is inserted when the key is absent, and the
mapping held under the key afterwards is returned. -/
def MappingCache.emplace (d : MappingCache.key_type → Option Mapping)
    (quad_key : MappingCache.key_type) (mapping : Mapping) :
    (MappingCache.key_type → Option Mapping) × Mapping :=
  match d quad_key with
  | some held => (d, held)
  | none => (fun k => if k = quad_key then some mapping else d k, mapping)

/-- The function `MappingCache::operator[]`. The service `get_dim` of
libmesh_utilities.h is a parameter; `check_assertions` tells whether `TBOX_ASSERT`
is compiled in, and the result is `none` when the assertion aborts the run. -/
def MappingCache.operator_index (get_dim : Nat → Int) (check_assertions : Bool)
    (c : MappingCache) (quad_key : MappingCache.key_type) : Option (MappingCache × Mapping) :=
  match c.d_mappings quad_key with
  | none =>
    let elem_type := quad_key.1
    let elem_dim := get_dim elem_type
    if check_assertions = true ∧ elem_dim ≠ c.dim then none
    else
      let mapping := Mapping.build quad_key c.d_update_flags c.heap_next
      let r := MappingCache.emplace c.d_mappings quad_key mapping
      some ({ c with d_mappings := r.1, heap_next := c.heap_next + 1 }, r.2)
  | some held => some (c, held)

/-- The function `MappingCache::clear`. -/
def MappingCache.clear (c : MappingCache) : MappingCache :=
  { c with d_mappings := fun _ => none }

/-- Every mapping held by the cache was allocated before the next allocation
address. -/
def MappingCache.Allocated (c : MappingCache) : Prop :=
  ∀ k m, c.d_mappings k = some m → m.addr < c.heap_next

/-- A two-dimensional cache holding one mapping, built at address 0 under the
key `(3, 0, 2)`. -/
def sample_mapping_cache : MappingCache :=
  { dim := 2, spacedim := 2, d_update_flags := 7,
    d_mappings := fun k => if k = (3, 0, 2) then some (Mapping.build (3, 0, 2) 7 0) else none,
    heap_next := 1 }

/-- Rounding of a rational to the nearest integer, a tie going to the even
integer. -/
def round_half_even (y : ℚ) : ℤ :=
  if y - ⌊y⌋ < 1 / 2 then ⌊y⌋
  else if 1 / 2 < y - ⌊y⌋ then ⌊y⌋ + 1
  else if ⌊y⌋ % 2 = 0 then ⌊y⌋ else ⌊y⌋ + 1

/-- The binary exponent that fixes the spacing of the doubles around `x`: the
exponent of the leading bit of `x`, and `-1022` throughout the subnormal range. -/
def double_exponent (x : ℚ) : ℤ := max (Int.log 2 |x|) (-1022)

/-- IEEE 754 binary64 rounding to nearest, ties to even, of a rational below the
overflow threshold: 53 significant bits, spacing `2 ^ (e - 52)` in the binade of
exponent `e`, spacing `2 ^ (-1074)` in the subnormal range. Infinities, NaN and the
sign of zero are not represented. -/
def round_double (x : ℚ) : ℚ :=
  round_half_even (x / 2 ^ (double_exponent x - 52)) * 2 ^ (double_exponent x - 52)

/-- The operations `+`, `*` and `/` of the type `double` on finite values. -/
structure Arith where
  add : ℚ → ℚ → ℚ
  mul : ℚ → ℚ → ℚ
  div : ℚ → ℚ → ℚ

/-- The operations without rounding. -/
def exact_arithmetic : Arith := ⟨fun a b => a + b, fun a b => a * b, fun a b => a / b⟩

/-- The binary64 operations: the exact result, rounded. A quotient by zero (an
infinity or NaN in binary64) is not represented. -/
def double_arithmetic : Arith :=
  ⟨fun a b => round_double (a + b), fun a b => round_double (a * b),
    fun a b => round_double (a / b)⟩

/-- The value of the literal `1e-12` as a double (bit pattern
`0x3D719799812DEA11`), the double nearest to `10 ^ (-12)`. -/
def literal_1e_12 : ℚ := 4951760157141521 / 2 ^ 92

namespace Rounded

/-- Body of the inner loop of `prune_roundoff_entries` at `(i, j)`, the product
`1e-12 * min_diagonal_entry` taken in the arithmetic `A`. -/
def prune_step (A : Arith) (min_diagonal_entry : ℚ) (i : Nat) (M : DenseMatrix) (j : Nat) :
    DenseMatrix :=
  if i = j then M
  else if |M.val i j| < A.mul literal_1e_12 min_diagonal_entry then M.set i j 0 else M

/-- The function `prune_roundoff_entries` with its product taken in the
arithmetic `A`; `std::min`, `std::abs` and `<` are exact on doubles. -/
def prune_roundoff_entries (A : Arith) (M_e : DenseMatrix) : DenseMatrix :=
  let min_diagonal_entry := IBTK.min_diagonal_entry M_e
  (List.range M_e.m).foldl
    (fun M i => (List.range M_e.n).foldl (prune_step A min_diagonal_entry i) M) M_e

/-- The quadrature loop
`for i, for j, for qp: M_e(i, j) += (phi[i][qp] * phi[j][qp]) * JxW[qp]`
with its operations taken in the arithmetic `A`. -/
def quadrature_loop (A : Arith) (phi : Nat → Nat → ℚ) (JxW : Nat → ℚ) (n_basis n_qp : Nat)
    (M_e : DenseMatrix) : DenseMatrix :=
  (List.range n_basis).foldl (fun M i =>
    (List.range n_basis).foldl (fun M j =>
      (List.range n_qp).foldl (fun M qp =>
        M.set i j (A.add (M.val i j) (A.mul (A.mul (phi i qp) (phi j qp)) (JxW qp)))) M) M) M_e

/-- The trace loop `tr_M = 0.0; for i: tr_M += M_e(i, i)` in the arithmetic `A`. -/
def trace_loop (A : Arith) (n_basis : Nat) (M_e : DenseMatrix) : ℚ :=
  (List.range n_basis).foldl (fun tr_M i => A.add tr_M (M_e.val i i)) 0

/-- The lumping loop `for i: M_e_vec(i) = vol * M_e(i, i) / tr_M` in the
arithmetic `A`. -/
def lump_vector_loop (A : Arith) (vol tr_M : ℚ) (n_basis : Nat) (M_e : DenseMatrix)
    (M_e_vec : DenseVector) : DenseVector :=
  (List.range n_basis).foldl (fun v i => v.set i (A.div (A.mul vol (M_e.val i i)) tr_M))
    M_e_vec

/-- The element matrix of one element and variable after `resize` and the
quadrature loop, in the arithmetic `A`. -/
def element_mass_matrix (A : Arith) (sys : System) (elem var_num : Nat) (M_e : DenseMatrix) :
    DenseMatrix :=
  let n_basis := (sys.dof_map.dof_indices elem var_num).length
  quadrature_loop A (sys.fe.phi elem) (sys.fe.JxW elem) n_basis (sys.fe.n_points elem)
    (M_e.resize n_basis n_basis)

/-- The call `v.add_vector(dv, dof_indices)` in the arithmetic `A`: for
`i = 0, 1, ...` the value `dv(i)` is added to the global entry `dof_indices[i]`. -/
def add_vector (A : Arith) (v : PetscVector) (dv : DenseVector) (dof_indices : List Nat) :
    PetscVector :=
  (List.range dv.size).foldl (fun v i =>
    match dof_indices.get? i with
    | some g => { v with val := fun a => if a = g then A.add (v.val g) (dv.val i) else v.val a }
    | none => v) v

/-- Body of the loop over `var_num` in `buildDiagonalL2MassMatrix`, in the
arithmetic `A`. -/
def diagonal_elem_var (A : Arith) (mesh : MeshBase) (sys : System) (elem : Nat)
    (st : DenseMatrix × DenseVector × PetscVector) (var_num : Nat) :
    DenseMatrix × DenseVector × PetscVector :=
  let n_basis := (sys.dof_map.dof_indices elem var_num).length
  let M_e := element_mass_matrix A sys elem var_num st.1
  let M_e_vec := st.2.1.resize n_basis
  let vol := mesh.volume elem
  let tr_M := trace_loop A n_basis M_e
  let M_e_vec := lump_vector_loop A vol tr_M n_basis M_e M_e_vec
  (M_e, M_e_vec, add_vector A st.2.2 M_e_vec (sys.dof_map.dof_indices elem var_num))

/-- Loop over the mesh of `buildDiagonalL2MassMatrix`, in the arithmetic `A`. -/
def assemble_diagonal (A : Arith) (mesh : MeshBase) (sys : System) (M_vec : PetscVector) :
    PetscVector :=
  (mesh.active_local_elements.foldl (fun st elem =>
    (List.range sys.dof_map.n_variables).foldl (diagonal_elem_var A mesh sys elem) st)
    (DenseMatrix.empty, DenseVector.empty, M_vec)).2.2

/-- The function `FEProjector::buildDiagonalL2MassMatrix(system_name)`, its element
loop in the arithmetic `A`. -/
def buildDiagonalL2MassMatrix (A : Arith) (p : FEProjector) (system_name : String) :
    FEProjector × PetscVector :=
  match p.d_L2_proj_matrix_diag system_name with
  | some M_vec => (p, M_vec)
  | none =>
    let M_vec := assemble_diagonal A p.d_fe_data.get_mesh (p.d_fe_data.get_system system_name)
      ⟨p.heap_next, fun _ => 0⟩
    ({ p with d_L2_proj_matrix_diag := map_assign p.d_L2_proj_matrix_diag system_name M_vec,
              heap_next := p.heap_next + 1,
              plog := log_line p
                "FEProjector::buildDiagonalL2MassMatrix(): building diagonal L2 mass matrix for system: "
                system_name },
      M_vec)

end Rounded

/-- A 2 x 2 element matrix with unit diagonal and off-diagonal entries
`2 ^ (-50)`. -/
def dyadic_offdiag : DenseMatrix := ⟨2, 2, fun i j => if i = j then 1 else 1 / 2 ^ 50⟩

/-- A 2 x 2 element matrix with unit diagonal whose off-diagonal entries are the
double `1e-12`. -/
def threshold_offdiag : DenseMatrix := ⟨2, 2, fun i j => if i = j then 1 else literal_1e_12⟩

/-- A system with two basis functions and one quadrature point of weight 1 where
the first basis function takes the value `2 ^ (-600)` and the second the value
`1`. -/
def underflow_system : System :=
  { number := 0, dof_map := free_dof_map,
    fe := { n_points := fun _ => 1, JxW := fun _ _ => 1,
            phi := fun _ i _ => if i = 0 then 1 / 2 ^ 600 else 1 },
    n_comp := fun _ _ => 1, dof_number := fun node _ _ => node }

/-- A freshly constructed projector over the one-element mesh and
`underflow_system`. -/
def underflow_projector : FEProjector :=
  FEProjector.mk_empty ⟨unit_mesh, fun _ => underflow_system⟩ false

/-- A system with two basis functions and one quadrature point of weight 1 where
the basis functions take the values of the doubles `0.3` and `0.7`. -/
def gram_system : System :=
  { number := 0, dof_map := free_dof_map,
    fe := { n_points := fun _ => 1, JxW := fun _ _ => 1,
            phi := fun _ i _ =>
              if i = 0 then 5404319552844595 / 2 ^ 54 else 3152519739159347 / 2 ^ 52 },
    n_comp := fun _ _ => 1, dof_number := fun node _ _ => node }

/-! ## Lemmas on `prune_roundoff_entries` -/

theorem min_fold_le_init (g : Nat → ℚ) (a : ℚ) (k : Nat) :
    (List.range k).foldl (fun acc i => min (g i) acc) a ≤ a := by
  induction k with
  | zero => simp
  | succ k ih =>
    rw [List.range_succ, List.foldl_append]
    simpa using Or.inr ih

theorem min_fold_le_entry (g : Nat → ℚ) (a : ℚ) (k i : Nat) (hi : i < k) :
    (List.range k).foldl (fun acc i => min (g i) acc) a ≤ g i := by
  induction k with
  | zero => omega
  | succ k ih =>
    rw [List.range_succ, List.foldl_append]
    rcases Nat.lt_succ_iff_lt_or_eq.mp hi with h | h
    · simpa using Or.inr (ih h)
    · subst h; simp

theorem min_fold_attained (g : Nat → ℚ) (a : ℚ) (k : Nat) :
    (List.range k).foldl (fun acc i => min (g i) acc) a = a ∨
      ∃ i, i < k ∧ (List.range k).foldl (fun acc i => min (g i) acc) a = g i := by
  induction k with
  | zero => simp
  | succ k ih =>
    rw [List.range_succ, List.foldl_append]
    simp only [List.foldl_cons, List.foldl_nil]
    rcases min_cases (g k) ((List.range k).foldl (fun acc i => min (g i) acc) a) with h | h
    · exact Or.inr ⟨k, by omega, h.1⟩
    · rw [h.1]
      rcases ih with h0 | ⟨i, hi, h0⟩
      · exact Or.inl h0
      · exact Or.inr ⟨i, by omega, h0⟩

theorem prune_row_spec (thr : ℚ) (i k : Nat) (M : DenseMatrix) :
    ((List.range k).foldl (prune_step thr i) M).m = M.m ∧
    ((List.range k).foldl (prune_step thr i) M).n = M.n ∧
    ∀ a b, ((List.range k).foldl (prune_step thr i) M).val a b =
      if a = i ∧ b < k ∧ a ≠ b ∧ |M.val a b| < prune_tol * thr then 0 else M.val a b := by
  induction k with
  | zero => simp
  | succ k ih =>
    rw [List.range_succ, List.foldl_append]
    simp only [List.foldl_cons, List.foldl_nil]
    generalize (List.range k).foldl (prune_step thr i) M = X at ih ⊢
    obtain ⟨hm, hn, hv⟩ := ih
    have hk : X.val i k = M.val i k := by
      rw [hv]; rw [if_neg]; rintro ⟨_, h2, _⟩; omega
    unfold prune_step
    by_cases hik : i = k
    · rw [if_pos hik]
      refine ⟨hm, hn, fun a b => ?_⟩
      rw [hv]
      by_cases c1 : a = i ∧ b < k ∧ a ≠ b ∧ |M.val a b| < prune_tol * thr
      · rw [if_pos c1, if_pos ⟨c1.1, by omega, c1.2.2⟩]
      · rw [if_neg c1, if_neg]
        rintro ⟨h1, h2, h3, h4⟩
        exact c1 ⟨h1, by omega, h3, h4⟩
    · rw [if_neg hik, hk]
      by_cases hsmall : |M.val i k| < prune_tol * thr
      · rw [if_pos hsmall]
        refine ⟨hm, hn, fun a b => ?_⟩
        simp only [DenseMatrix.set]
        by_cases hab : a = i ∧ b = k
        · obtain ⟨rfl, rfl⟩ := hab
          rw [if_pos ⟨rfl, rfl⟩, if_pos ⟨rfl, by omega, hik, hsmall⟩]
        · rw [if_neg hab, hv]
          by_cases c1 : a = i ∧ b < k ∧ a ≠ b ∧ |M.val a b| < prune_tol * thr
          · rw [if_pos c1, if_pos ⟨c1.1, by omega, c1.2.2⟩]
          · rw [if_neg c1, if_neg]
            rintro ⟨h1, h2, h3, h4⟩
            rcases Nat.lt_succ_iff_lt_or_eq.mp h2 with h | h
            · exact c1 ⟨h1, h, h3, h4⟩
            · exact hab ⟨h1, h⟩
      · rw [if_neg hsmall]
        refine ⟨hm, hn, fun a b => ?_⟩
        rw [hv]
        by_cases c1 : a = i ∧ b < k ∧ a ≠ b ∧ |M.val a b| < prune_tol * thr
        · rw [if_pos c1, if_pos ⟨c1.1, by omega, c1.2.2⟩]
        · rw [if_neg c1, if_neg]
          rintro ⟨h1, h2, h3, h4⟩
          rcases Nat.lt_succ_iff_lt_or_eq.mp h2 with h | h
          · exact c1 ⟨h1, h, h3, h4⟩
          · subst h1; subst h; exact hsmall h4

theorem prune_rows_spec (thr : ℚ) (n k : Nat) (M : DenseMatrix) :
    ((List.range k).foldl (fun M i => (List.range n).foldl (prune_step thr i) M) M).m = M.m ∧
    ((List.range k).foldl (fun M i => (List.range n).foldl (prune_step thr i) M) M).n = M.n ∧
    ∀ a b, ((List.range k).foldl
        (fun M i => (List.range n).foldl (prune_step thr i) M) M).val a b =
      if a < k ∧ b < n ∧ a ≠ b ∧ |M.val a b| < prune_tol * thr then 0 else M.val a b := by
  induction k with
  | zero => simp
  | succ k ih =>
    rw [List.range_succ, List.foldl_append]
    simp only [List.foldl_cons, List.foldl_nil]
    generalize (List.range k).foldl
      (fun M i => (List.range n).foldl (prune_step thr i) M) M = X at ih ⊢
    obtain ⟨hm, hn, hv⟩ := ih
    obtain ⟨rm, rn, rv⟩ := prune_row_spec thr k n X
    refine ⟨rm.trans hm, rn.trans hn, fun a b => ?_⟩
    rw [rv]
    by_cases hak : a = k
    · subst hak
      have hX : X.val a b = M.val a b := by
        rw [hv, if_neg]; rintro ⟨h, _⟩; omega
      rw [hX]
      by_cases c1 : b < n ∧ a ≠ b ∧ |M.val a b| < prune_tol * thr
      · rw [if_pos ⟨rfl, c1⟩, if_pos ⟨by omega, c1⟩]
      · rw [if_neg (fun h => c1 h.2), if_neg (fun h => c1 h.2)]
    · rw [if_neg (fun h => hak h.1), hv]
      by_cases c1 : a < k ∧ b < n ∧ a ≠ b ∧ |M.val a b| < prune_tol * thr
      · rw [if_pos c1, if_pos ⟨by omega, c1.2⟩]
      · rw [if_neg c1, if_neg]
        rintro ⟨h1, h2⟩
        exact c1 ⟨by omega, h2⟩

/-- Entry-wise description of `prune_roundoff_entries`. -/
theorem prune_val (M : DenseMatrix) (a b : Nat) :
    (prune_roundoff_entries M).val a b =
      if a < M.m ∧ b < M.n ∧ a ≠ b ∧ |M.val a b| < prune_tol * min_diagonal_entry M
      then 0 else M.val a b :=
  (prune_rows_spec (min_diagonal_entry M) M.n M.m M).2.2 a b

theorem prune_m (M : DenseMatrix) : (prune_roundoff_entries M).m = M.m :=
  (prune_rows_spec (min_diagonal_entry M) M.n M.m M).1

theorem prune_n (M : DenseMatrix) : (prune_roundoff_entries M).n = M.n :=
  (prune_rows_spec (min_diagonal_entry M) M.n M.m M).2.1

theorem DenseMatrix.ext_fields {A B : DenseMatrix} (hm : A.m = B.m) (hn : A.n = B.n)
    (hv : ∀ a b, A.val a b = B.val a b) : A = B := by
  cases A; cases B
  simp only [DenseMatrix.mk.injEq] at *
  exact ⟨hm, hn, funext fun a => funext fun b => hv a b⟩

theorem prune_tol_pos : 0 < prune_tol := by unfold prune_tol; positivity

theorem min_diagonal_entry_le (M : DenseMatrix) (k : Nat) (hk : k < min M.m M.n) :
    min_diagonal_entry M ≤ M.val k k :=
  min_fold_le_entry (fun i => M.val i i) DBL_MAX _ k hk

theorem min_diagonal_entry_eq (M : DenseMatrix) (d : ℚ) (hd : IsSmallestDiagonal M d)
    (hrep : ∀ k, k < min M.m M.n → M.val k k ≤ DBL_MAX) : min_diagonal_entry M = d := by
  obtain ⟨⟨k, hk, hkd⟩, hle⟩ := hd
  apply le_antisymm
  · rw [← hkd]; exact min_diagonal_entry_le M k hk
  · rcases min_fold_attained (fun i => M.val i i) DBL_MAX (min M.m M.n) with h | ⟨i, hi, h⟩
    · unfold min_diagonal_entry; rw [h, ← hkd]; exact hrep k hk
    · unfold min_diagonal_entry; rw [h]; exact hle i hi

theorem tiny_offdiag_smallest : IsSmallestDiagonal tiny_offdiag 1 :=
  ⟨⟨0, by decide, by simp [tiny_offdiag]⟩, fun k _ => by simp [tiny_offdiag]⟩

theorem half_offdiag_smallest : IsSmallestDiagonal half_offdiag 1 :=
  ⟨⟨0, by decide, by simp [half_offdiag]⟩, fun k _ => by simp [half_offdiag]⟩

/-! ## Roundoff pruning: postcondition and frame -/

/-- C8. Pruning frame. `prune_roundoff_entries` never changes a diagonal entry,
never changes the dimensions, and, `d` being the smallest diagonal entry of `M_e`,
leaves unchanged every entry whose magnitude is at least `1e-12 * d`; when
`d <= 0` the matrix is returned unchanged. -/
theorem prune_roundoff_entries_frame (M_e : DenseMatrix) :
    (∀ i, (prune_roundoff_entries M_e).val i i = M_e.val i i) ∧
    (prune_roundoff_entries M_e).m = M_e.m ∧
    (prune_roundoff_entries M_e).n = M_e.n ∧
    ∀ d, IsSmallestDiagonal M_e d →
      (∀ i j, i ≠ j → prune_tol * d ≤ |M_e.val i j| →
        (prune_roundoff_entries M_e).val i j = M_e.val i j) ∧
      (d ≤ 0 → prune_roundoff_entries M_e = M_e) := by
  refine ⟨fun i => ?_, prune_m M_e, prune_n M_e, fun d hd => ?_⟩
  · rw [prune_val, if_neg]; rintro ⟨_, _, h, _⟩; exact h rfl
  · obtain ⟨⟨k, hk, hkd⟩, _⟩ := hd
    have hle : min_diagonal_entry M_e ≤ d := hkd ▸ min_diagonal_entry_le M_e k hk
    have hthr : prune_tol * min_diagonal_entry M_e ≤ prune_tol * d :=
      mul_le_mul_of_nonneg_left hle prune_tol_pos.le
    refine ⟨fun i j _ hbig => ?_, fun hd0 => ?_⟩
    · rw [prune_val, if_neg]
      rintro ⟨_, _, _, h⟩
      exact absurd (lt_of_lt_of_le h hthr) (not_lt.mpr hbig)
    · refine DenseMatrix.ext_fields (prune_m M_e) (prune_n M_e) fun a b => ?_
      rw [prune_val, if_neg]
      rintro ⟨_, _, _, h⟩
      have h1 : prune_tol * d ≤ 0 := mul_nonpos_of_nonneg_of_nonpos prune_tol_pos.le hd0
      exact absurd (lt_of_lt_of_le h (hthr.trans h1)) (not_lt.mpr (abs_nonneg _))

/-- Witness for C8 on the matrix with unit diagonal and off-diagonal `1/2`:
entry `(0, 1)` has magnitude above `1e-12 * 1` and is kept. -/
theorem prune_roundoff_entries_frame_witness :
    (prune_roundoff_entries half_offdiag).val 0 1 = half_offdiag.val 0 1 :=
  ((prune_roundoff_entries_frame half_offdiag).2.2.2 1 half_offdiag_smallest).1 0 1
    (by decide) (by simp only [half_offdiag, prune_tol]; norm_num [abs_of_pos])

/-! ## Lemmas on the element loops -/

theorem trace_loop_eq (n : Nat) (M : DenseMatrix) :
    trace_loop n M = ∑ i in Finset.range n, M.val i i := by
  unfold trace_loop
  induction n with
  | zero => simp
  | succ k ih => rw [List.range_succ, List.foldl_append, Finset.sum_range_succ, ← ih]; rfl

theorem lump_vector_loop_spec (vol tr_M : ℚ) (n : Nat) (M : DenseMatrix) (v : DenseVector) :
    (lump_vector_loop vol tr_M n M v).size = v.size ∧
    ∀ a, (lump_vector_loop vol tr_M n M v).val a =
      if a < n then vol * M.val a a / tr_M else v.val a := by
  unfold lump_vector_loop
  induction n with
  | zero => simp
  | succ k ih =>
    rw [List.range_succ, List.foldl_append]
    simp only [List.foldl_cons, List.foldl_nil]
    generalize (List.range k).foldl (fun v i => v.set i (vol * M.val i i / tr_M)) v = X at ih ⊢
    refine ⟨ih.1, fun a => ?_⟩
    simp only [DenseVector.set]
    by_cases hak : a = k
    · subst hak; rw [if_pos rfl, if_pos (Nat.lt_succ_self a)]
    · rw [if_neg hak, ih.2]
      by_cases h : a < k
      · rw [if_pos h, if_pos (by omega)]
      · rw [if_neg h, if_neg (by omega)]

theorem lump_matrix_loop_spec (vol tr_M : ℚ) (n : Nat) (M D : DenseMatrix) :
    (lump_matrix_loop vol tr_M n M D).m = D.m ∧ (lump_matrix_loop vol tr_M n M D).n = D.n ∧
    ∀ a b, (lump_matrix_loop vol tr_M n M D).val a b =
      if a = b ∧ a < n then vol * M.val a a / tr_M else D.val a b := by
  unfold lump_matrix_loop
  induction n with
  | zero => simp
  | succ k ih =>
    rw [List.range_succ, List.foldl_append]
    simp only [List.foldl_cons, List.foldl_nil]
    generalize (List.range k).foldl (fun D i => D.set i i (vol * M.val i i / tr_M)) D = X
      at ih ⊢
    refine ⟨ih.1, ih.2.1, fun a b => ?_⟩
    simp only [DenseMatrix.set]
    by_cases hab : a = k ∧ b = k
    · obtain ⟨rfl, rfl⟩ := hab
      rw [if_pos ⟨rfl, rfl⟩, if_pos ⟨rfl, Nat.lt_succ_self _⟩]
    · rw [if_neg hab, ih.2.2]
      by_cases h : a = b ∧ a < k
      · rw [if_pos h, if_pos ⟨h.1, by omega⟩]
      · rw [if_neg h, if_neg]
        rintro ⟨h1, h2⟩
        rcases Nat.lt_succ_iff_lt_or_eq.mp h2 with h3 | h3
        · exact h ⟨h1, h3⟩
        · exact hab ⟨h3, h1 ▸ h3⟩

theorem quadrature_qp_spec (t : Nat → ℚ) (i j q : Nat) (M : DenseMatrix) :
    ((List.range q).foldl (fun M qp => M.set i j (M.val i j + t qp)) M).m = M.m ∧
    ((List.range q).foldl (fun M qp => M.set i j (M.val i j + t qp)) M).n = M.n ∧
    ∀ a b, ((List.range q).foldl (fun M qp => M.set i j (M.val i j + t qp)) M).val a b =
      if a = i ∧ b = j then M.val i j + ∑ qp in Finset.range q, t qp else M.val a b := by
  induction q with
  | zero =>
    refine ⟨rfl, rfl, fun a b => ?_⟩
    by_cases h : a = i ∧ b = j
    · obtain ⟨rfl, rfl⟩ := h; simp
    · simp [h]
  | succ k ih =>
    rw [List.range_succ, List.foldl_append]
    simp only [List.foldl_cons, List.foldl_nil]
    generalize (List.range k).foldl (fun M qp => M.set i j (M.val i j + t qp)) M = X at ih ⊢
    refine ⟨ih.1, ih.2.1, fun a b => ?_⟩
    simp only [DenseMatrix.set]
    by_cases h : a = i ∧ b = j
    · rw [if_pos h, if_pos h, ih.2.2, if_pos ⟨rfl, rfl⟩, Finset.sum_range_succ]; ring
    · rw [if_neg h, if_neg h, ih.2.2, if_neg h]

theorem quadrature_j_spec (t : Nat → Nat → ℚ) (i q k : Nat) (M : DenseMatrix) :
    ((List.range k).foldl (fun M j =>
      (List.range q).foldl (fun M qp => M.set i j (M.val i j + t j qp)) M) M).m = M.m ∧
    ((List.range k).foldl (fun M j =>
      (List.range q).foldl (fun M qp => M.set i j (M.val i j + t j qp)) M) M).n = M.n ∧
    ∀ a b, ((List.range k).foldl (fun M j =>
      (List.range q).foldl (fun M qp => M.set i j (M.val i j + t j qp)) M) M).val a b =
      if a = i ∧ b < k then M.val a b + ∑ qp in Finset.range q, t b qp else M.val a b := by
  induction k with
  | zero => simp
  | succ k ih =>
    rw [List.range_succ, List.foldl_append]
    simp only [List.foldl_cons, List.foldl_nil]
    generalize (List.range k).foldl (fun M j =>
      (List.range q).foldl (fun M qp => M.set i j (M.val i j + t j qp)) M) M = X at ih ⊢
    obtain ⟨qm, qn, qv⟩ := quadrature_qp_spec (t k) i k q X
    refine ⟨qm.trans ih.1, qn.trans ih.2.1, fun a b => ?_⟩
    rw [qv]
    by_cases h : a = i ∧ b = k
    · obtain ⟨rfl, rfl⟩ := h
      rw [if_pos ⟨rfl, rfl⟩, if_pos ⟨rfl, Nat.lt_succ_self _⟩, ih.2.2, if_neg]
      rintro ⟨_, h⟩; omega
    · rw [if_neg h, ih.2.2]
      by_cases c : a = i ∧ b < k
      · rw [if_pos c, if_pos ⟨c.1, by omega⟩]
      · rw [if_neg c, if_neg]
        rintro ⟨h1, h2⟩
        rcases Nat.lt_succ_iff_lt_or_eq.mp h2 with h3 | h3
        · exact c ⟨h1, h3⟩
        · exact h ⟨h1, h3⟩

/-- Entry-wise description of the quadrature loop. -/
theorem quadrature_loop_spec (phi : Nat → Nat → ℚ) (JxW : Nat → ℚ) (n q k : Nat)
    (M : DenseMatrix) :
    ((List.range k).foldl (fun M i => (List.range n).foldl (fun M j =>
      (List.range q).foldl (fun M qp =>
        M.set i j (M.val i j + (phi i qp * phi j qp) * JxW qp)) M) M) M).m = M.m ∧
    ((List.range k).foldl (fun M i => (List.range n).foldl (fun M j =>
      (List.range q).foldl (fun M qp =>
        M.set i j (M.val i j + (phi i qp * phi j qp) * JxW qp)) M) M) M).n = M.n ∧
    ∀ a b, ((List.range k).foldl (fun M i => (List.range n).foldl (fun M j =>
      (List.range q).foldl (fun M qp =>
        M.set i j (M.val i j + (phi i qp * phi j qp) * JxW qp)) M) M) M).val a b =
      if a < k ∧ b < n
      then M.val a b + ∑ qp in Finset.range q, (phi a qp * phi b qp) * JxW qp
      else M.val a b := by
  induction k with
  | zero => simp
  | succ k ih =>
    rw [List.range_succ, List.foldl_append]
    simp only [List.foldl_cons, List.foldl_nil]
    generalize (List.range k).foldl (fun M i => (List.range n).foldl (fun M j =>
      (List.range q).foldl (fun M qp =>
        M.set i j (M.val i j + (phi i qp * phi j qp) * JxW qp)) M) M) M = X at ih ⊢
    obtain ⟨jm, jn, jv⟩ :=
      quadrature_j_spec (fun j qp => (phi k qp * phi j qp) * JxW qp) k q n X
    refine ⟨jm.trans ih.1, jn.trans ih.2.1, fun a b => ?_⟩
    rw [jv]
    by_cases hak : a = k
    · subst hak
      have hX : X.val a b = M.val a b := by
        rw [ih.2.2, if_neg]; rintro ⟨h, _⟩; omega
      rw [hX]
      by_cases hb : b < n
      · rw [if_pos ⟨rfl, hb⟩, if_pos ⟨Nat.lt_succ_self _, hb⟩]
      · rw [if_neg (fun h => hb h.2), if_neg (fun h => hb h.2)]
    · rw [if_neg (fun h => hak h.1), ih.2.2]
      by_cases c : a < k ∧ b < n
      · rw [if_pos c, if_pos ⟨by omega, c.2⟩]
      · rw [if_neg c, if_neg]
        rintro ⟨h1, h2⟩
        exact c ⟨by omega, h2⟩

/-- Entries of the element mass matrix: the quadrature sum inside the block of
local DOFs, zero elsewhere. -/
theorem element_mass_matrix_val (sys : System) (elem var_num : Nat) (M_prev : DenseMatrix)
    (a b : Nat) :
    (element_mass_matrix sys elem var_num M_prev).val a b =
      if a < (sys.dof_map.dof_indices elem var_num).length ∧
          b < (sys.dof_map.dof_indices elem var_num).length
      then ∑ qp in Finset.range (sys.fe.n_points elem),
        (sys.fe.phi elem a qp * sys.fe.phi elem b qp) * sys.fe.JxW elem qp
      else 0 := by
  unfold element_mass_matrix quadrature_loop
  rw [(quadrature_loop_spec _ _ _ _ _ _).2.2]
  simp [DenseMatrix.resize]

theorem element_mass_matrix_dims (sys : System) (elem var_num : Nat) (M_prev : DenseMatrix) :
    (element_mass_matrix sys elem var_num M_prev).m =
      (sys.dof_map.dof_indices elem var_num).length ∧
    (element_mass_matrix sys elem var_num M_prev).n =
      (sys.dof_map.dof_indices elem var_num).length := by
  unfold element_mass_matrix quadrature_loop
  exact ⟨(quadrature_loop_spec _ _ _ _ _ _).1, (quadrature_loop_spec _ _ _ _ _ _).2.1⟩

theorem lumped_sum (vol tr_M : ℚ) (n : Nat) (M : DenseMatrix)
    (htr : trace_loop n M = tr_M) (h0 : tr_M ≠ 0) :
    ∑ i in Finset.range n, vol * M.val i i / tr_M = vol := by
  rw [← Finset.sum_div, ← Finset.mul_sum, ← trace_loop_eq, htr]
  field_simp

/-! ## Mass conservation of the lumping -/

/-- C1. Mass conservation of lumping. For every element and variable whose element
mass matrix has non-zero trace, the lumped entries `vol * M_e(i,i) / tr_M` written
by the loop body of `buildDiagonalL2MassMatrix` (into `M_e_vec`) and by the lumping
loop of `buildLumpedL2ProjectionSolver` (onto the diagonal of `M_e_diagonal`) sum
over the local DOFs to the element volume. -/
theorem lumped_entries_sum_to_volume (mesh : MeshBase) (sys : System) (elem var_num : Nat)
    (st : DenseMatrix × DenseVector × PetscVector) (D : DenseMatrix)
    (htr : trace_loop (sys.dof_map.dof_indices elem var_num).length
      (element_mass_matrix sys elem var_num st.1) ≠ 0) :
    ∑ i in Finset.range (sys.dof_map.dof_indices elem var_num).length,
        (diagonal_elem_var mesh sys elem st var_num).2.1.val i = mesh.volume elem ∧
    ∑ i in Finset.range (sys.dof_map.dof_indices elem var_num).length,
        (lump_matrix_loop (mesh.volume elem)
          (trace_loop (sys.dof_map.dof_indices elem var_num).length
            (element_mass_matrix sys elem var_num st.1))
          (sys.dof_map.dof_indices elem var_num).length
          (element_mass_matrix sys elem var_num st.1)
          (D.resize (sys.dof_map.dof_indices elem var_num).length
            (sys.dof_map.dof_indices elem var_num).length)).val i i = mesh.volume elem := by
  constructor
  · simp only [diagonal_elem_var]
    rw [Finset.sum_congr rfl (fun i hi => by
      rw [(lump_vector_loop_spec _ _ _ _ _).2 i, if_pos (Finset.mem_range.mp hi)])]
    exact lumped_sum _ _ _ _ rfl htr
  · rw [Finset.sum_congr rfl (fun i hi => by
      rw [(lump_matrix_loop_spec _ _ _ _ _).2.2 i i, if_pos ⟨rfl, Finset.mem_range.mp hi⟩])]
    exact lumped_sum _ _ _ _ rfl htr

/-- Witness for C1 on the one-element mesh of volume 1 with two local DOFs: the
trace of the element matrix is `1/2`, and the two lumped entries sum to `1`. -/
theorem lumped_entries_sum_to_volume_witness :
    ∑ i in Finset.range 2,
      (diagonal_elem_var unit_mesh two_dof_system 0
        (DenseMatrix.empty, DenseVector.empty, ⟨0, fun _ => 0⟩) 0).2.1.val i = 1 :=
  (lumped_entries_sum_to_volume unit_mesh two_dof_system 0 0
    (DenseMatrix.empty, DenseVector.empty, ⟨0, fun _ => 0⟩) DenseMatrix.empty
    (by
      rw [trace_loop_eq]
      simp only [element_mass_matrix_val]
      norm_num [two_dof_system, free_dof_map, Finset.sum_range_succ])).1

/-! ## Symmetry of the consistent mass matrix -/

theorem foldl_invariant {α β : Type} (P : α → Prop) (f : α → β → α) (l : List β) (a : α)
    (h0 : P a) (hstep : ∀ a b, P a → P (f a b)) : P (l.foldl f a) := by
  induction l generalizing a with
  | nil => exact h0
  | cons x xs ih => exact ih (f a x) (hstep a x h0)

theorem foldl_invariant_mem {α β : Type} (P : α → Prop) (f : α → β → α) (l : List β) (a : α)
    (h0 : P a) (hstep : ∀ a b, b ∈ l → P a → P (f a b)) : P (l.foldl f a) := by
  induction l generalizing a with
  | nil => exact h0
  | cons x xs ih =>
    exact ih (f a x) (hstep a x (List.mem_cons_self x xs) h0)
      (fun a b hb => hstep a b (List.mem_cons_of_mem x hb))

theorem element_mass_matrix_symm (sys : System) (elem var_num : Nat) (M_prev : DenseMatrix)
    (a b : Nat) :
    (element_mass_matrix sys elem var_num M_prev).val a b =
      (element_mass_matrix sys elem var_num M_prev).val b a := by
  rw [element_mass_matrix_val, element_mass_matrix_val]
  by_cases h : a < (sys.dof_map.dof_indices elem var_num).length ∧
      b < (sys.dof_map.dof_indices elem var_num).length
  · rw [if_pos h, if_pos ⟨h.2, h.1⟩]
    exact Finset.sum_congr rfl (fun qp _ => by ring)
  · rw [if_neg h, if_neg (fun h1 => h ⟨h1.2, h1.1⟩)]

theorem prune_symm (M : DenseMatrix) (hsq : M.m = M.n)
    (hs : ∀ a b, M.val a b = M.val b a) (a b : Nat) :
    (prune_roundoff_entries M).val a b = (prune_roundoff_entries M).val b a := by
  rw [prune_val, prune_val, hs b a]
  by_cases c : a < M.m ∧ b < M.n ∧ a ≠ b ∧ |M.val a b| < prune_tol * min_diagonal_entry M
  · rw [if_pos c, if_pos ⟨hsq ▸ c.2.1, hsq ▸ c.1, fun h => c.2.2.1 h.symm, c.2.2.2⟩]
  · rw [if_neg c, if_neg]
    rintro ⟨h1, h2, h3, h4⟩
    exact c ⟨hsq ▸ h2, hsq ▸ h1, fun h => h3 h.symm, h4⟩

theorem add_matrix_symm (M : PetscMatrix) (dm : DenseMatrix) (dofs : List Nat)
    (hsq : dm.m = dm.n) (hM : ∀ a b, M.val a b = M.val b a)
    (hdm : ∀ a b, dm.val a b = dm.val b a) (a b : Nat) :
    (M.add_matrix dm dofs).val a b = (M.add_matrix dm dofs).val b a := by
  simp only [PetscMatrix.add_matrix]
  rw [hM a b, Finset.sum_comm, hsq]
  congr 1
  refine Finset.sum_congr rfl (fun i _ => Finset.sum_congr rfl (fun j _ => ?_))
  rw [hdm j i]
  by_cases c : dofs.get? j = some a ∧ dofs.get? i = some b
  · rw [if_pos c, if_pos ⟨c.2, c.1⟩]
  · rw [if_neg c, if_neg (fun h => c ⟨h.2, h.1⟩)]

theorem set_pair_symm (M : PetscMatrix) (i j : Nat) (v : ℚ)
    (hM : ∀ a b, M.val a b = M.val b a) (a b : Nat) :
    ((M.set i j v).set j i v).val a b = ((M.set i j v).set j i v).val b a := by
  show (if a = j ∧ b = i then v else if a = i ∧ b = j then v else M.val a b) =
    (if b = j ∧ a = i then v else if b = i ∧ a = j then v else M.val b a)
  by_cases h1 : a = j ∧ b = i
  · rw [if_pos h1]
    by_cases h2 : b = j ∧ a = i
    · rw [if_pos h2]
    · rw [if_neg h2, if_pos ⟨h1.2, h1.1⟩]
  · rw [if_neg h1, if_neg (fun h : b = i ∧ a = j => h1 ⟨h.2, h.1⟩)]
    by_cases h2 : a = i ∧ b = j
    · rw [if_pos h2, if_pos ⟨h2.2, h2.1⟩]
    · rw [if_neg h2, if_neg (fun h : b = j ∧ a = i => h2 ⟨h.2, h.1⟩)]
      exact hM a b

theorem reset_dof_symm (dofs : List Nat) (node_dof_index : Nat) (M : PetscMatrix)
    (hM : ∀ a b, M.val a b = M.val b a) :
    ∀ a b, (reset_dof dofs node_dof_index M).val a b =
      (reset_dof dofs node_dof_index M).val b a := by
  unfold reset_dof
  refine foldl_invariant (fun M : PetscMatrix => ∀ a b, M.val a b = M.val b a) _ dofs M hM ?_
  intro M idx hM
  exact set_pair_symm M node_dof_index idx _ hM

theorem reset_dirichlet_symm (ids : BdryIds) (mesh : MeshBase) (sys : System) (M : PetscMatrix)
    (hM : ∀ a b, M.val a b = M.val b a) :
    ∀ a b, (reset_dirichlet ids mesh sys M).val a b = (reset_dirichlet ids mesh sys M).val b a := by
  unfold reset_dirichlet
  refine foldl_invariant (fun M : PetscMatrix => ∀ a b, M.val a b = M.val b a) _ _ M hM ?_
  intro M elem hM
  refine foldl_invariant (fun M : PetscMatrix => ∀ a b, M.val a b = M.val b a) _ _ M hM ?_
  intro M side hM
  unfold reset_side
  split
  · exact hM
  · simp only
    split
    · exact hM
    · refine foldl_invariant (fun M : PetscMatrix => ∀ a b, M.val a b = M.val b a) _ _ M hM ?_
      intro M n hM
      split
      · unfold reset_node
        refine foldl_invariant (fun M : PetscMatrix => ∀ a b, M.val a b = M.val b a)
          _ _ M hM ?_
        intro M var_num hM
        refine foldl_invariant (fun M : PetscMatrix => ∀ a b, M.val a b = M.val b a)
          _ _ M hM ?_
        intro M comp hM
        split
        · exact hM
        · simp only
          split
          · exact hM
          · exact reset_dof_symm _ _ M hM
      · exact hM

theorem assemble_consistent_symm (mesh : MeshBase) (sys : System) (M : PetscMatrix)
    (hnc : ∀ M_e dofs, sys.dof_map.constrain_element_matrix M_e dofs = (M_e, dofs))
    (hM : ∀ a b, M.val a b = M.val b a) :
    ∀ a b, (assemble_consistent mesh sys M).val a b = (assemble_consistent mesh sys M).val b a := by
  unfold assemble_consistent
  refine foldl_invariant (fun st : DenseMatrix × PetscMatrix => ∀ a b, st.2.val a b = st.2.val b a)
    _ _ _ hM ?_
  intro st elem hst
  refine foldl_invariant (fun st : DenseMatrix × PetscMatrix => ∀ a b, st.2.val a b = st.2.val b a)
    _ _ _ hst ?_
  intro st var_num hst
  simp only [consistent_elem_var, hnc]
  refine add_matrix_symm _ _ _ ?_ hst ?_
  · rw [prune_m, prune_n, (element_mass_matrix_dims _ _ _ _).1,
      (element_mass_matrix_dims _ _ _ _).2]
  · exact prune_symm _
      (by rw [(element_mass_matrix_dims _ _ _ _).1, (element_mass_matrix_dims _ _ _ _).2])
      (element_mass_matrix_symm _ _ _ _)

theorem buildL2ProjectionSolver_build (ids : BdryIds) (p : FEProjector) (system_name : String)
    (hmiss : p.d_L2_proj_solver system_name = none ∨ p.d_L2_proj_matrix system_name = none) :
    (buildL2ProjectionSolver ids p system_name).2.2 = built_L2_proj_matrix ids p system_name := by
  unfold buildL2ProjectionSolver
  split
  · rename_i hs hm
    rcases hmiss with h | h
    · rw [h] at hs; cases hs
    · rw [h] at hm; cases hm
  · rfl

/-- C2. Symmetry. For a system whose DOF map applies no constraint to element
matrices (`constrain_element_matrix` leaves matrix and index list as they are),
the global mass matrix stored and returned by a building call of
`buildL2ProjectionSolver` (quadrature element matrices, roundoff pruning,
scatter-add with one index list for rows and columns, Dirichlet reset) satisfies
`M[i][j] = M[j][i]` for all global DOF pairs. -/
theorem consistent_mass_matrix_symmetric (ids : BdryIds) (p : FEProjector)
    (system_name : String)
    (hmiss : p.d_L2_proj_solver system_name = none ∨ p.d_L2_proj_matrix system_name = none)
    (hnc : ∀ M_e dofs, (p.d_fe_data.get_system system_name).dof_map.constrain_element_matrix
      M_e dofs = (M_e, dofs)) (i j : Nat) :
    (buildL2ProjectionSolver ids p system_name).2.2.val i j =
      (buildL2ProjectionSolver ids p system_name).2.2.val j i := by
  rw [buildL2ProjectionSolver_build ids p system_name hmiss]
  unfold built_L2_proj_matrix
  exact reset_dirichlet_symm _ _ _ _
    (assemble_consistent_symm _ _ _ hnc (fun _ _ => rfl)) i j

/-- Witness for C2 on the one-element, two-DOF system: entries `(0, 1)` and
`(1, 0)` of the freshly built matrix agree. -/
theorem consistent_mass_matrix_symmetric_witness :
    (buildL2ProjectionSolver sample_bdry_ids two_dof_projector sample_name).2.2.val 0 1 =
      (buildL2ProjectionSolver sample_bdry_ids two_dof_projector sample_name).2.2.val 1 0 :=
  consistent_mass_matrix_symmetric sample_bdry_ids two_dof_projector sample_name
    (Or.inl rfl) (fun _ _ => rfl) 0 1

/-! ## Positive semi-definiteness -/

theorem rank2_M_e_val (a b : Nat) :
    (element_mass_matrix rank2_system 0 0 DenseMatrix.empty).val a b =
      if a < 3 ∧ b < 3 then rank2_phi a 0 * rank2_phi b 0 + rank2_phi a 1 * rank2_phi b 1
      else 0 := by
  rw [element_mass_matrix_val]
  simp [rank2_system, free_dof_map3, Finset.sum_range_succ]

theorem rank2_min_diagonal :
    min_diagonal_entry (element_mass_matrix rank2_system 0 0 DenseMatrix.empty) = 1 := by
  unfold min_diagonal_entry
  rw [(element_mass_matrix_dims _ _ _ _).1, (element_mass_matrix_dims _ _ _ _).2]
  simp only [rank2_M_e_val]
  norm_num [rank2_system, free_dof_map3, List.range_succ, rank2_phi, DBL_MAX]

theorem element_mass_matrix_prev (sys : System) (elem var_num : Nat) (M M' : DenseMatrix) :
    element_mass_matrix sys elem var_num M = element_mass_matrix sys elem var_num M' := rfl

theorem assemble_consistent_single (mesh : MeshBase) (sys : System) (M : PetscMatrix) (e : Nat)
    (h1 : mesh.active_local_elements = [e]) (h2 : sys.dof_map.n_variables = 1)
    (hnc : ∀ M_e dofs, sys.dof_map.constrain_element_matrix M_e dofs = (M_e, dofs)) :
    assemble_consistent mesh sys M =
      M.add_matrix (prune_roundoff_entries (element_mass_matrix sys e 0 DenseMatrix.empty))
        (sys.dof_map.dof_indices e 0) := by
  unfold assemble_consistent
  rw [h1, h2]
  simp only [List.foldl_cons, List.foldl_nil, List.range_succ, List.range_zero, List.nil_append,
    consistent_elem_var, hnc]

theorem reset_dirichlet_no_sides (ids : BdryIds) (mesh : MeshBase) (sys : System)
    (M : PetscMatrix) (h : ∀ e, mesh.n_sides e = 0) : reset_dirichlet ids mesh sys M = M := by
  unfold reset_dirichlet
  refine foldl_invariant (fun X : PetscMatrix => X = M) _ _ M rfl ?_
  intro X e hX
  rw [h e]
  exact hX

theorem rank2_built_val (a b : Nat) :
    (built_L2_proj_matrix sample_bdry_ids rank2_projector sample_name).val a b =
      ∑ i in Finset.range 3, ∑ j in Finset.range 3,
        if [0, 1, 2].get? i = some a ∧ [0, 1, 2].get? j = some b
        then (prune_roundoff_entries
          (element_mass_matrix rank2_system 0 0 DenseMatrix.empty)).val i j
        else 0 := by
  unfold built_L2_proj_matrix
  rw [reset_dirichlet_no_sides _ _ _ _ (fun _ => rfl),
    assemble_consistent_single _ _ _ 0 rfl rfl (fun _ _ => rfl)]
  simp only [PetscMatrix.add_matrix, prune_m, prune_n, (element_mass_matrix_dims _ _ _ _).1,
    (element_mass_matrix_dims _ _ _ _).2]
  have h3 : rank2_system.dof_map.dof_indices 0 0 = [0, 1, 2] := rfl
  have h2 : rank2_projector.d_fe_data.get_system sample_name = rank2_system := rfl
  rw [h2, h3]
  simp [new_mass_matrix, PetscMatrix.new]

theorem rank2_pruned_val (i j : Nat) :
    (prune_roundoff_entries (element_mass_matrix rank2_system 0 0 DenseMatrix.empty)).val i j =
      if i < 3 ∧ j < 3 ∧ i ≠ j ∧
          |(if i < 3 ∧ j < 3 then rank2_phi i 0 * rank2_phi j 0 + rank2_phi i 1 * rank2_phi j 1
            else 0)| < prune_tol * 1
      then 0
      else if i < 3 ∧ j < 3 then rank2_phi i 0 * rank2_phi j 0 + rank2_phi i 1 * rank2_phi j 1
      else 0 := by
  rw [prune_val, rank2_min_diagonal, rank2_M_e_val, (element_mass_matrix_dims _ _ _ _).1,
    (element_mass_matrix_dims _ _ _ _).2]
  rfl

/-- Counterexample to C10 as stated. On the one-element mesh with quadrature
weights `1, 1` (non-negative) and no DOF constraints, the basis values
`(1, 1e-13, 1)` and `(0, 1, 1)` give an element matrix whose entry `(0, 1)` is
`1e-13`, below `1e-12` times the smallest diagonal entry `1`; pruning zeroes it and
the assembled global matrix has `x^T M x = 1e-26 - 2e-13 < 0` at `x = (1, 1, -1)`. -/
theorem consistent_mass_matrix_not_psd :
    (∀ elem qp, 0 ≤ rank2_system.fe.JxW elem qp) ∧
    rank2_system.dof_map.n_constrained_dofs = 0 ∧
    (∀ M_e dofs, rank2_system.dof_map.constrain_element_matrix M_e dofs = (M_e, dofs)) ∧
    quad_form (buildL2ProjectionSolver sample_bdry_ids rank2_projector sample_name).2.2.val
      rank2_x 3 < 0 := by
  refine ⟨fun _ _ => by simp [rank2_system], rfl, fun _ _ => rfl, ?_⟩
  rw [buildL2ProjectionSolver_build _ _ _ (Or.inl rfl)]
  unfold quad_form
  simp only [rank2_built_val, rank2_pruned_val]
  norm_num [Finset.sum_range_succ, rank2_phi, rank2_x, prune_tol, abs_of_pos]

theorem scatter_gram (d : List Nat) (φ : Nat → Nat → ℚ) (w : Nat → ℚ) (n q a b : Nat) :
    ∑ i in Finset.range n, ∑ j in Finset.range n,
      (if d.get? i = some a ∧ d.get? j = some b
        then ∑ qp in Finset.range q, (φ i qp * φ j qp) * w qp else 0) =
    ∑ qp in Finset.range q, w qp *
      ((∑ i in Finset.range n, if d.get? i = some a then φ i qp else 0) *
       (∑ j in Finset.range n, if d.get? j = some b then φ j qp else 0)) := by
  symm
  simp_rw [Finset.sum_mul_sum, Finset.mul_sum]
  rw [Finset.sum_comm]
  refine Finset.sum_congr rfl (fun i _ => ?_)
  rw [Finset.sum_comm]
  refine Finset.sum_congr rfl (fun j _ => ?_)
  by_cases h1 : d.get? i = some a
  · by_cases h2 : d.get? j = some b
    · rw [if_pos ⟨h1, h2⟩]
      refine Finset.sum_congr rfl (fun qp _ => ?_)
      rw [if_pos h1, if_pos h2]; ring
    · rw [if_neg (fun h => h2 h.2)]
      refine Finset.sum_eq_zero (fun qp _ => ?_)
      rw [if_neg h2]; ring
  · rw [if_neg (fun h => h1 h.1)]
    refine Finset.sum_eq_zero (fun qp _ => ?_)
    rw [if_neg h1]; ring

theorem quad_form_add (A B : Nat → Nat → ℚ) (x : Nat → ℚ) (N : Nat) :
    quad_form (fun a b => A a b + B a b) x N = quad_form A x N + quad_form B x N := by
  unfold quad_form
  simp only [mul_add, add_mul, Finset.sum_add_distrib]

theorem quad_form_gram (c : Nat → Nat → ℚ) (w : Nat → ℚ) (x : Nat → ℚ) (q N : Nat) :
    quad_form (fun a b => ∑ qp in Finset.range q, w qp * (c a qp * c b qp)) x N =
      ∑ qp in Finset.range q, w qp * (∑ a in Finset.range N, x a * c a qp) ^ 2 := by
  unfold quad_form
  symm
  simp_rw [sq, Finset.sum_mul_sum, Finset.mul_sum]
  rw [Finset.sum_comm]
  refine Finset.sum_congr rfl (fun a _ => ?_)
  rw [Finset.sum_comm]
  refine Finset.sum_congr rfl (fun b _ => ?_)
  rw [Finset.sum_mul]
  refine Finset.sum_congr rfl (fun qp _ => ?_)
  ring

theorem quad_form_gram_nonneg (c : Nat → Nat → ℚ) (w : Nat → ℚ) (x : Nat → ℚ) (q N : Nat)
    (hw : ∀ qp, qp < q → 0 ≤ w qp) :
    0 ≤ quad_form (fun a b => ∑ qp in Finset.range q, w qp * (c a qp * c b qp)) x N := by
  rw [quad_form_gram]
  exact Finset.sum_nonneg (fun qp hqp =>
    mul_nonneg (hw qp (Finset.mem_range.mp hqp)) (sq_nonneg _))

theorem reset_dirichlet_unconstrained (ids : BdryIds) (mesh : MeshBase) (sys : System)
    (M : PetscMatrix) (hfree : ∀ d, sys.dof_map.is_constrained_dof d = false) :
    reset_dirichlet ids mesh sys M = M := by
  unfold reset_dirichlet
  refine foldl_invariant (fun X : PetscMatrix => X = M) _ _ M rfl ?_
  intro X elem hX
  refine foldl_invariant (fun X : PetscMatrix => X = M) _ _ X hX ?_
  intro X side hX
  unfold reset_side
  split
  · exact hX
  · simp only
    split
    · exact hX
    · refine foldl_invariant (fun X : PetscMatrix => X = M) _ _ X hX ?_
      intro X n hX
      split
      · unfold reset_node
        refine foldl_invariant (fun X : PetscMatrix => X = M) _ _ X hX ?_
        intro X var_num hX
        refine foldl_invariant (fun X : PetscMatrix => X = M) _ _ X hX ?_
        intro X comp hX
        split
        · exact hX
        · simp only [hfree, if_true]
          exact hX
      · exact hX

theorem prune_inactive (M : DenseMatrix)
    (hkeep : ∀ i j, i < M.m → j < M.n → i ≠ j →
      M.val i j = 0 ∨ prune_tol * min_diagonal_entry M ≤ |M.val i j|) (a b : Nat) :
    (prune_roundoff_entries M).val a b = M.val a b := by
  rw [prune_val]
  by_cases c : a < M.m ∧ b < M.n ∧ a ≠ b ∧ |M.val a b| < prune_tol * min_diagonal_entry M
  · rw [if_pos c]
    rcases hkeep a b c.1 c.2.1 c.2.2.1 with h | h
    · exact h.symm
    · exact absurd c.2.2.2 (not_lt.mpr h)
  · rw [if_neg c]

theorem add_matrix_quad_nonneg (M : PetscMatrix) (dm : DenseMatrix) (d : List Nat)
    (φ : Nat → Nat → ℚ) (w : Nat → ℚ) (n q : Nat) (hm : dm.m = n) (hn : dm.n = n)
    (hdm : ∀ i j, i < n → j < n → dm.val i j = ∑ qp in Finset.range q, (φ i qp * φ j qp) * w qp)
    (hw : ∀ qp, qp < q → 0 ≤ w qp) (x : Nat → ℚ) (N : Nat)
    (hM : 0 ≤ quad_form M.val x N) :
    0 ≤ quad_form (M.add_matrix dm d).val x N := by
  have hval : (M.add_matrix dm d).val = fun a b => M.val a b +
      ∑ qp in Finset.range q, w qp *
        ((∑ i in Finset.range n, if d.get? i = some a then φ i qp else 0) *
         (∑ j in Finset.range n, if d.get? j = some b then φ j qp else 0)) := by
    funext a b
    simp only [PetscMatrix.add_matrix, hm, hn]
    rw [← scatter_gram]
    congr 1
    refine Finset.sum_congr rfl (fun i hi => Finset.sum_congr rfl (fun j hj => ?_))
    rw [hdm i j (Finset.mem_range.mp hi) (Finset.mem_range.mp hj)]
  rw [hval, quad_form_add]
  exact add_nonneg hM (quad_form_gram_nonneg _ w x q N hw)

theorem assemble_consistent_psd (mesh : MeshBase) (sys : System) (M : PetscMatrix)
    (hnc : ∀ M_e dofs, sys.dof_map.constrain_element_matrix M_e dofs = (M_e, dofs))
    (hJxW : ∀ elem, elem ∈ mesh.active_local_elements → ∀ qp, qp < sys.fe.n_points elem →
      0 ≤ sys.fe.JxW elem qp)
    (hkeep : ∀ elem, elem ∈ mesh.active_local_elements → ∀ var_num,
      var_num < sys.dof_map.n_variables → ∀ i j,
      i < (sys.dof_map.dof_indices elem var_num).length →
      j < (sys.dof_map.dof_indices elem var_num).length → i ≠ j →
      (element_mass_matrix sys elem var_num DenseMatrix.empty).val i j = 0 ∨
      prune_tol * min_diagonal_entry (element_mass_matrix sys elem var_num DenseMatrix.empty) ≤
        |(element_mass_matrix sys elem var_num DenseMatrix.empty).val i j|)
    (x : Nat → ℚ) (N : Nat) (hM : 0 ≤ quad_form M.val x N) :
    0 ≤ quad_form (assemble_consistent mesh sys M).val x N := by
  unfold assemble_consistent
  refine foldl_invariant_mem (fun st : DenseMatrix × PetscMatrix => 0 ≤ quad_form st.2.val x N)
    _ _ _ hM ?_
  intro st elem helem hst
  refine foldl_invariant_mem (fun st : DenseMatrix × PetscMatrix => 0 ≤ quad_form st.2.val x N)
    _ _ _ hst ?_
  intro st var_num hvar hst
  simp only [consistent_elem_var, hnc]
  rw [element_mass_matrix_prev sys elem var_num st.1 DenseMatrix.empty]
  refine add_matrix_quad_nonneg _ _ _ (sys.fe.phi elem) (sys.fe.JxW elem)
    (sys.dof_map.dof_indices elem var_num).length (sys.fe.n_points elem) ?_ ?_ ?_
    (hJxW elem helem) x N hst
  · rw [prune_m, (element_mass_matrix_dims _ _ _ _).1]
  · rw [prune_n, (element_mass_matrix_dims _ _ _ _).2]
  · intro i j hi hj
    rw [prune_inactive, element_mass_matrix_val, if_pos ⟨hi, hj⟩]
    intro i j hi hj hij
    rw [(element_mass_matrix_dims _ _ _ _).1] at hi
    rw [(element_mass_matrix_dims _ _ _ _).2] at hj
    exact hkeep elem helem var_num (List.mem_range.mp hvar) i j hi hj hij

theorem two_dof_M_e_val (i j : Nat) (hi : i < 2) (hj : j < 2) :
    (element_mass_matrix two_dof_system 0 0 DenseMatrix.empty).val i j = 1 / 4 := by
  have h3 : two_dof_system.dof_map.dof_indices 0 0 = [0, 1] := rfl
  rw [element_mass_matrix_val, h3, if_pos ⟨hi, hj⟩]
  norm_num [two_dof_system, Finset.sum_range_succ]

theorem two_dof_keep (i j : Nat) (hi : i < 2) (hj : j < 2) :
    prune_tol * min_diagonal_entry (element_mass_matrix two_dof_system 0 0 DenseMatrix.empty) ≤
      |(element_mass_matrix two_dof_system 0 0 DenseMatrix.empty).val i j| := by
  have hmin : min_diagonal_entry (element_mass_matrix two_dof_system 0 0 DenseMatrix.empty) ≤
      1 / 4 := by
    rw [← two_dof_M_e_val 0 0 (by decide) (by decide)]
    refine min_diagonal_entry_le _ 0 ?_
    rw [(element_mass_matrix_dims _ _ _ _).1, (element_mass_matrix_dims _ _ _ _).2]
    decide
  rw [two_dof_M_e_val i j hi hj]
  have h1 : prune_tol * min_diagonal_entry
      (element_mass_matrix two_dof_system 0 0 DenseMatrix.empty) ≤ prune_tol * (1 / 4) :=
    mul_le_mul_of_nonneg_left hmin prune_tol_pos.le
  refine h1.trans ?_
  norm_num [prune_tol, abs_of_pos]

/-- C10 (amended). Positive semi-definiteness in exact arithmetic when pruning is
inactive. With the sums and products of the loops taken without rounding, for a
mesh with non-negative quadrature weights and a DOF map without constraints, if in
every element matrix each off-diagonal entry is either `0` or of magnitude at least
`1e-12` times `min_diagonal_entry` (so `prune_roundoff_entries` changes nothing),
the global matrix stored by a building call of `buildL2ProjectionSolver` is
symmetric and satisfies `x^T M x >= 0` for every vector `x` and every number `N` of
global DOFs. (In binary64 arithmetic the rounding of the products can make a
singular element matrix indefinite: `rounded_element_matrix_not_psd`.) -/
theorem consistent_mass_matrix_psd_of_inactive_pruning (ids : BdryIds) (p : FEProjector)
    (system_name : String)
    (hmiss : p.d_L2_proj_solver system_name = none ∨ p.d_L2_proj_matrix system_name = none)
    (hfree : (p.d_fe_data.get_system system_name).dof_map.Unconstrained)
    (hJxW : ∀ elem, elem ∈ p.d_fe_data.get_mesh.active_local_elements →
      ∀ qp, qp < (p.d_fe_data.get_system system_name).fe.n_points elem →
      0 ≤ (p.d_fe_data.get_system system_name).fe.JxW elem qp)
    (hkeep : ∀ elem, elem ∈ p.d_fe_data.get_mesh.active_local_elements → ∀ var_num,
      var_num < (p.d_fe_data.get_system system_name).dof_map.n_variables → ∀ i j,
      i < ((p.d_fe_data.get_system system_name).dof_map.dof_indices elem var_num).length →
      j < ((p.d_fe_data.get_system system_name).dof_map.dof_indices elem var_num).length →
      i ≠ j →
      (element_mass_matrix (p.d_fe_data.get_system system_name) elem var_num
        DenseMatrix.empty).val i j = 0 ∨
      prune_tol * min_diagonal_entry (element_mass_matrix
        (p.d_fe_data.get_system system_name) elem var_num DenseMatrix.empty) ≤
        |(element_mass_matrix (p.d_fe_data.get_system system_name) elem var_num
          DenseMatrix.empty).val i j|)
    (x : Nat → ℚ) (N : Nat) :
    (∀ i j, (buildL2ProjectionSolver ids p system_name).2.2.val i j =
      (buildL2ProjectionSolver ids p system_name).2.2.val j i) ∧
    0 ≤ quad_form (buildL2ProjectionSolver ids p system_name).2.2.val x N := by
  rw [buildL2ProjectionSolver_build ids p system_name hmiss]
  unfold built_L2_proj_matrix
  refine ⟨reset_dirichlet_symm _ _ _ _
    (assemble_consistent_symm _ _ _ hfree.2.2.1 (fun _ _ => rfl)), ?_⟩
  simp only
  rw [reset_dirichlet_unconstrained _ _ _ _ hfree.2.1]
  refine assemble_consistent_psd _ _ _ hfree.2.2.1 hJxW hkeep x N ?_
  simp [quad_form, new_mass_matrix, PetscMatrix.new]

/-- Witness for the amended C10 on the one-element, two-DOF system (all element
entries equal `1/4`, so nothing is pruned). -/
theorem consistent_mass_matrix_psd_of_inactive_pruning_witness :
    0 ≤ quad_form (buildL2ProjectionSolver sample_bdry_ids two_dof_projector sample_name).2.2.val
      (fun a => if a = 0 then 1 else -1) 2 :=
  (consistent_mass_matrix_psd_of_inactive_pruning sample_bdry_ids two_dof_projector sample_name (Or.inl rfl)
    ⟨rfl, fun _ => rfl, fun _ _ => rfl, fun _ => rfl⟩
    (fun _ _ _ _ => by simp [two_dof_projector, FEProjector.mk_empty, two_dof_system])
    (fun elem helem var_num hvar i j hi hj _ => by
      have he : elem = 0 := by simpa [two_dof_projector, FEProjector.mk_empty, unit_mesh] using helem
      have hv : var_num = 0 := by
        have : var_num < 1 := hvar
        omega
      subst he; subst hv
      exact Or.inr (two_dof_keep i j hi hj))
    (fun a => if a = 0 then 1 else -1) 2).2

/-! ## `computeL2Projection`: the two paths -/

theorem close_ite (c : Bool) (v : PetscVector) : (if c then v.close else v) = v := by
  cases c <;> rfl

theorem computeL2Projection_direct (ids : BdryIds) (petsc : Petsc) (p : FEProjector)
    (U_vec F_vec : PetscVector) (system_name : String)
    (consistent_mass_matrix close_U close_F : Bool) (tol : ℚ) (max_its : Nat)
    (hd : direct_division p system_name consistent_mass_matrix)
    (hok : petsc.VecPointwiseDivide_ierr = 0) :
    computeL2Projection ids petsc p U_vec F_vec system_name consistent_mass_matrix close_U
      close_F tol max_its =
    some ⟨(buildDiagonalL2MassMatrix p system_name).1,
      { U_vec with
        val := ((p.d_fe_data.get_system system_name).dof_map.enforce_constraints_exactly
          (fun i => F_vec.val i / (buildDiagonalL2MassMatrix p system_name).2.val i)) },
      true, [PetscCall.VecPointwiseDivide (buildDiagonalL2MassMatrix p system_name).2]⟩ := by
  unfold computeL2Projection finish_projection
  simp only [close_ite]
  rw [if_pos (show consistent_mass_matrix = false ∧
    (p.d_fe_data.get_system system_name).dof_map.n_constrained_dofs = 0 from hd), if_neg (not_not.mpr hok)]

theorem computeL2Projection_direct_abort (ids : BdryIds) (petsc : Petsc) (p : FEProjector)
    (U_vec F_vec : PetscVector) (system_name : String)
    (consistent_mass_matrix close_U close_F : Bool) (tol : ℚ) (max_its : Nat)
    (hd : direct_division p system_name consistent_mass_matrix)
    (hok : petsc.VecPointwiseDivide_ierr ≠ 0) :
    computeL2Projection ids petsc p U_vec F_vec system_name consistent_mass_matrix close_U
      close_F tol max_its = none := by
  unfold computeL2Projection
  simp only [close_ite]
  rw [if_pos (show consistent_mass_matrix = false ∧
    (p.d_fe_data.get_system system_name).dof_map.n_constrained_dofs = 0 from hd), if_pos hok]

theorem computeL2Projection_iterative (ids : BdryIds) (petsc : Petsc) (p : FEProjector)
    (U_vec F_vec : PetscVector) (system_name : String)
    (consistent_mass_matrix close_U close_F : Bool) (tol : ℚ) (max_its : Nat)
    (hd : ¬ direct_division p system_name consistent_mass_matrix)
    (hok : petsc.SolveOk) :
    computeL2Projection ids petsc p U_vec F_vec system_name consistent_mass_matrix close_U
      close_F tol max_its =
    some ⟨(buildLumpedL2ProjectionSolver
        (select_solver_components ids p system_name consistent_mass_matrix).1 system_name).1,
      { U_vec with
        val := ((p.d_fe_data.get_system system_name).dof_map.enforce_constraints_exactly
          (solve_outcome ids petsc p U_vec F_vec system_name consistent_mass_matrix tol
            max_its).1) },
      decide ((solve_outcome ids petsc p U_vec F_vec system_name consistent_mass_matrix tol
            max_its).2 > 0),
      [PetscCall.solve (select_solver_components ids p system_name consistent_mass_matrix).2.1
        (select_solver_components ids p system_name consistent_mass_matrix).2.2
        (lumped_mass_of ids p system_name consistent_mass_matrix)
        (tol_used petsc tol) (max_its_used petsc max_its)]⟩ := by
  obtain ⟨h1, h2, h3, h4⟩ := hok
  unfold computeL2Projection finish_projection
  simp only [close_ite]
  rw [if_neg (show ¬ (consistent_mass_matrix = false ∧
    (p.d_fe_data.get_system system_name).dof_map.n_constrained_dofs = 0) from hd), if_neg (not_not.mpr h1), if_neg (not_not.mpr h2), if_neg (not_not.mpr h3),
    if_neg (not_not.mpr h4)]
  rfl

theorem computeL2Projection_iterative_abort (ids : BdryIds) (petsc : Petsc) (p : FEProjector)
    (U_vec F_vec : PetscVector) (system_name : String)
    (consistent_mass_matrix close_U close_F : Bool) (tol : ℚ) (max_its : Nat)
    (hd : ¬ direct_division p system_name consistent_mass_matrix)
    (hok : ¬ petsc.SolveOk) :
    computeL2Projection ids petsc p U_vec F_vec system_name consistent_mass_matrix close_U
      close_F tol max_its = none := by
  unfold computeL2Projection
  simp only [close_ite]
  rw [if_neg (show ¬ (consistent_mass_matrix = false ∧
    (p.d_fe_data.get_system system_name).dof_map.n_constrained_dofs = 0) from hd)]
  by_cases h1 : petsc.ksp_rtol_ierr = 0
  · rw [if_neg (not_not.mpr h1)]
    by_cases h2 : petsc.ksp_max_it_ierr = 0
    · rw [if_neg (not_not.mpr h2)]
      by_cases h3 : petsc.KSPSetFromOptions_ierr = 0
      · rw [if_neg (not_not.mpr h3)]
        by_cases h4 : petsc.KSPGetConvergedReason_ierr = 0
        · exact absurd ⟨h1, h2, h3, h4⟩ hok
        · rw [if_pos h4]
      · rw [if_pos h3]
    · rw [if_pos h2]
  · rw [if_pos h1]

/-- C3. Direct-division fast path. For a system with zero constrained DOFs (whose
`enforce_constraints_exactly` therefore leaves vectors as they are) and
`consistent_mass_matrix = false`, a call of `computeL2Projection` whose
`VecPointwiseDivide` reports no error returns with every target entry equal to
`F[i] / D[i]`, `D` being the vector returned by `buildDiagonalL2MassMatrix`. -/
theorem direct_division_fast_path (ids : BdryIds) (petsc : Petsc) (p : FEProjector)
    (U_vec F_vec : PetscVector) (system_name : String) (close_U close_F : Bool) (tol : ℚ)
    (max_its : Nat)
    (h0 : (p.d_fe_data.get_system system_name).dof_map.n_constrained_dofs = 0)
    (henf : ∀ v, (p.d_fe_data.get_system system_name).dof_map.enforce_constraints_exactly v = v)
    (hok : petsc.VecPointwiseDivide_ierr = 0) :
    ∃ r, computeL2Projection ids petsc p U_vec F_vec system_name false close_U close_F tol
        max_its = some r ∧
      ∀ i, r.U_vec.val i = F_vec.val i / (buildDiagonalL2MassMatrix p system_name).2.val i := by
  refine ⟨_, computeL2Projection_direct ids petsc p U_vec F_vec system_name false close_U
    close_F tol max_its ⟨rfl, h0⟩ hok, fun i => ?_⟩
  simp only [henf]

/-- Witness for C3 on the one-element, two-DOF system with source `1` everywhere. -/
theorem direct_division_fast_path_witness :
    ∃ r, computeL2Projection sample_bdry_ids quiet_petsc two_dof_projector zero_vec ones_vec
        sample_name false true true (1 / 10 ^ 6) 100 = some r ∧
      ∀ i, r.U_vec.val i =
        ones_vec.val i / (buildDiagonalL2MassMatrix two_dof_projector sample_name).2.val i :=
  direct_division_fast_path sample_bdry_ids quiet_petsc two_dof_projector zero_vec ones_vec
    sample_name true true (1 / 10 ^ 6) 100 rfl (fun _ => rfl) rfl

/-- C4. Path decision rule. `computeL2Projection` takes the direct-division path
exactly when `consistent_mass_matrix` is false and the constrained-DOF count is 0:
in that case (the division reporting no error) it returns `true` after the single
backend call `VecPointwiseDivide`, whatever the solver would do; in every other
case (the checked calls reporting no error) its single backend call is the
iterative solve; and a returning call has made the division call if and only if
the direct-division condition holds. -/
theorem path_decision_rule (ids : BdryIds) (petsc : Petsc) (p : FEProjector)
    (U_vec F_vec : PetscVector) (system_name : String)
    (consistent_mass_matrix close_U close_F : Bool) (tol : ℚ) (max_its : Nat) :
    (direct_division p system_name consistent_mass_matrix →
      petsc.VecPointwiseDivide_ierr = 0 →
      ∃ r, computeL2Projection ids petsc p U_vec F_vec system_name consistent_mass_matrix
          close_U close_F tol max_its = some r ∧ r.converged = true ∧
        r.calls = [PetscCall.VecPointwiseDivide (buildDiagonalL2MassMatrix p system_name).2]) ∧
    (¬ direct_division p system_name consistent_mass_matrix → petsc.SolveOk →
      ∃ r, computeL2Projection ids petsc p U_vec F_vec system_name consistent_mass_matrix
          close_U close_F tol max_its = some r ∧
        r.calls = [PetscCall.solve
          (select_solver_components ids p system_name consistent_mass_matrix).2.1
          (select_solver_components ids p system_name consistent_mass_matrix).2.2
          (lumped_mass_of ids p system_name consistent_mass_matrix)
          (tol_used petsc tol) (max_its_used petsc max_its)]) ∧
    (∀ r, computeL2Projection ids petsc p U_vec F_vec system_name consistent_mass_matrix
          close_U close_F tol max_its = some r →
      ((∃ D, r.calls = [PetscCall.VecPointwiseDivide D]) ↔
        direct_division p system_name consistent_mass_matrix)) := by
  refine ⟨fun hd hok => ⟨_, computeL2Projection_direct ids petsc p U_vec F_vec system_name
      consistent_mass_matrix close_U close_F tol max_its hd hok, rfl, rfl⟩,
    fun hd hok => ⟨_, computeL2Projection_iterative ids petsc p U_vec F_vec system_name
      consistent_mass_matrix close_U close_F tol max_its hd hok, rfl⟩, fun r hr => ?_⟩
  by_cases hd : direct_division p system_name consistent_mass_matrix
  · by_cases hok : petsc.VecPointwiseDivide_ierr = 0
    · rw [computeL2Projection_direct ids petsc p U_vec F_vec system_name
        consistent_mass_matrix close_U close_F tol max_its hd hok] at hr
      cases hr
      exact ⟨fun _ => hd, fun _ => ⟨_, rfl⟩⟩
    · rw [computeL2Projection_direct_abort ids petsc p U_vec F_vec system_name
        consistent_mass_matrix close_U close_F tol max_its hd hok] at hr
      cases hr
  · by_cases hok : petsc.SolveOk
    · rw [computeL2Projection_iterative ids petsc p U_vec F_vec system_name
        consistent_mass_matrix close_U close_F tol max_its hd hok] at hr
      cases hr
      refine ⟨fun h => ?_, fun h => absurd h hd⟩
      obtain ⟨D, hD⟩ := h
      simp at hD
    · rw [computeL2Projection_iterative_abort ids petsc p U_vec F_vec system_name
        consistent_mass_matrix close_U close_F tol max_its hd hok] at hr
      cases hr

/-- Witness for C4: with `consistent_mass_matrix = false` on the unconstrained
two-DOF system the call returns `true` after one `VecPointwiseDivide`, although the
backend's solver would report the failure code `-3`. -/
theorem path_decision_rule_witness :
    ∃ r, computeL2Projection sample_bdry_ids stalled_petsc two_dof_projector zero_vec ones_vec
        sample_name false true true (1 / 10 ^ 6) 100 = some r ∧ r.converged = true ∧
      r.calls = [PetscCall.VecPointwiseDivide
        (buildDiagonalL2MassMatrix two_dof_projector sample_name).2] :=
  (path_decision_rule sample_bdry_ids stalled_petsc two_dof_projector zero_vec ones_vec
    sample_name false true true (1 / 10 ^ 6) 100).1 ⟨rfl, rfl⟩ rfl

/-- C5. Convergence reporting. On the iterative path, when the calls checked by
`IBTK_CHKERRQ` report no error, `computeL2Projection` returns, its value is `true`
if and only if the solver's converged reason is strictly positive, for every reason
`<= 0` (including `0`) the value is `false`, and in all cases the returned target is
the constraint-enforcement step applied to the solver's output. -/
theorem convergence_reporting (ids : BdryIds) (petsc : Petsc) (p : FEProjector)
    (U_vec F_vec : PetscVector) (system_name : String)
    (consistent_mass_matrix close_U close_F : Bool) (tol : ℚ) (max_its : Nat)
    (hd : ¬ direct_division p system_name consistent_mass_matrix) (hok : petsc.SolveOk) :
    ∃ r, computeL2Projection ids petsc p U_vec F_vec system_name consistent_mass_matrix
        close_U close_F tol max_its = some r ∧
      (r.converged = true ↔ 0 < (solve_outcome ids petsc p U_vec F_vec system_name
        consistent_mass_matrix tol max_its).2) ∧
      ((solve_outcome ids petsc p U_vec F_vec system_name consistent_mass_matrix tol
        max_its).2 ≤ 0 → r.converged = false) ∧
      r.U_vec.val = (p.d_fe_data.get_system system_name).dof_map.enforce_constraints_exactly
        (solve_outcome ids petsc p U_vec F_vec system_name consistent_mass_matrix tol
          max_its).1 := by
  refine ⟨_, computeL2Projection_iterative ids petsc p U_vec F_vec system_name
    consistent_mass_matrix close_U close_F tol max_its hd hok, ?_, ?_, rfl⟩
  · simp
  · intro h
    simp only [gt_iff_lt, decide_eq_false_iff_not, not_lt]
    exact h

/-- Witness for C5: a consistent-matrix projection whose solver reports the reason
`-3` returns the value `false`. -/
theorem convergence_reporting_witness :
    ∃ r, computeL2Projection sample_bdry_ids stalled_petsc two_dof_projector zero_vec ones_vec
        sample_name true true true (1 / 10 ^ 6) 100 = some r ∧ r.converged = false := by
  obtain ⟨r, hr, _, h2, _⟩ := convergence_reporting sample_bdry_ids stalled_petsc
    two_dof_projector zero_vec ones_vec sample_name true true true (1 / 10 ^ 6) 100
    (fun h => Bool.noConfusion h.1) ⟨rfl, rfl, rfl, rfl⟩
  exact ⟨r, hr, h2 (by decide)⟩

/-- C9. Constraint enforcement on every path. A call of `computeL2Projection`
returns whenever the backend calls checked on its path report no error, and for
every returning call (direct division, lumped solve or consistent solve, converged
or not) the returned target is `enforce_constraints_exactly` applied to the
divided vector or to the solver's output; hence it has every property that the
enforcement step establishes on all of its outputs. -/
theorem constraint_enforcement_on_every_path (ids : BdryIds) (petsc : Petsc)
    (p : FEProjector) (U_vec F_vec : PetscVector) (system_name : String)
    (consistent_mass_matrix close_U close_F : Bool) (tol : ℚ) (max_its : Nat) :
    ((direct_division p system_name consistent_mass_matrix ∧
        petsc.VecPointwiseDivide_ierr = 0) ∨
      (¬ direct_division p system_name consistent_mass_matrix ∧ petsc.SolveOk) →
      ∃ r, computeL2Projection ids petsc p U_vec F_vec system_name consistent_mass_matrix
        close_U close_F tol max_its = some r) ∧
    ∀ r, computeL2Projection ids petsc p U_vec F_vec system_name consistent_mass_matrix
        close_U close_F tol max_its = some r →
      (∃ v, r.U_vec.val =
          (p.d_fe_data.get_system system_name).dof_map.enforce_constraints_exactly v ∧
        ((direct_division p system_name consistent_mass_matrix ∧
            v = fun i => F_vec.val i / (buildDiagonalL2MassMatrix p system_name).2.val i) ∨
          (¬ direct_division p system_name consistent_mass_matrix ∧
            v = (solve_outcome ids petsc p U_vec F_vec system_name consistent_mass_matrix tol
              max_its).1))) ∧
      ∀ P : (Nat → ℚ) → Prop,
        (∀ v, P ((p.d_fe_data.get_system system_name).dof_map.enforce_constraints_exactly v)) →
        P r.U_vec.val := by
  have key : ∀ r, computeL2Projection ids petsc p U_vec F_vec system_name
      consistent_mass_matrix close_U close_F tol max_its = some r →
      ∃ v, r.U_vec.val =
          (p.d_fe_data.get_system system_name).dof_map.enforce_constraints_exactly v ∧
        ((direct_division p system_name consistent_mass_matrix ∧
            v = fun i => F_vec.val i / (buildDiagonalL2MassMatrix p system_name).2.val i) ∨
          (¬ direct_division p system_name consistent_mass_matrix ∧
            v = (solve_outcome ids petsc p U_vec F_vec system_name consistent_mass_matrix tol
              max_its).1)) := by
    intro r hr
    by_cases hd : direct_division p system_name consistent_mass_matrix
    · by_cases hok : petsc.VecPointwiseDivide_ierr = 0
      · rw [computeL2Projection_direct ids petsc p U_vec F_vec system_name
          consistent_mass_matrix close_U close_F tol max_its hd hok] at hr
        cases hr
        exact ⟨_, rfl, Or.inl ⟨hd, rfl⟩⟩
      · rw [computeL2Projection_direct_abort ids petsc p U_vec F_vec system_name
          consistent_mass_matrix close_U close_F tol max_its hd hok] at hr
        cases hr
    · by_cases hok : petsc.SolveOk
      · rw [computeL2Projection_iterative ids petsc p U_vec F_vec system_name
          consistent_mass_matrix close_U close_F tol max_its hd hok] at hr
        cases hr
        exact ⟨_, rfl, Or.inr ⟨hd, rfl⟩⟩
      · rw [computeL2Projection_iterative_abort ids petsc p U_vec F_vec system_name
          consistent_mass_matrix close_U close_F tol max_its hd hok] at hr
        cases hr
  refine ⟨fun h => ?_, fun r hr => ⟨key r hr, fun P hP => ?_⟩⟩
  · rcases h with ⟨hd, hok⟩ | ⟨hd, hok⟩
    · exact ⟨_, computeL2Projection_direct ids petsc p U_vec F_vec system_name
        consistent_mass_matrix close_U close_F tol max_its hd hok⟩
    · exact ⟨_, computeL2Projection_iterative ids petsc p U_vec F_vec system_name
        consistent_mass_matrix close_U close_F tol max_its hd hok⟩
  · obtain ⟨v, hv, _⟩ := key r hr
    rw [hv]
    exact hP v

/-- Witness for C9: the non-converged consistent solve on the two-DOF system
returns a target. -/
theorem constraint_enforcement_on_every_path_witness :
    ∃ r, computeL2Projection sample_bdry_ids stalled_petsc two_dof_projector zero_vec ones_vec
        sample_name true true true (1 / 10 ^ 6) 100 = some r :=
  (constraint_enforcement_on_every_path sample_bdry_ids stalled_petsc two_dof_projector
    zero_vec ones_vec sample_name true true true (1 / 10 ^ 6) 100).1
    (Or.inr ⟨fun h => Bool.noConfusion h.1, rfl, rfl, rfl, rfl⟩)

/-! ## Caching of the builders -/

theorem map_assign_self {α : Type} (d : String → Option α) (k : String) (v : α) :
    map_assign d k v k = some v := by
  simp [map_assign]

/-- C6. Idempotent caching. For each of `buildL2ProjectionSolver`,
`buildLumpedL2ProjectionSolver` and `buildDiagonalL2MassMatrix`, a second call with
the same system name returns the handle(s) returned by the first call and leaves
the projector (caches, allocation counter and log) exactly as the first call left
it. -/
theorem build_twice_same (ids : BdryIds) (p : FEProjector) (system_name : String) :
    buildL2ProjectionSolver ids (buildL2ProjectionSolver ids p system_name).1 system_name =
      buildL2ProjectionSolver ids p system_name ∧
    buildLumpedL2ProjectionSolver (buildLumpedL2ProjectionSolver p system_name).1 system_name =
      buildLumpedL2ProjectionSolver p system_name ∧
    buildDiagonalL2MassMatrix (buildDiagonalL2MassMatrix p system_name).1 system_name =
      buildDiagonalL2MassMatrix p system_name := by
  refine ⟨?_, ?_, ?_⟩
  · by_cases h : ∃ s M, p.d_L2_proj_solver system_name = some s ∧
        p.d_L2_proj_matrix system_name = some M
    · obtain ⟨s, M, hs, hM⟩ := h
      have h1 : buildL2ProjectionSolver ids p system_name = (p, s, M) := by
        unfold buildL2ProjectionSolver; rw [hs, hM]
      rw [h1]; exact h1
    · have h1 : buildL2ProjectionSolver ids p system_name =
          ({ p with
              d_L2_proj_solver :=
                map_assign p.d_L2_proj_solver system_name (built_L2_proj_solver p),
              d_L2_proj_matrix :=
                map_assign p.d_L2_proj_matrix system_name
                  (built_L2_proj_matrix ids p system_name),
              heap_next := p.heap_next + 2,
              plog := log_line p
                "FEProjector::buildL2ProjectionSolver(): building L2 projection solver for system: "
                system_name },
            built_L2_proj_solver p, built_L2_proj_matrix ids p system_name) := by
        unfold buildL2ProjectionSolver
        split
        · rename_i s M hs hM
          exact absurd ⟨s, M, hs, hM⟩ h
        · rfl
      rw [h1]
      conv_lhs => unfold buildL2ProjectionSolver
      simp only [map_assign_self]
  · by_cases h : ∃ s M, p.d_lumped_L2_proj_solver system_name = some s ∧
        p.d_lumped_L2_proj_matrix system_name = some M
    · obtain ⟨s, M, hs, hM⟩ := h
      have h1 : buildLumpedL2ProjectionSolver p system_name = (p, s, M) := by
        unfold buildLumpedL2ProjectionSolver; rw [hs, hM]
      rw [h1]; exact h1
    · have h1 : buildLumpedL2ProjectionSolver p system_name =
          ({ p with
              d_lumped_L2_proj_solver :=
                map_assign p.d_lumped_L2_proj_solver system_name (built_lumped_L2_proj_solver p),
              d_lumped_L2_proj_matrix :=
                map_assign p.d_lumped_L2_proj_matrix system_name
                  (built_lumped_L2_proj_matrix p system_name),
              heap_next := p.heap_next + 2,
              plog := log_line p
                "FEProjector::buildLumpedL2ProjectionSolver(): building lumped L2 projection solver for system: "
                system_name },
            built_lumped_L2_proj_solver p, built_lumped_L2_proj_matrix p system_name) := by
        unfold buildLumpedL2ProjectionSolver
        split
        · rename_i s M hs hM
          exact absurd ⟨s, M, hs, hM⟩ h
        · rfl
      rw [h1]
      conv_lhs => unfold buildLumpedL2ProjectionSolver
      simp only [map_assign_self]
  · cases h : p.d_L2_proj_matrix_diag system_name with
    | some v =>
      have h1 : buildDiagonalL2MassMatrix p system_name = (p, v) := by
        unfold buildDiagonalL2MassMatrix; rw [h]
      rw [h1]; exact h1
    | none =>
      have h1 : buildDiagonalL2MassMatrix p system_name =
          ({ p with
              d_L2_proj_matrix_diag :=
                map_assign p.d_L2_proj_matrix_diag system_name
                  (built_L2_proj_matrix_diag p system_name),
              heap_next := p.heap_next + 1,
              plog := log_line p
                "FEProjector::buildDiagonalL2MassMatrix(): building diagonal L2 mass matrix for system: "
                system_name },
            built_L2_proj_matrix_diag p system_name) := by
        unfold buildDiagonalL2MassMatrix; rw [h]
      rw [h1]
      conv_lhs => unfold buildDiagonalL2MassMatrix
      simp only [map_assign_self]

/-! ## Element mass matrix and diagonal mass vector -/

/-- C11. Element mass matrix definition. For every element and variable with `n`
local DOFs and whatever matrix the previous iteration left in the scratch object,
the matrix built by `resize` and the quadrature loop is `n x n`, does not depend on
the previous contents (it starts from zero), has entry `(i, j)` equal to the sum
over the quadrature points of `phi[i][qp] * phi[j][qp] * JxW[qp]` for `i, j < n`,
and is the matrix used by the loop body of each of the three builders. -/
theorem element_mass_matrix_definition (mesh : MeshBase) (sys : System) (elem var_num : Nat)
    (M_prev : DenseMatrix) :
    (element_mass_matrix sys elem var_num M_prev).m =
      (sys.dof_map.dof_indices elem var_num).length ∧
    (element_mass_matrix sys elem var_num M_prev).n =
      (sys.dof_map.dof_indices elem var_num).length ∧
    element_mass_matrix sys elem var_num M_prev =
      element_mass_matrix sys elem var_num DenseMatrix.empty ∧
    (∀ i j, i < (sys.dof_map.dof_indices elem var_num).length →
      j < (sys.dof_map.dof_indices elem var_num).length →
      (element_mass_matrix sys elem var_num M_prev).val i j =
        ∑ qp in Finset.range (sys.fe.n_points elem),
          sys.fe.phi elem i qp * sys.fe.phi elem j qp * sys.fe.JxW elem qp) ∧
    (∀ S : PetscMatrix, (consistent_elem_var sys elem (M_prev, S) var_num).2 =
      S.add_matrix
        (prune_roundoff_entries (sys.dof_map.constrain_element_matrix
          (element_mass_matrix sys elem var_num M_prev)
          (sys.dof_map.dof_indices elem var_num)).1)
        (sys.dof_map.constrain_element_matrix
          (element_mass_matrix sys elem var_num M_prev)
          (sys.dof_map.dof_indices elem var_num)).2) ∧
    (∀ (v : DenseVector) (S : PetscVector),
      (diagonal_elem_var mesh sys elem (M_prev, v, S) var_num).1 =
        element_mass_matrix sys elem var_num M_prev) ∧
    (∀ (D : DenseMatrix) (S : PetscMatrix),
      (lumped_elem_var mesh sys elem (M_prev, D, S) var_num).1 =
        element_mass_matrix sys elem var_num M_prev) := by
  refine ⟨(element_mass_matrix_dims _ _ _ _).1, (element_mass_matrix_dims _ _ _ _).2, rfl,
    fun i j hi hj => ?_, fun _ => rfl, fun _ _ => rfl, fun _ _ => rfl⟩
  rw [element_mass_matrix_val, if_pos ⟨hi, hj⟩]

/-- Witness for C11 on the two-DOF system, with a non-zero matrix left in the
scratch object: entry `(0, 1)` is the quadrature sum. -/
theorem element_mass_matrix_definition_witness :
    (element_mass_matrix two_dof_system 0 0 tiny_offdiag).val 0 1 =
      ∑ qp in Finset.range (two_dof_system.fe.n_points 0),
        two_dof_system.fe.phi 0 0 qp * two_dof_system.fe.phi 0 1 qp *
          two_dof_system.fe.JxW 0 qp :=
  (element_mass_matrix_definition unit_mesh two_dof_system 0 0 tiny_offdiag).2.2.2.1 0 1
    (by decide) (by decide)

theorem diagonal_elem_var_val (mesh : MeshBase) (sys : System) (elem : Nat)
    (st : DenseMatrix × DenseVector × PetscVector) (var_num g : Nat) :
    (diagonal_elem_var mesh sys elem st var_num).2.2.val g = st.2.2.val g +
      ∑ i in Finset.range (sys.dof_map.dof_indices elem var_num).length,
        if (sys.dof_map.dof_indices elem var_num).get? i = some g
        then lumped_entry mesh sys elem var_num i else 0 := by
  simp only [diagonal_elem_var, PetscVector.add_vector, (lump_vector_loop_spec _ _ _ _ _).1,
    DenseVector.resize]
  congr 1
  refine Finset.sum_congr rfl (fun i hi => ?_)
  rw [(lump_vector_loop_spec _ _ _ _ _).2 i, if_pos (Finset.mem_range.mp hi), trace_loop_eq]
  rfl

theorem diagonal_vars_val (mesh : MeshBase) (sys : System) (elem : Nat)
    (st : DenseMatrix × DenseVector × PetscVector) (g k : Nat) :
    ((List.range k).foldl (diagonal_elem_var mesh sys elem) st).2.2.val g = st.2.2.val g +
      ∑ v in Finset.range k,
        ∑ i in Finset.range (sys.dof_map.dof_indices elem v).length,
          if (sys.dof_map.dof_indices elem v).get? i = some g
          then lumped_entry mesh sys elem v i else 0 := by
  induction k with
  | zero => simp
  | succ k ih =>
    rw [List.range_succ, List.foldl_append, Finset.sum_range_succ]
    simp only [List.foldl_cons, List.foldl_nil]
    rw [diagonal_elem_var_val, ih, add_assoc]

theorem assemble_diagonal_fold_val (mesh : MeshBase) (sys : System) (l : List Nat)
    (st : DenseMatrix × DenseVector × PetscVector) (g : Nat) :
    (l.foldl (fun st elem =>
      (List.range sys.dof_map.n_variables).foldl (diagonal_elem_var mesh sys elem) st)
      st).2.2.val g = st.2.2.val g + (l.map (lumped_contribution mesh sys g)).sum := by
  induction l generalizing st with
  | nil => simp
  | cons e es ih =>
    simp only [List.foldl_cons, List.map_cons, List.sum_cons]
    rw [ih, diagonal_vars_val, add_assoc]
    rfl

theorem assemble_diagonal_val (mesh : MeshBase) (sys : System) (M_vec : PetscVector)
    (g : Nat) :
    (assemble_diagonal mesh sys M_vec).val g = M_vec.val g + diagonal_mass_spec mesh sys g :=
  assemble_diagonal_fold_val mesh sys _ _ g

theorem buildDiagonalL2MassMatrix_build (p : FEProjector) (system_name : String)
    (hmiss : p.d_L2_proj_matrix_diag system_name = none) :
    buildDiagonalL2MassMatrix p system_name =
      ({ p with
          d_L2_proj_matrix_diag :=
            map_assign p.d_L2_proj_matrix_diag system_name
              (built_L2_proj_matrix_diag p system_name),
          heap_next := p.heap_next + 1,
          plog := log_line p
            "FEProjector::buildDiagonalL2MassMatrix(): building diagonal L2 mass matrix for system: "
            system_name },
        built_L2_proj_matrix_diag p system_name) := by
  unfold buildDiagonalL2MassMatrix; rw [hmiss]

theorem skew_M_e_val (a b : Nat) :
    (element_mass_matrix skew_system 0 0 DenseMatrix.empty).val a b =
      if a < 2 ∧ b < 2 then
        (if a = 0 then 1 else 0) * (if b = 0 then 1 else 0) * (1 / 2) + 1 / 2 * (1 / 2) * (1 / 2)
      else 0 := by
  have h3 : skew_system.dof_map.dof_indices 0 0 = [0, 1] := rfl
  rw [element_mass_matrix_val, h3]
  simp [skew_system, Finset.sum_range_succ]

theorem skew_trace :
    trace_loop 2 (element_mass_matrix skew_system 0 0 DenseMatrix.empty) = 3 / 4 := by
  rw [trace_loop_eq]
  simp only [skew_M_e_val]
  norm_num [Finset.sum_range_succ]

theorem diagonal_elem_var_vec (mesh : MeshBase) (sys : System) (elem var_num i : Nat)
    (st : DenseMatrix × DenseVector × PetscVector)
    (hi : i < (sys.dof_map.dof_indices elem var_num).length) :
    (diagonal_elem_var mesh sys elem st var_num).2.1.val i =
      mesh.volume elem * (element_mass_matrix sys elem var_num st.1).val i i /
        trace_loop (sys.dof_map.dof_indices elem var_num).length
          (element_mass_matrix sys elem var_num st.1) := by
  simp only [diagonal_elem_var]
  rw [(lump_vector_loop_spec _ _ _ _ _).2 i, if_pos hi]

/-- Counterexample to C13 as stated. On the unit-volume element with basis values
`(1, 0)` and `(1/2, 1/2)` at two quadrature points of weight `1/2`, the element
matrix is `[[5/8, 1/8], [1/8, 1/8]]` with trace `3/4`; the lumped entry of local
DOF 0 is `5/6` while its row sum is `3/4`. -/
theorem lumped_entry_not_row_sum :
    trace_loop 2 (element_mass_matrix skew_system 0 0 DenseMatrix.empty) ≠ 0 ∧
    (diagonal_elem_var unit_mesh skew_system 0
      (DenseMatrix.empty, DenseVector.empty, ⟨0, fun _ => 0⟩) 0).2.1.val 0 ≠
      ∑ j in Finset.range 2, (element_mass_matrix skew_system 0 0 DenseMatrix.empty).val 0 j := by
  have h3 : skew_system.dof_map.dof_indices 0 0 = [0, 1] := rfl
  constructor
  · rw [skew_trace]; norm_num
  · rw [diagonal_elem_var_vec unit_mesh skew_system 0 0 0 _ (by rw [h3]; decide), h3]
    simp only [List.length_cons, List.length_nil]
    rw [skew_trace]
    simp only [skew_M_e_val]
    norm_num [Finset.sum_range_succ, unit_mesh]

/-- C13 (amended). Lumping scales the diagonal. For every element mass matrix with
non-zero trace and every local DOF `i`, the lumped entry
`vol * M_e(i,i) / trace(M_e)` written by `buildDiagonalL2MassMatrix` (into
`M_e_vec`) and by `buildLumpedL2ProjectionSolver` (onto the diagonal of
`M_e_diagonal`) equals the `i`-th row sum of `M_e` if and only if
`rowsum_i * trace(M_e) = vol * M_e(i,i)`. -/
theorem lumped_entry_eq_row_sum_iff (mesh : MeshBase) (sys : System) (elem var_num i : Nat)
    (st : DenseMatrix × DenseVector × PetscVector) (D : DenseMatrix)
    (hi : i < (sys.dof_map.dof_indices elem var_num).length)
    (htr : trace_loop (sys.dof_map.dof_indices elem var_num).length
      (element_mass_matrix sys elem var_num st.1) ≠ 0) :
    ((diagonal_elem_var mesh sys elem st var_num).2.1.val i =
        ∑ j in Finset.range (sys.dof_map.dof_indices elem var_num).length,
          (element_mass_matrix sys elem var_num st.1).val i j ↔
      (∑ j in Finset.range (sys.dof_map.dof_indices elem var_num).length,
          (element_mass_matrix sys elem var_num st.1).val i j) *
        trace_loop (sys.dof_map.dof_indices elem var_num).length
          (element_mass_matrix sys elem var_num st.1) =
        mesh.volume elem * (element_mass_matrix sys elem var_num st.1).val i i) ∧
    ((lump_matrix_loop (mesh.volume elem)
          (trace_loop (sys.dof_map.dof_indices elem var_num).length
            (element_mass_matrix sys elem var_num st.1))
          (sys.dof_map.dof_indices elem var_num).length
          (element_mass_matrix sys elem var_num st.1)
          (D.resize (sys.dof_map.dof_indices elem var_num).length
            (sys.dof_map.dof_indices elem var_num).length)).val i i =
        ∑ j in Finset.range (sys.dof_map.dof_indices elem var_num).length,
          (element_mass_matrix sys elem var_num st.1).val i j ↔
      (∑ j in Finset.range (sys.dof_map.dof_indices elem var_num).length,
          (element_mass_matrix sys elem var_num st.1).val i j) *
        trace_loop (sys.dof_map.dof_indices elem var_num).length
          (element_mass_matrix sys elem var_num st.1) =
        mesh.volume elem * (element_mass_matrix sys elem var_num st.1).val i i) := by
  constructor
  · rw [diagonal_elem_var_vec mesh sys elem var_num i st hi, div_eq_iff htr]
    exact eq_comm
  · rw [(lump_matrix_loop_spec _ _ _ _ _).2.2 i i, if_pos ⟨rfl, hi⟩, div_eq_iff htr]
    exact eq_comm

/-- Witness for the amended C13 on the two-DOF system with equal basis values: the
condition holds there (`1/2 * 1/2 = 1 * 1/4`), so the lumped entry is the row sum. -/
theorem lumped_entry_eq_row_sum_iff_witness :
    (diagonal_elem_var unit_mesh two_dof_system 0
      (DenseMatrix.empty, DenseVector.empty, ⟨0, fun _ => 0⟩) 0).2.1.val 0 =
      ∑ j in Finset.range 2, (element_mass_matrix two_dof_system 0 0 DenseMatrix.empty).val 0 j :=
  ((lumped_entry_eq_row_sum_iff unit_mesh two_dof_system 0 0 0
    (DenseMatrix.empty, DenseVector.empty, ⟨0, fun _ => 0⟩) DenseMatrix.empty (by decide)
    (by
      rw [trace_loop_eq]
      simp only [element_mass_matrix_val]
      norm_num [two_dof_system, free_dof_map, Finset.sum_range_succ])).1).2
    (by
      rw [trace_loop_eq]
      simp only [element_mass_matrix_val]
      norm_num [two_dof_system, free_dof_map, Finset.sum_range_succ, unit_mesh])

/-! ## Solver arguments on the iterative path -/

/-- Counterexample to C14 as stated. With the runtime option `-ksp_max_it -1` set,
the iteration cap handed to the solver is `4294967295` (the `int` converted to
`unsigned int`), not the runtime value `-1`. -/
theorem runtime_max_it_not_handed_as_is :
    negative_cap_petsc.ksp_max_it = some (-1) ∧
    ∃ r s M P t, computeL2Projection sample_bdry_ids negative_cap_petsc two_dof_projector
        zero_vec ones_vec sample_name true true true (1 / 10 ^ 6) 100 = some r ∧
      r.calls = [PetscCall.solve s M P t 4294967295] ∧ ((4294967295 : Nat) : Int) ≠ -1 :=
  ⟨rfl, _, _, _, _, _,
    computeL2Projection_iterative sample_bdry_ids negative_cap_petsc two_dof_projector
      zero_vec ones_vec sample_name true true true (1 / 10 ^ 6) 100
      (fun h => Bool.noConfusion h.1) ⟨rfl, rfl, rfl, rfl⟩,
    rfl, by decide⟩

theorem to_unsigned_of_range (v : Int) (h0 : 0 ≤ v) (h1 : v < 2 ^ 32) :
    ((to_unsigned v : Nat) : Int) = v := by
  unfold to_unsigned
  rw [Int.emod_eq_of_lt h0 h1, Int.toNat_of_nonneg h0]

/-- C14 (amended). Runtime override precedence. On the iterative path of
`computeL2Projection` (checked calls reporting no error) the tolerance handed to
the solver is the runtime `-ksp_rtol` value whenever that option is set and the
caller's `tol` otherwise; independently, the iteration cap is the runtime
`-ksp_max_it` value converted to `unsigned int` whenever that option is set (the
value itself when it lies in `0 .. 2^32 - 1`) and the caller's `max_its` otherwise.
Each of the two arguments is a function of its own option and caller value only. -/
theorem runtime_override_precedence (ids : BdryIds) (petsc : Petsc) (p : FEProjector)
    (U_vec F_vec : PetscVector) (system_name : String)
    (consistent_mass_matrix close_U close_F : Bool) (tol : ℚ) (max_its : Nat)
    (hd : ¬ direct_division p system_name consistent_mass_matrix) (hok : petsc.SolveOk) :
    (∃ r s M P, computeL2Projection ids petsc p U_vec F_vec system_name
        consistent_mass_matrix close_U close_F tol max_its = some r ∧
      r.calls = [PetscCall.solve s M P (tol_used petsc tol) (max_its_used petsc max_its)]) ∧
    (∀ v, petsc.ksp_rtol = some v → tol_used petsc tol = v) ∧
    (petsc.ksp_rtol = none → tol_used petsc tol = tol) ∧
    (∀ v, petsc.ksp_max_it = some v → max_its_used petsc max_its = to_unsigned v ∧
      (0 ≤ v → v < 2 ^ 32 → ((max_its_used petsc max_its : Nat) : Int) = v)) ∧
    (petsc.ksp_max_it = none → max_its_used petsc max_its = max_its) ∧
    (∀ petsc2 : Petsc, petsc2.ksp_rtol = petsc.ksp_rtol →
      tol_used petsc2 tol = tol_used petsc tol) ∧
    (∀ petsc2 : Petsc, petsc2.ksp_max_it = petsc.ksp_max_it →
      max_its_used petsc2 max_its = max_its_used petsc max_its) := by
  refine ⟨⟨_, _, _, _, computeL2Projection_iterative ids petsc p U_vec F_vec system_name
      consistent_mass_matrix close_U close_F tol max_its hd hok, rfl⟩, ?_, ?_, ?_, ?_, ?_, ?_⟩
  · intro v hv; simp [tol_used, hv]
  · intro hv; simp [tol_used, hv]
  · intro v hv
    have h : max_its_used petsc max_its = to_unsigned v := by simp [max_its_used, hv]
    exact ⟨h, fun h0 h1 => by rw [h]; exact to_unsigned_of_range v h0 h1⟩
  · intro hv; simp [max_its_used, hv]
  · intro petsc2 h; simp [tol_used, h]
  · intro petsc2 h; simp [max_its_used, h]

/-- Witness for the amended C14: with only `-ksp_max_it 50` set, a consistent
projection called with `tol = 1e-6` and `max_its = 100` solves with tolerance `1e-6`
and cap `50`. -/
theorem runtime_override_precedence_witness :
    ∃ r s M P, computeL2Projection sample_bdry_ids capped_petsc two_dof_projector
        zero_vec ones_vec sample_name true true true (1 / 10 ^ 6) 100 = some r ∧
      r.calls = [PetscCall.solve s M P (1 / 10 ^ 6) 50] :=
  (runtime_override_precedence sample_bdry_ids capped_petsc two_dof_projector
    zero_vec ones_vec sample_name true true true (1 / 10 ^ 6) 100
    (fun h => Bool.noConfusion h.1) ⟨rfl, rfl, rfl, rfl⟩).1

theorem buildL2ProjectionSolver_cached (ids : BdryIds) (p : FEProjector) (system_name : String)
    (s : PetscLinearSolver) (M : PetscMatrix) (hs : p.d_L2_proj_solver system_name = some s)
    (hM : p.d_L2_proj_matrix system_name = some M) :
    buildL2ProjectionSolver ids p system_name = (p, s, M) := by
  unfold buildL2ProjectionSolver; rw [hs, hM]

theorem buildLumpedL2ProjectionSolver_cached (p : FEProjector) (system_name : String)
    (s : PetscLinearSolver) (M : PetscMatrix)
    (hs : p.d_lumped_L2_proj_solver system_name = some s)
    (hM : p.d_lumped_L2_proj_matrix system_name = some M) :
    buildLumpedL2ProjectionSolver p system_name = (p, s, M) := by
  unfold buildLumpedL2ProjectionSolver; rw [hs, hM]

/-- What `buildL2ProjectionSolver` leaves in the five caches. -/
theorem buildL2ProjectionSolver_caches (ids : BdryIds) (p : FEProjector)
    (system_name : String) :
    (buildL2ProjectionSolver ids p system_name).1.d_L2_proj_solver system_name =
      some (buildL2ProjectionSolver ids p system_name).2.1 ∧
    (buildL2ProjectionSolver ids p system_name).1.d_L2_proj_matrix system_name =
      some (buildL2ProjectionSolver ids p system_name).2.2 ∧
    (buildL2ProjectionSolver ids p system_name).1.d_lumped_L2_proj_solver =
      p.d_lumped_L2_proj_solver ∧
    (buildL2ProjectionSolver ids p system_name).1.d_lumped_L2_proj_matrix =
      p.d_lumped_L2_proj_matrix ∧
    (buildL2ProjectionSolver ids p system_name).1.d_L2_proj_matrix_diag =
      p.d_L2_proj_matrix_diag ∧
    (buildL2ProjectionSolver ids p system_name).1.d_fe_data = p.d_fe_data := by
  unfold buildL2ProjectionSolver
  split
  · rename_i s M hs hM
    exact ⟨hs, hM, rfl, rfl, rfl, rfl⟩
  · exact ⟨map_assign_self _ _ _, map_assign_self _ _ _, rfl, rfl, rfl, rfl⟩

/-- What `buildLumpedL2ProjectionSolver` leaves in the five caches. -/
theorem buildLumpedL2ProjectionSolver_caches (p : FEProjector) (system_name : String) :
    (buildLumpedL2ProjectionSolver p system_name).1.d_lumped_L2_proj_solver system_name =
      some (buildLumpedL2ProjectionSolver p system_name).2.1 ∧
    (buildLumpedL2ProjectionSolver p system_name).1.d_lumped_L2_proj_matrix system_name =
      some (buildLumpedL2ProjectionSolver p system_name).2.2 ∧
    (buildLumpedL2ProjectionSolver p system_name).1.d_L2_proj_solver = p.d_L2_proj_solver ∧
    (buildLumpedL2ProjectionSolver p system_name).1.d_L2_proj_matrix = p.d_L2_proj_matrix ∧
    (buildLumpedL2ProjectionSolver p system_name).1.d_L2_proj_matrix_diag =
      p.d_L2_proj_matrix_diag ∧
    (buildLumpedL2ProjectionSolver p system_name).1.d_fe_data = p.d_fe_data := by
  unfold buildLumpedL2ProjectionSolver
  split
  · rename_i s M hs hM
    exact ⟨hs, hM, rfl, rfl, rfl, rfl⟩
  · exact ⟨map_assign_self _ _ _, map_assign_self _ _ _, rfl, rfl, rfl, rfl⟩

theorem buildLumpedL2ProjectionSolver_again (p : FEProjector) (system_name : String) :
    buildLumpedL2ProjectionSolver (buildLumpedL2ProjectionSolver p system_name).1 system_name =
      buildLumpedL2ProjectionSolver p system_name :=
  buildLumpedL2ProjectionSolver_cached _ _ _ _
    (buildLumpedL2ProjectionSolver_caches p system_name).1
    (buildLumpedL2ProjectionSolver_caches p system_name).2.1

/-- C15. Operator and preconditioner selection. On the iterative path of
`computeL2Projection` (checked calls reporting no error) the solver and system
matrix handed to the solve are the pair held in the consistent caches under the
system name when `consistent_mass_matrix` is true and the pair held in the lumped
caches otherwise; in both cases the preconditioning matrix is the matrix held in
the lumped matrix cache under the same system name. -/
theorem operator_and_preconditioner_selection (ids : BdryIds) (petsc : Petsc)
    (p : FEProjector) (U_vec F_vec : PetscVector) (system_name : String)
    (consistent_mass_matrix close_U close_F : Bool) (tol : ℚ) (max_its : Nat)
    (hd : ¬ direct_division p system_name consistent_mass_matrix) (hok : petsc.SolveOk) :
    ∃ r solver M_mat lumped_mass t m,
      computeL2Projection ids petsc p U_vec F_vec system_name consistent_mass_matrix
        close_U close_F tol max_its = some r ∧
      r.calls = [PetscCall.solve solver M_mat lumped_mass t m] ∧
      r.projector.d_lumped_L2_proj_matrix system_name = some lumped_mass ∧
      (consistent_mass_matrix = true →
        r.projector.d_L2_proj_solver system_name = some solver ∧
        r.projector.d_L2_proj_matrix system_name = some M_mat ∧
        (solver, M_mat) = (buildL2ProjectionSolver ids p system_name).2) ∧
      (consistent_mass_matrix = false →
        r.projector.d_lumped_L2_proj_solver system_name = some solver ∧
        r.projector.d_lumped_L2_proj_matrix system_name = some M_mat ∧
        (solver, M_mat) = (buildLumpedL2ProjectionSolver p system_name).2) := by
  refine ⟨_, _, _, _, _, _, computeL2Projection_iterative ids petsc p U_vec F_vec system_name
      consistent_mass_matrix close_U close_F tol max_its hd hok, rfl, ?_, ?_, ?_⟩
  · exact (buildLumpedL2ProjectionSolver_caches _ system_name).2.1
  · intro hc
    subst hc
    simp only [select_solver_components, if_true]
    rw [(buildLumpedL2ProjectionSolver_caches _ system_name).2.2.1,
      (buildLumpedL2ProjectionSolver_caches _ system_name).2.2.2.1]
    exact ⟨(buildL2ProjectionSolver_caches ids p system_name).1,
      (buildL2ProjectionSolver_caches ids p system_name).2.1, trivial⟩
  · intro hc
    subst hc
    simp only [select_solver_components, Bool.false_eq_true, if_false]
    rw [buildLumpedL2ProjectionSolver_again]
    exact ⟨(buildLumpedL2ProjectionSolver_caches p system_name).1,
      (buildLumpedL2ProjectionSolver_caches p system_name).2.1, trivial⟩

/-- Witness for C15: a consistent projection on the fresh two-DOF projector solves
with the freshly built consistent pair. -/
theorem operator_and_preconditioner_selection_witness :
    ∃ r solver M_mat lumped_mass t m,
      computeL2Projection sample_bdry_ids quiet_petsc two_dof_projector zero_vec ones_vec
        sample_name true true true (1 / 10 ^ 6) 100 = some r ∧
      r.calls = [PetscCall.solve solver M_mat lumped_mass t m] ∧
      r.projector.d_lumped_L2_proj_matrix sample_name = some lumped_mass ∧
      r.projector.d_L2_proj_solver sample_name = some solver ∧
      r.projector.d_L2_proj_matrix sample_name = some M_mat := by
  obtain ⟨r, s, M, P, t, m, h1, h2, h3, h4, _⟩ :=
    operator_and_preconditioner_selection sample_bdry_ids quiet_petsc two_dof_projector
      zero_vec ones_vec sample_name true true true (1 / 10 ^ 6) 100
      (fun h => Bool.noConfusion h.1) ⟨rfl, rfl, rfl, rfl⟩
  exact ⟨r, s, M, P, t, m, h1, h2, h3, (h4 rfl).1, (h4 rfl).2.1⟩

/-! ## Dirichlet reset -/

theorem add_matrix_zero (M : PetscMatrix) (dm : DenseMatrix) (dofs : List Nat) (a b : Nat)
    (hM : M.val a b = 0)
    (hdm : ∀ i j, dofs.get? i = some a → dofs.get? j = some b → dm.val i j = 0) :
    (M.add_matrix dm dofs).val a b = 0 := by
  simp only [PetscMatrix.add_matrix]
  rw [hM, zero_add]
  refine Finset.sum_eq_zero (fun i _ => Finset.sum_eq_zero (fun j _ => ?_))
  by_cases c : dofs.get? i = some a ∧ dofs.get? j = some b
  · rw [if_pos c]; exact hdm i j c.1 c.2
  · rw [if_neg c]

/-! ## Detection of zero-displacement ids -/

theorem int_testBit_zero (k : Nat) : Int.testBit 0 k = false := by
  show Nat.testBit 0 k = false
  exact Nat.zero_testBit k

theorem int_eq_zero_iff_testBit (x : Int) : x = 0 ↔ ∀ k, Int.testBit x k = false := by
  constructor
  · rintro rfl k; exact int_testBit_zero k
  · intro h
    cases x with
    | ofNat m =>
      have hm : m = 0 := Nat.eq_of_testBit_eq (fun k => by
        have := h k
        rw [Nat.zero_testBit]
        exact this)
      rw [hm]; rfl
    | negSucc m =>
      have h1 : (!(Nat.testBit m m)) = false := h m
      rw [Nat.testBit_lt_two_pow (Nat.lt_two_pow m)] at h1
      cases h1

theorem int_land_lor_eq_zero (a b c : Int) :
    Int.land (Int.lor a b) c = 0 ↔ Int.land a c = 0 ∧ Int.land b c = 0 := by
  simp only [int_eq_zero_iff_testBit, Int.testBit_land, Int.testBit_lor]
  constructor
  · intro h
    refine ⟨fun k => ?_, fun k => ?_⟩
    · have := h k
      cases ha : Int.testBit a k <;> cases hc : Int.testBit c k <;> simp_all
    · have := h k
      cases hb : Int.testBit b k <;> cases hc : Int.testBit c k <;> simp_all
  · rintro ⟨h1, h2⟩ k
    have := h1 k
    have := h2 k
    cases ha : Int.testBit a k <;> cases hb : Int.testBit b k <;>
      cases hc : Int.testBit c k <;> simp_all

theorem int_land_zero_left (c : Int) : Int.land 0 c = 0 := by
  rw [int_eq_zero_iff_testBit]
  intro k
  rw [Int.testBit_land, int_testBit_zero]
  rfl

theorem int_land_self_eq_zero (a : Int) : Int.land a a = 0 ↔ a = 0 := by
  rw [int_eq_zero_iff_testBit, int_eq_zero_iff_testBit]
  constructor
  · intro h k
    have := h k
    rw [Int.testBit_land] at this
    cases ha : Int.testBit a k <;> simp_all
  · intro h k
    rw [Int.testBit_land, h k]
    rfl

theorem dirichlet_fold_covers (ids : BdryIds) (c : Int) (l : List Int) (acc : Int) :
    Int.land (l.foldl (fun dirichlet_bdry_ids bdry_id =>
      if bdry_id = ids.X ∨ bdry_id = ids.Y ∨ bdry_id = ids.Z ∨ bdry_id = ids.XY ∨
          bdry_id = ids.XZ ∨ bdry_id = ids.YZ ∨ bdry_id = ids.XYZ
      then Int.lor dirichlet_bdry_ids bdry_id else dirichlet_bdry_ids) acc) c ≠ 0 ↔
    (Int.land acc c ≠ 0 ∨ ∃ t, t ∈ l ∧ recognized_bdry_id ids t ∧ Int.land t c ≠ 0) := by
  induction l generalizing acc with
  | nil => simp
  | cons t ts ih =>
    rw [List.foldl_cons, ih]
    by_cases hr : t = ids.X ∨ t = ids.Y ∨ t = ids.Z ∨ t = ids.XY ∨
        t = ids.XZ ∨ t = ids.YZ ∨ t = ids.XYZ
    · rw [if_pos hr, Ne, int_land_lor_eq_zero]
      constructor
      · rintro (h | ⟨u, hu, hru, hlu⟩)
        · by_cases ha : Int.land acc c = 0
          · exact Or.inr ⟨t, List.mem_cons_self t ts, hr, fun ht => h ⟨ha, ht⟩⟩
          · exact Or.inl ha
        · exact Or.inr ⟨u, List.mem_cons_of_mem t hu, hru, hlu⟩
      · rintro (h | ⟨u, hu, hru, hlu⟩)
        · exact Or.inl (fun hh => h hh.1)
        · rcases List.mem_cons.mp hu with rfl | hu
          · exact Or.inl (fun hh => hlu hh.2)
          · exact Or.inr ⟨u, hu, hru, hlu⟩
    · rw [if_neg hr]
      constructor
      · rintro (h | ⟨u, hu, hru, hlu⟩)
        · exact Or.inl h
        · exact Or.inr ⟨u, List.mem_cons_of_mem t hu, hru, hlu⟩
      · rintro (h | ⟨u, hu, hru, hlu⟩)
        · exact Or.inl h
        · rcases List.mem_cons.mp hu with rfl | hu
          · exact absurd hru hr
          · exact Or.inr ⟨u, hu, hru, hlu⟩

theorem reset_node_no_ids (ids : BdryIds) (sys : System) (elem node : Nat) (M : PetscMatrix) :
    reset_node ids sys elem node 0 M = M := by
  unfold reset_node
  refine foldl_invariant (fun X : PetscMatrix => X = M) _ _ M rfl ?_
  intro X var_num hX
  refine foldl_invariant (fun X : PetscMatrix => X = M) _ _ X hX ?_
  intro X comp hX
  rw [if_pos (int_land_zero_left _)]
  exact hX

/-! ## End-to-end: one bilinear element on the unit square -/

theorem q4_system_exact (i j : Nat) (hi : i < 4) (hj : j < 4) :
    ∑ qp in Finset.range (q4_system.fe.n_points 0),
      (q4_system.fe.phi 0 i qp * q4_system.fe.phi 0 j qp) * q4_system.fe.JxW 0 qp =
      q4_mass i j := by
  show ∑ qp in Finset.range 4,
      (q4_phi i qp * q4_phi j qp) * (radau_weight (qp / 2) * radau_weight (qp % 2)) =
      q4_mass i j
  simp only [Finset.sum_range_succ, Finset.sum_range_zero]
  interval_cases i <;> interval_cases j <;>
    norm_num [q4_phi, radau_point, radau_weight, q4_mass]

theorem q4_system_is_unit_square : IsUnitSquareQ4 unit_mesh q4_system :=
  ⟨rfl, rfl, rfl, rfl, ⟨rfl, fun _ => rfl, fun _ _ => rfl, fun _ => rfl⟩, q4_system_exact⟩

theorem q4_M_e_val (mesh : MeshBase) (sys : System) (hq : IsUnitSquareQ4 mesh sys)
    (i j : Nat) (hi : i < 4) (hj : j < 4) :
    (element_mass_matrix sys 0 0 DenseMatrix.empty).val i j = q4_mass i j := by
  obtain ⟨_, _, _, hd, _, hex⟩ := hq
  rw [element_mass_matrix_val, hd, if_pos ⟨hi, hj⟩]
  exact hex i j hi hj

theorem q4_lumped_entry (mesh : MeshBase) (sys : System) (hq : IsUnitSquareQ4 mesh sys)
    (i : Nat) (hi : i < 4) : lumped_entry mesh sys 0 0 i = 1 / 4 := by
  unfold lumped_entry
  rw [hq.2.1, hq.2.2.2.1]
  simp only [List.length_cons, List.length_nil, Finset.sum_range_succ, Finset.sum_range_zero]
  rw [q4_M_e_val mesh sys hq i i hi hi, q4_M_e_val mesh sys hq 0 0 (by decide) (by decide),
    q4_M_e_val mesh sys hq 1 1 (by decide) (by decide),
    q4_M_e_val mesh sys hq 2 2 (by decide) (by decide),
    q4_M_e_val mesh sys hq 3 3 (by decide) (by decide)]
  norm_num [q4_mass]

theorem q4_diagonal_spec (mesh : MeshBase) (sys : System) (hq : IsUnitSquareQ4 mesh sys)
    (g : Nat) (hg : g < 4) : diagonal_mass_spec mesh sys g = 1 / 4 := by
  unfold diagonal_mass_spec lumped_contribution
  rw [hq.1, hq.2.2.1]
  simp only [List.map_cons, List.map_nil, List.sum_cons, List.sum_nil, Finset.sum_range_one]
  rw [hq.2.2.2.1]
  simp only [List.length_cons, List.length_nil, Finset.sum_range_succ, Finset.sum_range_zero]
  rw [q4_lumped_entry mesh sys hq 0 (by decide), q4_lumped_entry mesh sys hq 1 (by decide),
    q4_lumped_entry mesh sys hq 2 (by decide), q4_lumped_entry mesh sys hq 3 (by decide)]
  interval_cases g <;> simp

/-- On the unit-square bilinear element every entry of the freshly built diagonal
mass vector is `1/4`. -/
theorem q4_diagonal_val (p : FEProjector) (system_name : String)
    (hq : IsUnitSquareQ4 p.d_fe_data.get_mesh (p.d_fe_data.get_system system_name))
    (hmiss : p.d_L2_proj_matrix_diag system_name = none) (g : Nat) (hg : g < 4) :
    (buildDiagonalL2MassMatrix p system_name).2.val g = 1 / 4 := by
  rw [buildDiagonalL2MassMatrix_build p system_name hmiss]
  simp only [built_L2_proj_matrix_diag]
  rw [assemble_diagonal_val, q4_diagonal_spec _ _ hq g hg]
  simp

theorem q4_direct_result (ids : BdryIds) (petsc : Petsc) (p : FEProjector)
    (U_vec F_vec : PetscVector) (system_name : String) (close_U close_F : Bool) (tol : ℚ)
    (max_its : Nat)
    (hq : IsUnitSquareQ4 p.d_fe_data.get_mesh (p.d_fe_data.get_system system_name))
    (hmiss : p.d_L2_proj_matrix_diag system_name = none)
    (hok : petsc.VecPointwiseDivide_ierr = 0) :
    ∃ r, computeL2Projection ids petsc p U_vec F_vec system_name false close_U close_F tol
        max_its = some r ∧ ∀ g, g < 4 → r.U_vec.val g = 4 * F_vec.val g := by
  refine ⟨_, computeL2Projection_direct ids petsc p U_vec F_vec system_name false close_U
    close_F tol max_its ⟨rfl, hq.2.2.2.2.1.1⟩ hok, fun g hg => ?_⟩
  simp only [hq.2.2.2.2.1.2.2.2]
  rw [q4_diagonal_val p system_name hq hmiss g hg]
  ring

/-- Counterexample to C18 as stated. On the unit-square bilinear element with the
source vector equal to `1` at every DOF, the direct-division projection returns
the target `1 / (1/4) = 4` at DOF 0, not `1`. -/
theorem lumped_unit_source_gives_four :
    IsUnitSquareQ4 unit_mesh q4_system ∧
    ∃ r, computeL2Projection sample_bdry_ids quiet_petsc q4_projector zero_vec ones_vec
        sample_name false true true (1 / 10 ^ 6) 100 = some r ∧
      r.U_vec.val 0 = 4 ∧ r.U_vec.val 0 ≠ 1 := by
  refine ⟨q4_system_is_unit_square, ?_⟩
  obtain ⟨r, hr, hU⟩ := q4_direct_result sample_bdry_ids quiet_petsc q4_projector zero_vec
    ones_vec sample_name true true (1 / 10 ^ 6) 100 q4_system_is_unit_square rfl rfl
  have h4 : r.U_vec.val 0 = 4 := by
    rw [hU 0 (by decide)]
    norm_num [ones_vec]
  exact ⟨r, hr, h4, by rw [h4]; norm_num⟩

/-- C18 (amended). End-to-end, lumped path. For a mesh of one unit-square element
carrying one bilinear scalar field with four DOFs and no constraints, on a fresh
projector: the diagonal mass vector has the entry `1/4` at each of the four DOFs
and sums to `1`, and `computeL2Projection` with `consistent_mass_matrix = false`
returns the target `4 * F[g]` at every DOF `g`; so the target is `4` at every DOF
when the source vector is `1` everywhere, and it is `1` at every DOF when the
source vector is the load vector of the constant field, `1/4` everywhere. -/
theorem end_to_end_lumped_path (ids : BdryIds) (petsc : Petsc) (p : FEProjector)
    (U_vec F_vec : PetscVector) (system_name : String) (close_U close_F : Bool) (tol : ℚ)
    (max_its : Nat)
    (hq : IsUnitSquareQ4 p.d_fe_data.get_mesh (p.d_fe_data.get_system system_name))
    (hmiss : p.d_L2_proj_matrix_diag system_name = none)
    (hok : petsc.VecPointwiseDivide_ierr = 0) :
    (∀ g, g < 4 → (buildDiagonalL2MassMatrix p system_name).2.val g = 1 / 4) ∧
    ∑ g in Finset.range 4, (buildDiagonalL2MassMatrix p system_name).2.val g = 1 ∧
    ∃ r, computeL2Projection ids petsc p U_vec F_vec system_name false close_U close_F tol
        max_its = some r ∧ r.converged = true ∧
      (∀ g, g < 4 → r.U_vec.val g = 4 * F_vec.val g) ∧
      ((∀ g, g < 4 → F_vec.val g = 1) → ∀ g, g < 4 → r.U_vec.val g = 4) ∧
      ((∀ g, g < 4 → F_vec.val g = 1 / 4) → ∀ g, g < 4 → r.U_vec.val g = 1) := by
  refine ⟨fun g hg => q4_diagonal_val p system_name hq hmiss g hg, ?_, ?_⟩
  · rw [Finset.sum_congr rfl (fun g hg =>
      q4_diagonal_val p system_name hq hmiss g (Finset.mem_range.mp hg))]
    norm_num
  · have hU : ∀ g, g < 4 →
        ((p.d_fe_data.get_system system_name).dof_map.enforce_constraints_exactly
          (fun i => F_vec.val i / (buildDiagonalL2MassMatrix p system_name).2.val i)) g =
        4 * F_vec.val g := by
      intro g hg
      rw [hq.2.2.2.2.1.2.2.2, q4_diagonal_val p system_name hq hmiss g hg]
      ring
    refine ⟨_, computeL2Projection_direct ids petsc p U_vec F_vec system_name false close_U
      close_F tol max_its ⟨rfl, hq.2.2.2.2.1.1⟩ hok, rfl, hU, fun hF g hg => ?_,
      fun hF g hg => ?_⟩
    · exact (hU g hg).trans (by rw [hF g hg]; norm_num)
    · exact (hU g hg).trans (by rw [hF g hg]; norm_num)

/-- Witness for the amended C18 on the unit-square system with the four-point
rule: the diagonal mass vector sums to `1`. -/
theorem end_to_end_lumped_path_witness :
    ∑ g in Finset.range 4, (buildDiagonalL2MassMatrix q4_projector sample_name).2.val g = 1 :=
  (end_to_end_lumped_path sample_bdry_ids quiet_petsc q4_projector zero_vec ones_vec
    sample_name true true (1 / 10 ^ 6) 100 q4_system_is_unit_square rfl rfl).2.1

theorem q4_scatter (f : Nat → Nat → ℚ) (a b : Nat) (ha : a < 4) (hb : b < 4) :
    ∑ i in Finset.range 4, ∑ j in Finset.range 4,
      (if [0, 1, 2, 3].get? i = some a ∧ [0, 1, 2, 3].get? j = some b then f i j else 0) =
      f a b := by
  interval_cases a <;> interval_cases b <;> simp [Finset.sum_range_succ]

theorem q4_mass_ge (i j : Nat) : 1 / 36 ≤ |q4_mass i j| := by
  unfold q4_mass
  split
  · norm_num [abs_of_pos]
  · split <;> norm_num [abs_of_pos]

theorem q4_prune_inactive (mesh : MeshBase) (sys : System) (hq : IsUnitSquareQ4 mesh sys)
    (a b : Nat) :
    (prune_roundoff_entries (element_mass_matrix sys 0 0 DenseMatrix.empty)).val a b =
      (element_mass_matrix sys 0 0 DenseMatrix.empty).val a b := by
  refine prune_inactive _ (fun i j hi hj _ => Or.inr ?_) a b
  rw [(element_mass_matrix_dims _ _ _ _).1, hq.2.2.2.1] at hi
  rw [(element_mass_matrix_dims _ _ _ _).2, hq.2.2.2.1] at hj
  have hmin : min_diagonal_entry (element_mass_matrix sys 0 0 DenseMatrix.empty) ≤ 1 / 9 := by
    have h00 := q4_M_e_val mesh sys hq 0 0 (by decide) (by decide)
    have : q4_mass 0 0 = 1 / 9 := by norm_num [q4_mass]
    rw [← this, ← h00]
    refine min_diagonal_entry_le _ 0 ?_
    rw [(element_mass_matrix_dims _ _ _ _).1, (element_mass_matrix_dims _ _ _ _).2,
      hq.2.2.2.1]
    decide
  rw [q4_M_e_val mesh sys hq i j hi hj]
  have h1 : prune_tol * min_diagonal_entry (element_mass_matrix sys 0 0 DenseMatrix.empty) ≤
      prune_tol * (1 / 9) := mul_le_mul_of_nonneg_left hmin prune_tol_pos.le
  refine h1.trans (le_trans ?_ (q4_mass_ge i j))
  norm_num [prune_tol]

/-- On the unit-square bilinear element the freshly built consistent matrix is the
exact bilinear mass matrix. -/
theorem q4_consistent_val (ids : BdryIds) (p : FEProjector) (system_name : String)
    (hq : IsUnitSquareQ4 p.d_fe_data.get_mesh (p.d_fe_data.get_system system_name))
    (hmiss : p.d_L2_proj_solver system_name = none ∨ p.d_L2_proj_matrix system_name = none)
    (a b : Nat) (ha : a < 4) (hb : b < 4) :
    (buildL2ProjectionSolver ids p system_name).2.2.val a b = q4_mass a b := by
  rw [buildL2ProjectionSolver_build ids p system_name hmiss]
  unfold built_L2_proj_matrix
  simp only
  rw [reset_dirichlet_unconstrained _ _ _ _ hq.2.2.2.2.1.2.1,
    assemble_consistent_single _ _ _ 0 hq.1 hq.2.2.1 hq.2.2.2.2.1.2.2.1]
  simp only [PetscMatrix.add_matrix, prune_m, prune_n, (element_mass_matrix_dims _ _ _ _).1,
    (element_mass_matrix_dims _ _ _ _).2]
  rw [hq.2.2.2.1]
  simp only [List.length_cons, List.length_nil]
  rw [q4_scatter _ a b ha hb, q4_prune_inactive _ _ hq, q4_M_e_val _ _ hq a b ha hb]
  simp [new_mass_matrix, PetscMatrix.new]

theorem q4_mat_vec (ids : BdryIds) (p : FEProjector) (system_name : String)
    (hq : IsUnitSquareQ4 p.d_fe_data.get_mesh (p.d_fe_data.get_system system_name))
    (hmiss : p.d_L2_proj_solver system_name = none ∨ p.d_L2_proj_matrix system_name = none)
    (x : Nat → ℚ) (g : Nat) (hg : g < 4) :
    mat_vec (buildL2ProjectionSolver ids p system_name).2.2.val x 4 g =
      q4_mass g 0 * x 0 + q4_mass g 1 * x 1 + q4_mass g 2 * x 2 + q4_mass g 3 * x 3 := by
  unfold mat_vec
  simp only [Finset.sum_range_succ, Finset.sum_range_zero, zero_add]
  rw [q4_consistent_val ids p system_name hq hmiss g 0 hg (by decide),
    q4_consistent_val ids p system_name hq hmiss g 1 hg (by decide),
    q4_consistent_val ids p system_name hq hmiss g 2 hg (by decide),
    q4_consistent_val ids p system_name hq hmiss g 3 hg (by decide)]

/-- Counterexample to C19 as stated. On the unit-square bilinear element the
consistent matrix applied to the vector `1` gives `1/4` at DOF 0, while the source
is `1` there: `x = 1` does not solve `M x = source`. -/
theorem consistent_unit_source_not_solved_by_one :
    IsUnitSquareQ4 unit_mesh q4_system ∧
    mat_vec (buildL2ProjectionSolver sample_bdry_ids q4_projector sample_name).2.2.val
      (fun _ => 1) 4 0 = 1 / 4 ∧
    mat_vec (buildL2ProjectionSolver sample_bdry_ids q4_projector sample_name).2.2.val
      (fun _ => 1) 4 0 ≠ ones_vec.val 0 := by
  have h : mat_vec (buildL2ProjectionSolver sample_bdry_ids q4_projector sample_name).2.2.val
      (fun _ => 1) 4 0 = 1 / 4 := by
    rw [q4_mat_vec sample_bdry_ids q4_projector sample_name q4_system_is_unit_square
      (Or.inl rfl) _ 0 (by decide)]
    norm_num [q4_mass]
  refine ⟨q4_system_is_unit_square, h, ?_⟩
  rw [h]
  norm_num [ones_vec]

/-- C19 (amended). End-to-end, consistent path. For the single unit-square
bilinear element with no constraints, on a fresh projector, with `M` the matrix
assembled by `buildL2ProjectionSolver`: `M` applied to the vector `1` is `1/4` at
every DOF (the load vector of the constant field `1`), and a vector `x` solves
`M x = source` for the source `1` at every DOF if and only if `x = 4` at every
DOF, which is the direct-division quotient `1 / D[g]` of the same source. -/
theorem end_to_end_consistent_path (ids : BdryIds) (p : FEProjector) (system_name : String)
    (hq : IsUnitSquareQ4 p.d_fe_data.get_mesh (p.d_fe_data.get_system system_name))
    (hmiss : p.d_L2_proj_solver system_name = none ∨ p.d_L2_proj_matrix system_name = none)
    (hmiss_diag : p.d_L2_proj_matrix_diag system_name = none) :
    (∀ g, g < 4 →
      mat_vec (buildL2ProjectionSolver ids p system_name).2.2.val (fun _ => 1) 4 g = 1 / 4) ∧
    (∀ x : Nat → ℚ,
      (∀ g, g < 4 → mat_vec (buildL2ProjectionSolver ids p system_name).2.2.val x 4 g = 1) ↔
        ∀ g, g < 4 → x g = 4) ∧
    (∀ g, g < 4 → (4 : ℚ) = 1 / (buildDiagonalL2MassMatrix p system_name).2.val g) := by
  refine ⟨fun g hg => ?_, fun x => ⟨fun h => ?_, fun h g hg => ?_⟩, fun g hg => ?_⟩
  · rw [q4_mat_vec ids p system_name hq hmiss _ g hg]
    interval_cases g <;> norm_num [q4_mass]
  · have h0 := h 0 (by decide)
    have h1 := h 1 (by decide)
    have h2 := h 2 (by decide)
    have h3 := h 3 (by decide)
    rw [q4_mat_vec ids p system_name hq hmiss x _ (by decide)] at h0 h1 h2 h3
    norm_num [q4_mass] at h0 h1 h2 h3
    intro g hg
    interval_cases g <;> linarith
  · rw [q4_mat_vec ids p system_name hq hmiss x g hg, h 0 (by decide), h 1 (by decide),
      h 2 (by decide), h 3 (by decide)]
    interval_cases g <;> norm_num [q4_mass]
  · rw [q4_diagonal_val p system_name hq hmiss_diag g hg]
    norm_num

/-- Witness for the amended C19 on the unit-square system with the four-point
rule: the matrix applied to the vector `1` gives `1/4` at DOF 2. -/
theorem end_to_end_consistent_path_witness :
    mat_vec (buildL2ProjectionSolver sample_bdry_ids q4_projector sample_name).2.2.val
      (fun _ => 1) 4 2 = 1 / 4 :=
  (end_to_end_consistent_path sample_bdry_ids q4_projector sample_name
    q4_system_is_unit_square (Or.inl rfl) rfl).1 2 (by decide)

/-! ## Systems without DOFs -/

/-- What `buildDiagonalL2MassMatrix` leaves in the diagonal cache. -/
theorem buildDiagonalL2MassMatrix_caches (p : FEProjector) (system_name : String) :
    (buildDiagonalL2MassMatrix p system_name).1.d_L2_proj_matrix_diag system_name =
      some (buildDiagonalL2MassMatrix p system_name).2 := by
  unfold buildDiagonalL2MassMatrix
  split
  · rename_i v hv; exact hv
  · exact map_assign_self _ _ _

theorem buildLumpedL2ProjectionSolver_build (p : FEProjector) (system_name : String)
    (hmiss : p.d_lumped_L2_proj_solver system_name = none ∨
      p.d_lumped_L2_proj_matrix system_name = none) :
    (buildLumpedL2ProjectionSolver p system_name).2.2 =
      built_lumped_L2_proj_matrix p system_name := by
  unfold buildLumpedL2ProjectionSolver
  split
  · rename_i hs hm
    rcases hmiss with h | h
    · rw [h] at hs; cases hs
    · rw [h] at hm; cases hm
  · rfl

theorem add_matrix_no_dofs (M : PetscMatrix) (dm : DenseMatrix) (a b : Nat)
    (hM : M.val a b = 0) : (M.add_matrix dm []).val a b = 0 :=
  add_matrix_zero M dm [] a b hM (fun i _ hi _ => by simp at hi)

theorem assemble_consistent_no_dofs (mesh : MeshBase) (sys : System) (M : PetscMatrix)
    (hnc : ∀ M_e dofs, sys.dof_map.constrain_element_matrix M_e dofs = (M_e, dofs))
    (hnone : ∀ e v, sys.dof_map.dof_indices e v = []) (a b : Nat) (hM : M.val a b = 0) :
    (assemble_consistent mesh sys M).val a b = 0 := by
  unfold assemble_consistent
  refine foldl_invariant (fun st : DenseMatrix × PetscMatrix => st.2.val a b = 0) _ _ _ hM ?_
  intro st elem hst
  refine foldl_invariant (fun st : DenseMatrix × PetscMatrix => st.2.val a b = 0) _ _ _ hst ?_
  intro st var_num hst
  simp only [consistent_elem_var, hnc, hnone]
  exact add_matrix_no_dofs _ _ a b hst

theorem assemble_lumped_no_dofs (mesh : MeshBase) (sys : System) (M : PetscMatrix)
    (hnc : ∀ M_e dofs, sys.dof_map.constrain_element_matrix M_e dofs = (M_e, dofs))
    (hnone : ∀ e v, sys.dof_map.dof_indices e v = []) (a b : Nat) (hM : M.val a b = 0) :
    (assemble_lumped mesh sys M).val a b = 0 := by
  unfold assemble_lumped
  refine foldl_invariant
    (fun st : DenseMatrix × DenseMatrix × PetscMatrix => st.2.2.val a b = 0) _ _ _ hM ?_
  intro st elem hst
  refine foldl_invariant
    (fun st : DenseMatrix × DenseMatrix × PetscMatrix => st.2.2.val a b = 0) _ _ _ hst ?_
  intro st var_num hst
  simp only [lumped_elem_var, hnc, hnone]
  exact add_matrix_no_dofs _ _ a b hst

theorem diagonal_mass_spec_no_dofs (mesh : MeshBase) (sys : System)
    (hnone : ∀ e v, sys.dof_map.dof_indices e v = []) (g : Nat) :
    diagonal_mass_spec mesh sys g = 0 := by
  unfold diagonal_mass_spec
  refine List.sum_eq_zero (fun x hx => ?_)
  obtain ⟨e, _, rfl⟩ := List.mem_map.mp hx
  unfold lumped_contribution
  simp [hnone]

/-- Counterexample to C20 as stated. For the zero-DOF system on a fresh projector
each of the three builders returns and leaves the returned objects in the caches
under the system name. -/
theorem zero_dof_builders_return :
    (∀ e v, zero_dof_system.dof_map.dof_indices e v = []) ∧
    (buildL2ProjectionSolver sample_bdry_ids zero_dof_projector
        sample_name).1.d_L2_proj_matrix sample_name =
      some (buildL2ProjectionSolver sample_bdry_ids zero_dof_projector sample_name).2.2 ∧
    (buildLumpedL2ProjectionSolver zero_dof_projector
        sample_name).1.d_lumped_L2_proj_matrix sample_name =
      some (buildLumpedL2ProjectionSolver zero_dof_projector sample_name).2.2 ∧
    (buildDiagonalL2MassMatrix zero_dof_projector
        sample_name).1.d_L2_proj_matrix_diag sample_name =
      some (buildDiagonalL2MassMatrix zero_dof_projector sample_name).2 :=
  ⟨fun _ _ => rfl, (buildL2ProjectionSolver_caches _ _ _).2.1,
    (buildLumpedL2ProjectionSolver_caches _ _).2.1, buildDiagonalL2MassMatrix_caches _ _⟩

/-- C20 (amended). Zero-DOF input is not rejected. For a system that has zero DOFs
(every element's DOF index list is empty for every variable, and the DOF map has no
constraints), on a projector that has nothing cached under the system name, each
of `buildL2ProjectionSolver`, `buildLumpedL2ProjectionSolver` and
`buildDiagonalL2MassMatrix` returns normally: it builds an all-zero matrix or
vector, stores it in its cache and returns it. -/
theorem zero_dof_builders_build_zero (ids : BdryIds) (p : FEProjector) (system_name : String)
    (hnone : ∀ e v, (p.d_fe_data.get_system system_name).dof_map.dof_indices e v = [])
    (hfree : (p.d_fe_data.get_system system_name).dof_map.Unconstrained)
    (h1 : p.d_L2_proj_solver system_name = none ∨ p.d_L2_proj_matrix system_name = none)
    (h2 : p.d_lumped_L2_proj_solver system_name = none ∨
      p.d_lumped_L2_proj_matrix system_name = none)
    (h3 : p.d_L2_proj_matrix_diag system_name = none) :
    ((∀ a b, (buildL2ProjectionSolver ids p system_name).2.2.val a b = 0) ∧
      (buildL2ProjectionSolver ids p system_name).1.d_L2_proj_matrix system_name =
        some (buildL2ProjectionSolver ids p system_name).2.2 ∧
      (buildL2ProjectionSolver ids p system_name).1.d_L2_proj_solver system_name =
        some (buildL2ProjectionSolver ids p system_name).2.1) ∧
    ((∀ a b, (buildLumpedL2ProjectionSolver p system_name).2.2.val a b = 0) ∧
      (buildLumpedL2ProjectionSolver p system_name).1.d_lumped_L2_proj_matrix system_name =
        some (buildLumpedL2ProjectionSolver p system_name).2.2 ∧
      (buildLumpedL2ProjectionSolver p system_name).1.d_lumped_L2_proj_solver system_name =
        some (buildLumpedL2ProjectionSolver p system_name).2.1) ∧
    ((∀ g, (buildDiagonalL2MassMatrix p system_name).2.val g = 0) ∧
      (buildDiagonalL2MassMatrix p system_name).1.d_L2_proj_matrix_diag system_name =
        some (buildDiagonalL2MassMatrix p system_name).2) := by
  refine ⟨⟨fun a b => ?_, (buildL2ProjectionSolver_caches _ _ _).2.1,
      (buildL2ProjectionSolver_caches _ _ _).1⟩,
    ⟨fun a b => ?_, (buildLumpedL2ProjectionSolver_caches _ _).2.1,
      (buildLumpedL2ProjectionSolver_caches _ _).1⟩,
    ⟨fun g => ?_, buildDiagonalL2MassMatrix_caches _ _⟩⟩
  · rw [buildL2ProjectionSolver_build ids p system_name h1]
    unfold built_L2_proj_matrix
    simp only
    rw [reset_dirichlet_unconstrained _ _ _ _ hfree.2.1]
    exact assemble_consistent_no_dofs _ _ _ hfree.2.2.1 hnone a b rfl
  · rw [buildLumpedL2ProjectionSolver_build p system_name h2]
    unfold built_lumped_L2_proj_matrix
    exact assemble_lumped_no_dofs _ _ _ hfree.2.2.1 hnone a b rfl
  · rw [buildDiagonalL2MassMatrix_build p system_name h3]
    simp only [built_L2_proj_matrix_diag]
    rw [assemble_diagonal_val, diagonal_mass_spec_no_dofs _ _ hnone]
    simp

/-- Witness for the amended C20 on the zero-DOF system: the built diagonal vector
is zero at DOF 0. -/
theorem zero_dof_builders_build_zero_witness :
    (buildDiagonalL2MassMatrix zero_dof_projector sample_name).2.val 0 = 0 :=
  (zero_dof_builders_build_zero sample_bdry_ids zero_dof_projector sample_name
    (fun _ _ => rfl) ⟨rfl, fun _ => rfl, fun _ _ => rfl, fun _ => rfl⟩
    (Or.inl rfl) (Or.inl rfl) rfl).2.2.1 0

/-! ## Constants, symmetry and idempotence at element level -/

/-- C25. Consistent projection reproduces constants. For every element and
variable whose `n` basis functions sum to `1` at every quadrature point, each row
sum of the element mass matrix `M_e` equals the load entry
`b_i = sum_qp phi[i][qp] * JxW[qp]` of the constant function `1`, and the sum of
all entries of `M_e` equals `sum_qp JxW[qp]`. -/
theorem element_mass_matrix_reproduces_constants (sys : System) (elem var_num : Nat)
    (M_prev : DenseMatrix)
    (hpu : ∀ qp, qp < sys.fe.n_points elem →
      ∑ i in Finset.range (sys.dof_map.dof_indices elem var_num).length,
        sys.fe.phi elem i qp = 1) :
    (∀ i, i < (sys.dof_map.dof_indices elem var_num).length →
      ∑ j in Finset.range (sys.dof_map.dof_indices elem var_num).length,
        (element_mass_matrix sys elem var_num M_prev).val i j =
      ∑ qp in Finset.range (sys.fe.n_points elem),
        sys.fe.phi elem i qp * sys.fe.JxW elem qp) ∧
    ∑ i in Finset.range (sys.dof_map.dof_indices elem var_num).length,
      ∑ j in Finset.range (sys.dof_map.dof_indices elem var_num).length,
        (element_mass_matrix sys elem var_num M_prev).val i j =
      ∑ qp in Finset.range (sys.fe.n_points elem), sys.fe.JxW elem qp := by
  have hrow : ∀ i, i < (sys.dof_map.dof_indices elem var_num).length →
      ∑ j in Finset.range (sys.dof_map.dof_indices elem var_num).length,
        (element_mass_matrix sys elem var_num M_prev).val i j =
      ∑ qp in Finset.range (sys.fe.n_points elem),
        sys.fe.phi elem i qp * sys.fe.JxW elem qp := by
    intro i hi
    rw [Finset.sum_congr rfl (fun j hj => by
      rw [element_mass_matrix_val, if_pos ⟨hi, Finset.mem_range.mp hj⟩])]
    rw [Finset.sum_comm]
    refine Finset.sum_congr rfl (fun qp hqp => ?_)
    have h1 := hpu qp (Finset.mem_range.mp hqp)
    calc ∑ j in Finset.range (sys.dof_map.dof_indices elem var_num).length,
          sys.fe.phi elem i qp * sys.fe.phi elem j qp * sys.fe.JxW elem qp
        = sys.fe.phi elem i qp * sys.fe.JxW elem qp *
            ∑ j in Finset.range (sys.dof_map.dof_indices elem var_num).length,
              sys.fe.phi elem j qp := by
          rw [Finset.mul_sum]
          exact Finset.sum_congr rfl (fun j _ => by ring)
      _ = sys.fe.phi elem i qp * sys.fe.JxW elem qp := by rw [h1, mul_one]
  refine ⟨hrow, ?_⟩
  rw [Finset.sum_congr rfl (fun i hi => hrow i (Finset.mem_range.mp hi)), Finset.sum_comm]
  refine Finset.sum_congr rfl (fun qp hqp => ?_)
  rw [← Finset.sum_mul, hpu qp (Finset.mem_range.mp hqp), one_mul]

/-- Witness for C25 on the two-DOF system (both basis functions equal `1/2` at the
single quadrature point): all entries of the element matrix sum to the weight `1`. -/
theorem element_mass_matrix_reproduces_constants_witness :
    ∑ i in Finset.range 2, ∑ j in Finset.range 2,
      (element_mass_matrix two_dof_system 0 0 DenseMatrix.empty).val i j =
      ∑ qp in Finset.range 1, two_dof_system.fe.JxW 0 qp :=
  (element_mass_matrix_reproduces_constants two_dof_system 0 0 DenseMatrix.empty
    (fun qp _ => by
      show ∑ i in Finset.range 2, two_dof_system.fe.phi 0 i qp = 1
      norm_num [Finset.sum_range_succ, two_dof_system])).2

/-- C26. Pruning preserves symmetry. For every square matrix `M_e` that is
symmetric on its index range, the result of `prune_roundoff_entries` is symmetric
there: entries `(i, j)` and `(j, i)` are either both kept or both zeroed. -/
theorem prune_roundoff_entries_preserves_symmetry (M_e : DenseMatrix) (hsq : M_e.m = M_e.n)
    (hs : ∀ i j, i < M_e.n → j < M_e.n → M_e.val i j = M_e.val j i) (i j : Nat)
    (hi : i < M_e.n) (hj : j < M_e.n) :
    (prune_roundoff_entries M_e).val i j = (prune_roundoff_entries M_e).val j i ∧
    (((prune_roundoff_entries M_e).val i j = M_e.val i j ∧
        (prune_roundoff_entries M_e).val j i = M_e.val j i) ∨
      ((prune_roundoff_entries M_e).val i j = 0 ∧
        (prune_roundoff_entries M_e).val j i = 0)) := by
  rw [prune_val, prune_val, hs j i hj hi]
  by_cases c : i < M_e.m ∧ j < M_e.n ∧ i ≠ j ∧ |M_e.val i j| < prune_tol * min_diagonal_entry M_e
  · rw [if_pos c, if_pos ⟨hsq ▸ c.2.1, hsq ▸ c.1, fun h => c.2.2.1 h.symm, c.2.2.2⟩]
    exact ⟨rfl, Or.inr ⟨rfl, rfl⟩⟩
  · rw [if_neg c, if_neg]
    · exact ⟨rfl, Or.inl ⟨rfl, rfl⟩⟩
    · rintro ⟨h1, h2, h3, h4⟩
      exact c ⟨hsq ▸ h2, hsq ▸ h1, fun h => h3 h.symm, h4⟩

/-- Witness for C26 on the symmetric matrix with unit diagonal and off-diagonal
`1e-13`: both off-diagonal entries are zeroed. -/
theorem prune_roundoff_entries_preserves_symmetry_witness :
    (prune_roundoff_entries tiny_offdiag).val 0 1 = (prune_roundoff_entries tiny_offdiag).val 1 0 :=
  (prune_roundoff_entries_preserves_symmetry tiny_offdiag rfl
    (fun i j _ _ => by
      show (if i = j then (1 : ℚ) else 1 / 10 ^ 13) = if j = i then 1 else 1 / 10 ^ 13
      by_cases h : i = j
      · rw [if_pos h, if_pos h.symm]
      · rw [if_neg h, if_neg (fun h2 => h h2.symm)])
    0 1 (by decide) (by decide)).1

theorem min_fold_congr (g h : Nat → ℚ) (a : ℚ) (k : Nat) (hgh : ∀ i, i < k → g i = h i) :
    (List.range k).foldl (fun acc i => min (g i) acc) a =
      (List.range k).foldl (fun acc i => min (h i) acc) a := by
  induction k with
  | zero => rfl
  | succ k ih =>
    rw [List.range_succ, List.foldl_append, List.foldl_append]
    simp only [List.foldl_cons, List.foldl_nil]
    rw [ih (fun i hi => hgh i (by omega)), hgh k (by omega)]

theorem min_diagonal_entry_prune (M : DenseMatrix) :
    min_diagonal_entry (prune_roundoff_entries M) = min_diagonal_entry M := by
  unfold min_diagonal_entry
  rw [prune_m, prune_n]
  refine min_fold_congr _ _ _ _ (fun i _ => ?_)
  rw [prune_val, if_neg]
  rintro ⟨_, _, h, _⟩
  exact h rfl

/-- C27. Pruning is idempotent. For every dense matrix `M_e`, applying
`prune_roundoff_entries` twice gives the same matrix as applying it once. -/
theorem prune_roundoff_entries_idempotent (M_e : DenseMatrix) :
    prune_roundoff_entries (prune_roundoff_entries M_e) = prune_roundoff_entries M_e := by
  refine DenseMatrix.ext_fields (prune_m _) (prune_n _) (fun a b => ?_)
  rw [prune_val (prune_roundoff_entries M_e), min_diagonal_entry_prune]
  split
  · rename_i c
    rw [prune_val] at c ⊢
    by_cases c2 : a < M_e.m ∧ b < M_e.n ∧ a ≠ b ∧
        |M_e.val a b| < prune_tol * min_diagonal_entry M_e
    · rw [if_pos c2]
    · rw [if_neg c2] at c ⊢
      rw [prune_m, prune_n] at c
      exact absurd c c2
  · rfl

/-! ## The recognised-tag filter -/

theorem int_eq_of_testBit_eq (a b : Int) (h : ∀ k, Int.testBit a k = Int.testBit b k) :
    a = b := by
  cases a with
  | ofNat m =>
    cases b with
    | ofNat n =>
      have : m = n := Nat.eq_of_testBit_eq (fun k => h k)
      rw [this]
    | negSucc n =>
      exfalso
      have h1 : Nat.testBit m (m + n) = !(Nat.testBit n (m + n)) := h (m + n)
      have hm : m < 2 ^ (m + n) :=
        lt_of_lt_of_le (Nat.lt_two_pow m) (Nat.pow_le_pow_right (by decide) (by omega))
      have hn : n < 2 ^ (m + n) :=
        lt_of_lt_of_le (Nat.lt_two_pow n) (Nat.pow_le_pow_right (by decide) (by omega))
      rw [Nat.testBit_lt_two_pow hm, Nat.testBit_lt_two_pow hn] at h1
      cases h1
  | negSucc m =>
    cases b with
    | ofNat n =>
      exfalso
      have h1 : (!(Nat.testBit m (m + n))) = Nat.testBit n (m + n) := h (m + n)
      have hm : m < 2 ^ (m + n) :=
        lt_of_lt_of_le (Nat.lt_two_pow m) (Nat.pow_le_pow_right (by decide) (by omega))
      have hn : n < 2 ^ (m + n) :=
        lt_of_lt_of_le (Nat.lt_two_pow n) (Nat.pow_le_pow_right (by decide) (by omega))
      rw [Nat.testBit_lt_two_pow hm, Nat.testBit_lt_two_pow hn] at h1
      cases h1
    | negSucc n =>
      have : m = n := Nat.eq_of_testBit_eq (fun k => by
        have h1 : (!(Nat.testBit m k)) = !(Nat.testBit n k) := h k
        cases hm : Nat.testBit m k <;> cases hn : Nat.testBit n k <;> simp_all)
      rw [this]

/-- Bits of the accumulated ids: bit `k` is set exactly when it is set in the
start value or in some recognised member of the list. -/
theorem dirichlet_fold_testBit (ids : BdryIds) (l : List Int) (acc : Int) (k : Nat) :
    Int.testBit (l.foldl (fun dirichlet_bdry_ids bdry_id =>
      if bdry_id = ids.X ∨ bdry_id = ids.Y ∨ bdry_id = ids.Z ∨ bdry_id = ids.XY ∨
          bdry_id = ids.XZ ∨ bdry_id = ids.YZ ∨ bdry_id = ids.XYZ
      then Int.lor dirichlet_bdry_ids bdry_id else dirichlet_bdry_ids) acc) k = true ↔
    (Int.testBit acc k = true ∨
      ∃ t, t ∈ l ∧ recognized_bdry_id ids t ∧ Int.testBit t k = true) := by
  induction l generalizing acc with
  | nil => simp
  | cons t ts ih =>
    rw [List.foldl_cons, ih]
    by_cases hr : t = ids.X ∨ t = ids.Y ∨ t = ids.Z ∨ t = ids.XY ∨
        t = ids.XZ ∨ t = ids.YZ ∨ t = ids.XYZ
    · rw [if_pos hr, Int.testBit_lor, Bool.or_eq_true]
      constructor
      · rintro ((h | h) | ⟨u, hu, hru, hlu⟩)
        · exact Or.inl h
        · exact Or.inr ⟨t, List.mem_cons_self t ts, hr, h⟩
        · exact Or.inr ⟨u, List.mem_cons_of_mem t hu, hru, hlu⟩
      · rintro (h | ⟨u, hu, hru, hlu⟩)
        · exact Or.inl (Or.inl h)
        · rcases List.mem_cons.mp hu with rfl | hu
          · exact Or.inl (Or.inr hlu)
          · exact Or.inr ⟨u, hu, hru, hlu⟩
    · rw [if_neg hr]
      constructor
      · rintro (h | ⟨u, hu, hru, hlu⟩)
        · exact Or.inl h
        · exact Or.inr ⟨u, List.mem_cons_of_mem t hu, hru, hlu⟩
      · rintro (h | ⟨u, hu, hru, hlu⟩)
        · exact Or.inl h
        · rcases List.mem_cons.mp hu with rfl | hu
          · exact absurd hru hr
          · exact Or.inr ⟨u, hu, hru, hlu⟩

theorem get_dirichlet_bdry_ids_testBit (ids : BdryIds) (l : List Int) (k : Nat) :
    Int.testBit (get_dirichlet_bdry_ids ids l) k = true ↔
      ∃ t, t ∈ l ∧ recognized_bdry_id ids t ∧ Int.testBit t k = true := by
  unfold get_dirichlet_bdry_ids
  rw [dirichlet_fold_testBit]
  constructor
  · rintro (h | h)
    · rw [int_testBit_zero] at h; cases h
    · exact h
  · exact fun h => Or.inr h

theorem lor_fold_testBit (l : List Int) (acc : Int) (k : Nat) :
    Int.testBit (l.foldl Int.lor acc) k = true ↔
      (Int.testBit acc k = true ∨ ∃ t, t ∈ l ∧ Int.testBit t k = true) := by
  induction l generalizing acc with
  | nil => simp
  | cons t ts ih =>
    rw [List.foldl_cons, ih, Int.testBit_lor, Bool.or_eq_true]
    constructor
    · rintro ((h | h) | ⟨u, hu, hlu⟩)
      · exact Or.inl h
      · exact Or.inr ⟨t, List.mem_cons_self t ts, h⟩
      · exact Or.inr ⟨u, List.mem_cons_of_mem t hu, hlu⟩
    · rintro (h | ⟨u, hu, hlu⟩)
      · exact Or.inl (Or.inl h)
      · rcases List.mem_cons.mp hu with rfl | hu
        · exact Or.inl (Or.inr hlu)
        · exact Or.inr ⟨u, hu, hlu⟩

theorem bool_eq_of_iff (a b : Bool) (h : a = true ↔ b = true) : a = b := by
  cases a <;> cases b <;> simp_all

theorem mem_recognized_members (ids : BdryIds) (l : List Int) (t : Int) :
    t ∈ recognized_members ids l ↔ t ∈ l ∧ recognized_bdry_id ids t := by
  unfold recognized_members recognized_bdry_id
  rw [List.mem_filter, decide_eq_true_iff]

/-- C23. Recognised-tag filter. For every list of boundary ids,
`get_dirichlet_bdry_ids` returns the bitwise OR of exactly those members that equal
one of the seven recognised zero-displacement ids: a bit of the result is set if
and only if it is set in some recognised member (unrecognised ids contribute no
bits); two lists with the same members, in any order and multiplicity, give the
same result; and when the seven recognised ids are non-zero the result is `0` if
and only if the list contains no recognised id. -/
theorem recognized_tag_filter (ids : BdryIds) (bdry_ids : List Int) :
    get_dirichlet_bdry_ids ids bdry_ids = (recognized_members ids bdry_ids).foldl Int.lor 0 ∧
    (∀ k, Int.testBit (get_dirichlet_bdry_ids ids bdry_ids) k = true ↔
      ∃ t, t ∈ bdry_ids ∧ recognized_bdry_id ids t ∧ Int.testBit t k = true) ∧
    (∀ other : List Int, (∀ t, t ∈ other ↔ t ∈ bdry_ids) →
      get_dirichlet_bdry_ids ids other = get_dirichlet_bdry_ids ids bdry_ids) ∧
    (ids.X ≠ 0 ∧ ids.Y ≠ 0 ∧ ids.Z ≠ 0 ∧ ids.XY ≠ 0 ∧ ids.XZ ≠ 0 ∧ ids.YZ ≠ 0 ∧
        ids.XYZ ≠ 0 →
      (get_dirichlet_bdry_ids ids bdry_ids = 0 ↔
        ∀ t, t ∈ bdry_ids → ¬ recognized_bdry_id ids t)) := by
  refine ⟨?_, get_dirichlet_bdry_ids_testBit ids bdry_ids, fun other hmem => ?_, fun hne => ?_⟩
  · refine int_eq_of_testBit_eq _ _ (fun k => bool_eq_of_iff _ _ ?_)
    rw [get_dirichlet_bdry_ids_testBit, lor_fold_testBit]
    constructor
    · rintro ⟨t, ht, hr, hb⟩
      exact Or.inr ⟨t, (mem_recognized_members ids bdry_ids t).mpr ⟨ht, hr⟩, hb⟩
    · rintro (h | ⟨t, ht, hb⟩)
      · rw [int_testBit_zero] at h; cases h
      · obtain ⟨h1, h2⟩ := (mem_recognized_members ids bdry_ids t).mp ht
        exact ⟨t, h1, h2, hb⟩
  · refine int_eq_of_testBit_eq _ _ (fun k => bool_eq_of_iff _ _ ?_)
    rw [get_dirichlet_bdry_ids_testBit, get_dirichlet_bdry_ids_testBit]
    constructor
    · rintro ⟨t, ht, hr, hb⟩; exact ⟨t, (hmem t).mp ht, hr, hb⟩
    · rintro ⟨t, ht, hr, hb⟩; exact ⟨t, (hmem t).mpr ht, hr, hb⟩
  · obtain ⟨hX, hY, hZ, hXY, hXZ, hYZ, hXYZ⟩ := hne
    constructor
    · intro h0 t ht hr
      have ht0 : t ≠ 0 := by
        rcases hr with h | h | h | h | h | h | h <;> rw [h] <;> assumption
      have hbit : ∃ k, Int.testBit t k = true := by
        by_contra hno
        refine ht0 ((int_eq_zero_iff_testBit t).mpr (fun k => ?_))
        cases hk : Int.testBit t k
        · rfl
        · exact absurd ⟨k, hk⟩ hno
      obtain ⟨k, hk⟩ := hbit
      have := (get_dirichlet_bdry_ids_testBit ids bdry_ids k).mpr ⟨t, ht, hr, hk⟩
      rw [h0, int_testBit_zero] at this
      cases this
    · intro hnone
      refine (int_eq_zero_iff_testBit _).mpr (fun k => ?_)
      cases hk : Int.testBit (get_dirichlet_bdry_ids ids bdry_ids) k
      · rfl
      · obtain ⟨t, ht, hr, _⟩ := (get_dirichlet_bdry_ids_testBit ids bdry_ids k).mp hk
        exact absurd hr (hnone t ht)

/-- Witness for C23 with the sample ids, all non-zero: the list `[5, 7]` holds no
recognised id exactly when its result is `0`. -/
theorem recognized_tag_filter_witness :
    get_dirichlet_bdry_ids sample_bdry_ids [5, 7] = 0 ↔
      ∀ t, t ∈ [(5 : Int), 7] → ¬ recognized_bdry_id sample_bdry_ids t :=
  (recognized_tag_filter sample_bdry_ids [5, 7]).2.2.2 (by decide)

/-! ## The lumped matrix and the diagonal vector -/

theorem built_diag_val (p : FEProjector) (system_name : String) (g : Nat) :
    (built_L2_proj_matrix_diag p system_name).val g =
      diagonal_mass_spec p.d_fe_data.get_mesh (p.d_fe_data.get_system system_name) g := by
  unfold built_L2_proj_matrix_diag
  rw [assemble_diagonal_val]
  simp

theorem map_assign_other {α : Type} (d : String → Option α) (k n : String) (v : α)
    (h : k ≠ n) : map_assign d n v k = d k := by
  simp [map_assign, h]

/-- The builder `buildL2ProjectionSolver` leaves the entries under other names as
they are. -/
theorem buildL2ProjectionSolver_other (ids : BdryIds) (p : FEProjector)
    (system_name k : String) (h : k ≠ system_name) :
    (buildL2ProjectionSolver ids p system_name).1.d_L2_proj_solver k = p.d_L2_proj_solver k ∧
    (buildL2ProjectionSolver ids p system_name).1.d_L2_proj_matrix k = p.d_L2_proj_matrix k := by
  unfold buildL2ProjectionSolver
  split
  · exact ⟨rfl, rfl⟩
  · exact ⟨map_assign_other _ _ _ _ h, map_assign_other _ _ _ _ h⟩

theorem buildLumpedL2ProjectionSolver_other (p : FEProjector)
    (system_name k : String) (h : k ≠ system_name) :
    (buildLumpedL2ProjectionSolver p system_name).1.d_lumped_L2_proj_solver k =
      p.d_lumped_L2_proj_solver k ∧
    (buildLumpedL2ProjectionSolver p system_name).1.d_lumped_L2_proj_matrix k =
      p.d_lumped_L2_proj_matrix k := by
  unfold buildLumpedL2ProjectionSolver
  split
  · exact ⟨rfl, rfl⟩
  · exact ⟨map_assign_other _ _ _ _ h, map_assign_other _ _ _ _ h⟩

/-- What `buildDiagonalL2MassMatrix` leaves in the caches. -/
theorem buildDiagonalL2MassMatrix_frame (p : FEProjector) (system_name : String) :
    (buildDiagonalL2MassMatrix p system_name).1.d_L2_proj_solver = p.d_L2_proj_solver ∧
    (buildDiagonalL2MassMatrix p system_name).1.d_L2_proj_matrix = p.d_L2_proj_matrix ∧
    (buildDiagonalL2MassMatrix p system_name).1.d_lumped_L2_proj_solver =
      p.d_lumped_L2_proj_solver ∧
    (buildDiagonalL2MassMatrix p system_name).1.d_lumped_L2_proj_matrix =
      p.d_lumped_L2_proj_matrix ∧
    (∀ k, k ≠ system_name →
      (buildDiagonalL2MassMatrix p system_name).1.d_L2_proj_matrix_diag k =
        p.d_L2_proj_matrix_diag k) ∧
    (∀ v, p.d_L2_proj_matrix_diag system_name = some v →
      (buildDiagonalL2MassMatrix p system_name).1.d_L2_proj_matrix_diag =
        p.d_L2_proj_matrix_diag) := by
  unfold buildDiagonalL2MassMatrix
  split
  · exact ⟨rfl, rfl, rfl, rfl, fun _ _ => rfl, fun _ _ => rfl⟩
  · rename_i hnone
    refine ⟨rfl, rfl, rfl, rfl, fun k hk => map_assign_other _ _ _ _ hk, fun v hv => ?_⟩
    rw [hnone] at hv; cases hv

theorem buildL2ProjectionSolver_paired (ids : BdryIds) (p : FEProjector) (system_name : String)
    (h : p.PairedCaches) : (buildL2ProjectionSolver ids p system_name).1.PairedCaches := by
  intro k
  have hc := buildL2ProjectionSolver_caches ids p system_name
  refine ⟨?_, ?_⟩
  · by_cases hk : k = system_name
    · subst hk
      rw [hc.1, hc.2.1]; simp
    · rw [(buildL2ProjectionSolver_other ids p system_name k hk).1,
        (buildL2ProjectionSolver_other ids p system_name k hk).2]
      exact (h k).1
  · rw [hc.2.2.1, hc.2.2.2.1]
    exact (h k).2

theorem buildLumpedL2ProjectionSolver_paired (p : FEProjector) (system_name : String)
    (h : p.PairedCaches) : (buildLumpedL2ProjectionSolver p system_name).1.PairedCaches := by
  intro k
  have hc := buildLumpedL2ProjectionSolver_caches p system_name
  refine ⟨?_, ?_⟩
  · rw [hc.2.2.1, hc.2.2.2.1]
    exact (h k).1
  · by_cases hk : k = system_name
    · subst hk
      rw [hc.1, hc.2.1]; simp
    · rw [(buildLumpedL2ProjectionSolver_other p system_name k hk).1,
        (buildLumpedL2ProjectionSolver_other p system_name k hk).2]
      exact (h k).2

theorem buildDiagonalL2MassMatrix_paired (p : FEProjector) (system_name : String)
    (h : p.PairedCaches) : (buildDiagonalL2MassMatrix p system_name).1.PairedCaches := by
  intro k
  have hc := buildDiagonalL2MassMatrix_frame p system_name
  rw [hc.1, hc.2.1, hc.2.2.1, hc.2.2.2.1]
  exact h k

/-- The projector left by a returning call of `computeL2Projection`. -/
theorem computeL2Projection_projector (ids : BdryIds) (petsc : Petsc) (p : FEProjector)
    (U_vec F_vec : PetscVector) (system_name : String)
    (consistent_mass_matrix close_U close_F : Bool) (tol : ℚ) (max_its : Nat)
    (r : ProjectionResult)
    (hr : computeL2Projection ids petsc p U_vec F_vec system_name consistent_mass_matrix
      close_U close_F tol max_its = some r) :
    (direct_division p system_name consistent_mass_matrix ∧
      r.projector = (buildDiagonalL2MassMatrix p system_name).1) ∨
    (¬ direct_division p system_name consistent_mass_matrix ∧
      r.projector = (buildLumpedL2ProjectionSolver
        (select_solver_components ids p system_name consistent_mass_matrix).1 system_name).1) := by
  by_cases hd : direct_division p system_name consistent_mass_matrix
  · left
    refine ⟨hd, ?_⟩
    by_cases hok : petsc.VecPointwiseDivide_ierr = 0
    · rw [computeL2Projection_direct ids petsc p U_vec F_vec system_name consistent_mass_matrix
        close_U close_F tol max_its hd hok] at hr
      rw [← Option.some.inj hr]
    · rw [computeL2Projection_direct_abort ids petsc p U_vec F_vec system_name
        consistent_mass_matrix close_U close_F tol max_its hd hok] at hr
      cases hr
  · right
    refine ⟨hd, ?_⟩
    by_cases hok : petsc.SolveOk
    · rw [computeL2Projection_iterative ids petsc p U_vec F_vec system_name
        consistent_mass_matrix close_U close_F tol max_its hd hok] at hr
      rw [← Option.some.inj hr]
    · rw [computeL2Projection_iterative_abort ids petsc p U_vec F_vec system_name
        consistent_mass_matrix close_U close_F tol max_its hd hok] at hr
      cases hr

theorem select_solver_components_paired (ids : BdryIds) (p : FEProjector)
    (system_name : String) (c : Bool) (h : p.PairedCaches) :
    (select_solver_components ids p system_name c).1.PairedCaches := by
  unfold select_solver_components
  cases c
  · exact buildLumpedL2ProjectionSolver_paired p system_name h
  · exact buildL2ProjectionSolver_paired ids p system_name h

theorem reachable_paired (ids : BdryIds) (fe_data : EquationSystems) (enable_logging : Bool)
    (p : FEProjector) (h : FEProjector.Reachable ids fe_data enable_logging p) :
    p.PairedCaches := by
  induction h with
  | fresh => intro k; exact ⟨Iff.rfl, Iff.rfl⟩
  | consistent p n _ ih => exact buildL2ProjectionSolver_paired ids p n ih
  | lumped p n _ ih => exact buildLumpedL2ProjectionSolver_paired p n ih
  | diagonal p n _ ih => exact buildDiagonalL2MassMatrix_paired p n ih
  | projection petsc p U F n c cu cf tol its r _ hr ih =>
    rcases computeL2Projection_projector ids petsc p U F n c cu cf tol its r hr with h | h
    · rw [h.2]; exact buildDiagonalL2MassMatrix_paired p n ih
    · rw [h.2]
      exact buildLumpedL2ProjectionSolver_paired _ n
        (select_solver_components_paired ids p n c ih)

theorem isSome_iff_none_iff {α β : Type} (a : Option α) (b : Option β)
    (h : a.isSome ↔ b.isSome) : (a = none ↔ b = none) := by
  cases a <;> cases b <;> simp at h ⊢

/-- C29. Paired-cache invariant. In every state reachable from a freshly
constructed `FEProjector` by any sequence of calls of the three builders and of
returning calls of `computeL2Projection`, under every name the consistent solver
map holds an entry exactly when the consistent matrix map does, and likewise for
the lumped solver map and the lumped matrix map; so the rebuild test of each
builder (solver missing or matrix missing) is equivalent to the test of the solver
map alone and to the test of the matrix map alone. -/
theorem paired_cache_invariant (ids : BdryIds) (fe_data : EquationSystems)
    (enable_logging : Bool) (p : FEProjector)
    (h : FEProjector.Reachable ids fe_data enable_logging p) (k : String) :
    ((p.d_L2_proj_solver k).isSome ↔ (p.d_L2_proj_matrix k).isSome) ∧
    ((p.d_lumped_L2_proj_solver k).isSome ↔ (p.d_lumped_L2_proj_matrix k).isSome) ∧
    ((p.d_L2_proj_solver k = none ∨ p.d_L2_proj_matrix k = none) ↔
      p.d_L2_proj_solver k = none) ∧
    ((p.d_L2_proj_solver k = none ∨ p.d_L2_proj_matrix k = none) ↔
      p.d_L2_proj_matrix k = none) ∧
    ((p.d_lumped_L2_proj_solver k = none ∨ p.d_lumped_L2_proj_matrix k = none) ↔
      p.d_lumped_L2_proj_solver k = none) ∧
    ((p.d_lumped_L2_proj_solver k = none ∨ p.d_lumped_L2_proj_matrix k = none) ↔
      p.d_lumped_L2_proj_matrix k = none) := by
  have hp := reachable_paired ids fe_data enable_logging p h k
  have h1 := isSome_iff_none_iff _ _ hp.1
  have h2 := isSome_iff_none_iff _ _ hp.2
  refine ⟨hp.1, hp.2, ?_, ?_, ?_, ?_⟩
  · rw [← h1]; exact or_self_iff
  · rw [h1]; exact or_self_iff
  · rw [← h2]; exact or_self_iff
  · rw [h2]; exact or_self_iff

/-- Witness for C29: the state after a consistent build and a lumped build on
the fresh two-DOF projector is reachable, and its solver and matrix maps agree on
the name used. -/
theorem paired_cache_invariant_witness :
    ((buildLumpedL2ProjectionSolver
        (buildL2ProjectionSolver sample_bdry_ids two_dof_projector sample_name).1
        sample_name).1.d_L2_proj_solver sample_name).isSome ↔
    ((buildLumpedL2ProjectionSolver
        (buildL2ProjectionSolver sample_bdry_ids two_dof_projector sample_name).1
        sample_name).1.d_L2_proj_matrix sample_name).isSome :=
  (paired_cache_invariant sample_bdry_ids ⟨unit_mesh, fun _ => two_dof_system⟩ false _
    (FEProjector.Reachable.lumped _ sample_name
      (FEProjector.Reachable.consistent _ sample_name FEProjector.Reachable.fresh))
    sample_name).1

/-- C28. Cache footprint of a projection. A returning call of
`computeL2Projection` on the direct-division path leaves the four consistent and
lumped solver and matrix maps as they were and changes the diagonal-vector map at
most under the system name (where it holds an entry afterwards; a map that held
one before is left as it was). A returning call on the iterative path with
`consistent_mass_matrix = true` leaves an entry under the system name in all four
consistent and lumped maps; with `consistent_mass_matrix = false` it leaves the
two lumped entries and the consistent maps as they were. Neither iterative call
changes the diagonal-vector map, and entries under other names are never
changed. -/
theorem projection_cache_footprint (ids : BdryIds) (petsc : Petsc) (p : FEProjector)
    (U_vec F_vec : PetscVector) (system_name : String) (close_U close_F : Bool) (tol : ℚ)
    (max_its : Nat) :
    (∀ c, direct_division p system_name c → petsc.VecPointwiseDivide_ierr = 0 →
      ∃ r, computeL2Projection ids petsc p U_vec F_vec system_name c close_U close_F tol
          max_its = some r ∧
        r.projector.d_L2_proj_solver = p.d_L2_proj_solver ∧
        r.projector.d_L2_proj_matrix = p.d_L2_proj_matrix ∧
        r.projector.d_lumped_L2_proj_solver = p.d_lumped_L2_proj_solver ∧
        r.projector.d_lumped_L2_proj_matrix = p.d_lumped_L2_proj_matrix ∧
        (∀ k, k ≠ system_name →
          r.projector.d_L2_proj_matrix_diag k = p.d_L2_proj_matrix_diag k) ∧
        (r.projector.d_L2_proj_matrix_diag system_name).isSome ∧
        (∀ v, p.d_L2_proj_matrix_diag system_name = some v →
          r.projector.d_L2_proj_matrix_diag = p.d_L2_proj_matrix_diag)) ∧
    (petsc.SolveOk →
      ∃ r, computeL2Projection ids petsc p U_vec F_vec system_name true close_U close_F tol
          max_its = some r ∧
        (r.projector.d_L2_proj_solver system_name).isSome ∧
        (r.projector.d_L2_proj_matrix system_name).isSome ∧
        (r.projector.d_lumped_L2_proj_solver system_name).isSome ∧
        (r.projector.d_lumped_L2_proj_matrix system_name).isSome ∧
        r.projector.d_L2_proj_matrix_diag = p.d_L2_proj_matrix_diag ∧
        (∀ k, k ≠ system_name →
          r.projector.d_L2_proj_solver k = p.d_L2_proj_solver k ∧
          r.projector.d_L2_proj_matrix k = p.d_L2_proj_matrix k ∧
          r.projector.d_lumped_L2_proj_solver k = p.d_lumped_L2_proj_solver k ∧
          r.projector.d_lumped_L2_proj_matrix k = p.d_lumped_L2_proj_matrix k)) ∧
    (¬ direct_division p system_name false → petsc.SolveOk →
      ∃ r, computeL2Projection ids petsc p U_vec F_vec system_name false close_U close_F tol
          max_its = some r ∧
        (r.projector.d_lumped_L2_proj_solver system_name).isSome ∧
        (r.projector.d_lumped_L2_proj_matrix system_name).isSome ∧
        r.projector.d_L2_proj_solver = p.d_L2_proj_solver ∧
        r.projector.d_L2_proj_matrix = p.d_L2_proj_matrix ∧
        r.projector.d_L2_proj_matrix_diag = p.d_L2_proj_matrix_diag ∧
        (∀ k, k ≠ system_name →
          r.projector.d_lumped_L2_proj_solver k = p.d_lumped_L2_proj_solver k ∧
          r.projector.d_lumped_L2_proj_matrix k = p.d_lumped_L2_proj_matrix k)) := by
  refine ⟨fun c hd hok => ?_, fun hok => ?_, fun hd hok => ?_⟩
  · have hf := buildDiagonalL2MassMatrix_frame p system_name
    refine ⟨_, computeL2Projection_direct ids petsc p U_vec F_vec system_name c close_U
      close_F tol max_its hd hok, hf.1, hf.2.1, hf.2.2.1, hf.2.2.2.1, hf.2.2.2.2.1, ?_,
      hf.2.2.2.2.2⟩
    show ((buildDiagonalL2MassMatrix p system_name).1.d_L2_proj_matrix_diag system_name).isSome
    rw [buildDiagonalL2MassMatrix_caches]; rfl
  · have hd : ¬ direct_division p system_name true := fun h => Bool.noConfusion h.1
    have hq := buildL2ProjectionSolver_caches ids p system_name
    have hl := buildLumpedL2ProjectionSolver_caches
      (buildL2ProjectionSolver ids p system_name).1 system_name
    refine ⟨_, computeL2Projection_iterative ids petsc p U_vec F_vec system_name true close_U
      close_F tol max_its hd hok, ?_, ?_, ?_, ?_, ?_, fun k hk => ⟨?_, ?_, ?_, ?_⟩⟩
    · show ((buildLumpedL2ProjectionSolver (buildL2ProjectionSolver ids p system_name).1
        system_name).1.d_L2_proj_solver system_name).isSome
      rw [hl.2.2.1, hq.1]; rfl
    · show ((buildLumpedL2ProjectionSolver (buildL2ProjectionSolver ids p system_name).1
        system_name).1.d_L2_proj_matrix system_name).isSome
      rw [hl.2.2.2.1, hq.2.1]; rfl
    · show ((buildLumpedL2ProjectionSolver (buildL2ProjectionSolver ids p system_name).1
        system_name).1.d_lumped_L2_proj_solver system_name).isSome
      rw [hl.1]; rfl
    · show ((buildLumpedL2ProjectionSolver (buildL2ProjectionSolver ids p system_name).1
        system_name).1.d_lumped_L2_proj_matrix system_name).isSome
      rw [hl.2.1]; rfl
    · exact hl.2.2.2.2.1.trans hq.2.2.2.2.1
    · exact (congrFun hl.2.2.1 k).trans (buildL2ProjectionSolver_other ids p system_name k hk).1
    · exact (congrFun hl.2.2.2.1 k).trans
        (buildL2ProjectionSolver_other ids p system_name k hk).2
    · exact ((buildLumpedL2ProjectionSolver_other _ system_name k hk).1).trans
        (congrFun hq.2.2.1 k)
    · exact ((buildLumpedL2ProjectionSolver_other _ system_name k hk).2).trans
        (congrFun hq.2.2.2.1 k)
  · have hl := buildLumpedL2ProjectionSolver_caches p system_name
    have he : (buildLumpedL2ProjectionSolver
        (select_solver_components ids p system_name false).1 system_name).1 =
        (buildLumpedL2ProjectionSolver p system_name).1 := by
      show (buildLumpedL2ProjectionSolver (buildLumpedL2ProjectionSolver p system_name).1
        system_name).1 = _
      rw [buildLumpedL2ProjectionSolver_again]
    refine ⟨_, computeL2Projection_iterative ids petsc p U_vec F_vec system_name false close_U
      close_F tol max_its hd hok, ?_, ?_, ?_, ?_, ?_, fun k hk => ⟨?_, ?_⟩⟩
    · show ((buildLumpedL2ProjectionSolver (select_solver_components ids p system_name
        false).1 system_name).1.d_lumped_L2_proj_solver system_name).isSome
      rw [he, hl.1]; rfl
    · show ((buildLumpedL2ProjectionSolver (select_solver_components ids p system_name
        false).1 system_name).1.d_lumped_L2_proj_matrix system_name).isSome
      rw [he, hl.2.1]; rfl
    · show (buildLumpedL2ProjectionSolver (select_solver_components ids p system_name
        false).1 system_name).1.d_L2_proj_solver = _
      rw [he]; exact hl.2.2.1
    · show (buildLumpedL2ProjectionSolver (select_solver_components ids p system_name
        false).1 system_name).1.d_L2_proj_matrix = _
      rw [he]; exact hl.2.2.2.1
    · show (buildLumpedL2ProjectionSolver (select_solver_components ids p system_name
        false).1 system_name).1.d_L2_proj_matrix_diag = _
      rw [he]; exact hl.2.2.2.2.1
    · show (buildLumpedL2ProjectionSolver (select_solver_components ids p system_name
        false).1 system_name).1.d_lumped_L2_proj_solver k = _
      rw [he]; exact (buildLumpedL2ProjectionSolver_other p system_name k hk).1
    · show (buildLumpedL2ProjectionSolver (select_solver_components ids p system_name
        false).1 system_name).1.d_lumped_L2_proj_matrix k = _
      rw [he]; exact (buildLumpedL2ProjectionSolver_other p system_name k hk).2

/-- Witness for C28: on the fresh two-DOF projector with the quiet backend the
iterative call with the consistent mass matrix returns and leaves the four
entries. -/
theorem projection_cache_footprint_witness :
    ∃ r, computeL2Projection sample_bdry_ids quiet_petsc two_dof_projector zero_vec ones_vec
        sample_name true false false (1 / 10) 5 = some r ∧
      (r.projector.d_L2_proj_solver sample_name).isSome ∧
      (r.projector.d_L2_proj_matrix sample_name).isSome ∧
      (r.projector.d_lumped_L2_proj_solver sample_name).isSome ∧
      (r.projector.d_lumped_L2_proj_matrix sample_name).isSome :=
  match (projection_cache_footprint sample_bdry_ids quiet_petsc two_dof_projector zero_vec
    ones_vec sample_name false false (1 / 10) 5).2.1 ⟨rfl, rfl, rfl, rfl⟩ with
  | ⟨r, h, h1, h2, h3, h4, _⟩ => ⟨r, h, h1, h2, h3, h4⟩

/-! ## Division safety -/

theorem mass_diag_pos (sys : System) (e v i : Nat)
    (hJ : ∀ e qp, 0 ≤ sys.fe.JxW e qp)
    (hi : i < (sys.dof_map.dof_indices e v).length)
    (hq : ∃ qp, qp < sys.fe.n_points e ∧ 0 < sys.fe.JxW e qp ∧ sys.fe.phi e i qp ≠ 0) :
    0 < (element_mass_matrix sys e v DenseMatrix.empty).val i i := by
  rw [element_mass_matrix_val, if_pos ⟨hi, hi⟩]
  obtain ⟨qp, hqp, hw, hphi⟩ := hq
  refine Finset.sum_pos' (fun q _ => mul_nonneg (mul_self_nonneg _) (hJ e q))
    ⟨qp, Finset.mem_range.mpr hqp, mul_pos (mul_self_pos.mpr hphi) hw⟩

theorem lumped_entry_pos (mesh : MeshBase) (sys : System) (h : PositiveQuadrature mesh sys)
    (e : Nat) (he : e ∈ mesh.active_local_elements) (v : Nat)
    (hv : v < sys.dof_map.n_variables) (i : Nat)
    (hi : i < (sys.dof_map.dof_indices e v).length) :
    0 < lumped_entry mesh sys e v i := by
  unfold lumped_entry
  refine div_pos (mul_pos (h.2.1 e he) (mass_diag_pos sys e v i h.1 hi (h.2.2 e he v hv i hi))) ?_
  exact Finset.sum_pos' (fun k hk => le_of_lt (mass_diag_pos sys e v k h.1
      (Finset.mem_range.mp hk) (h.2.2 e he v hv k (Finset.mem_range.mp hk))))
    ⟨i, Finset.mem_range.mpr hi, mass_diag_pos sys e v i h.1 hi (h.2.2 e he v hv i hi)⟩

theorem lumped_contribution_nonneg (mesh : MeshBase) (sys : System)
    (h : PositiveQuadrature mesh sys) (g e : Nat) (he : e ∈ mesh.active_local_elements) :
    0 ≤ lumped_contribution mesh sys g e := by
  unfold lumped_contribution
  refine Finset.sum_nonneg (fun v hv => Finset.sum_nonneg (fun i hi => ?_))
  split
  · exact le_of_lt (lumped_entry_pos mesh sys h e he v (Finset.mem_range.mp hv) i
      (Finset.mem_range.mp hi))
  · exact le_refl _

theorem lumped_contribution_pos (mesh : MeshBase) (sys : System)
    (h : PositiveQuadrature mesh sys) (g e : Nat) (he : e ∈ mesh.active_local_elements)
    (v : Nat) (hv : v < sys.dof_map.n_variables) (hg : g ∈ sys.dof_map.dof_indices e v) :
    0 < lumped_contribution mesh sys g e := by
  unfold lumped_contribution
  obtain ⟨i, hi, hgi⟩ := List.getElem_of_mem hg
  have hget : (sys.dof_map.dof_indices e v).get? i = some g := by
    rw [List.get?_eq_getElem?, List.getElem?_eq_getElem hi, hgi]
  refine Finset.sum_pos' (fun w hw => Finset.sum_nonneg (fun j hj => ?_))
    ⟨v, Finset.mem_range.mpr hv, Finset.sum_pos' (fun j hj => ?_)
      ⟨i, Finset.mem_range.mpr hi, ?_⟩⟩
  · split
    · exact le_of_lt (lumped_entry_pos mesh sys h e he w (Finset.mem_range.mp hw) j
        (Finset.mem_range.mp hj))
    · exact le_refl _
  · split
    · exact le_of_lt (lumped_entry_pos mesh sys h e he v hv j (Finset.mem_range.mp hj))
    · exact le_refl _
  · rw [if_pos hget]
    exact lumped_entry_pos mesh sys h e he v hv i hi

theorem list_sum_pos_of_mem (l : List Nat) (f : Nat → ℚ) (hn : ∀ e, e ∈ l → 0 ≤ f e)
    (e : Nat) (he : e ∈ l) (hp : 0 < f e) : 0 < (l.map f).sum := by
  induction l with
  | nil => cases he
  | cons a as ih =>
    rw [List.map_cons, List.sum_cons]
    have hrest : 0 ≤ (as.map f).sum :=
      List.sum_nonneg (fun x hx => by
        obtain ⟨y, hy, rfl⟩ := List.mem_map.mp hx
        exact hn y (List.mem_cons_of_mem _ hy))
    rcases List.mem_cons.mp he with rfl | hmem
    · exact add_pos_of_pos_of_nonneg hp hrest
    · exact add_pos_of_nonneg_of_pos (hn a (List.mem_cons_self _ _))
        (ih (fun x hx => hn x (List.mem_cons_of_mem _ hx)) hmem)

theorem diagonal_mass_spec_pos (mesh : MeshBase) (sys : System)
    (h : PositiveQuadrature mesh sys) (g : Nat) (hg : dof_on_mesh mesh sys g) :
    0 < diagonal_mass_spec mesh sys g := by
  obtain ⟨e, he, v, hv, hmem⟩ := hg
  exact list_sum_pos_of_mem _ _ (fun x hx => lumped_contribution_nonneg mesh sys h g x hx) e he
    (lumped_contribution_pos mesh sys h g e he v hv hmem)

/-- C30 (amended). Division safety of the fast path in exact arithmetic. With the
sums, products and quotients of the loops taken without rounding or underflow: if
every quadrature weight is non-negative, every active element has positive volume
and every local basis function is non-zero at some quadrature point of positive
weight, then every lumped element entry `vol * M_e(i,i) / tr(M_e)` is positive; the
diagonal mass vector built by `buildDiagonalL2MassMatrix` (nothing cached under
the name) is positive at every DOF belonging to at least one active element; and a
call of `computeL2Projection` on the direct-division path (with
`VecPointwiseDivide` reporting no error) returns after dividing by that vector,
whose entries at those DOFs are different from zero. -/
theorem division_safety (ids : BdryIds) (petsc : Petsc) (p : FEProjector)
    (system_name : String)
    (h : PositiveQuadrature p.d_fe_data.get_mesh (p.d_fe_data.get_system system_name))
    (hmiss : p.d_L2_proj_matrix_diag system_name = none) :
    (∀ e, e ∈ p.d_fe_data.get_mesh.active_local_elements →
      ∀ v, v < (p.d_fe_data.get_system system_name).dof_map.n_variables →
      ∀ i, i < ((p.d_fe_data.get_system system_name).dof_map.dof_indices e v).length →
        0 < lumped_entry p.d_fe_data.get_mesh (p.d_fe_data.get_system system_name) e v i) ∧
    (∀ g, dof_on_mesh p.d_fe_data.get_mesh (p.d_fe_data.get_system system_name) g →
      0 < (buildDiagonalL2MassMatrix p system_name).2.val g) ∧
    (∀ (U_vec F_vec : PetscVector) (c close_U close_F : Bool) (tol : ℚ) (max_its : Nat),
      direct_division p system_name c → petsc.VecPointwiseDivide_ierr = 0 →
      ∃ r D, computeL2Projection ids petsc p U_vec F_vec system_name c close_U close_F tol
          max_its = some r ∧
        r.calls = [PetscCall.VecPointwiseDivide D] ∧
        ∀ g, dof_on_mesh p.d_fe_data.get_mesh (p.d_fe_data.get_system system_name) g →
          D.val g ≠ 0) := by
  have hpos : ∀ g, dof_on_mesh p.d_fe_data.get_mesh (p.d_fe_data.get_system system_name) g →
      0 < (buildDiagonalL2MassMatrix p system_name).2.val g := by
    intro g hg
    rw [buildDiagonalL2MassMatrix_build p system_name hmiss]
    show 0 < (built_L2_proj_matrix_diag p system_name).val g
    rw [built_diag_val]
    exact diagonal_mass_spec_pos _ _ h g hg
  refine ⟨fun e he v hv i hi => lumped_entry_pos _ _ h e he v hv i hi, hpos, ?_⟩
  intro U_vec F_vec c close_U close_F tol max_its hd hok
  exact ⟨_, _, computeL2Projection_direct ids petsc p U_vec F_vec system_name c close_U
    close_F tol max_its hd hok, rfl, fun g hg => ne_of_gt (hpos g hg)⟩

/-- Witness for C30 on the fresh two-DOF projector: the diagonal mass vector is
positive at DOF `0`. -/
theorem division_safety_witness :
    0 < (buildDiagonalL2MassMatrix two_dof_projector sample_name).2.val 0 :=
  (division_safety sample_bdry_ids quiet_petsc two_dof_projector sample_name
    ⟨fun _ _ => by show (0 : ℚ) ≤ 1; norm_num,
      fun _ _ => by show (0 : ℚ) < 1; norm_num,
      fun _ _ _ _ _ _ => ⟨0, by show 0 < 1; decide, by show (0 : ℚ) < 1; norm_num,
        by show (1 / 2 : ℚ) ≠ 0; norm_num⟩⟩ rfl).2.1 0
    ⟨0, by decide, 0, by decide, by decide⟩

/-! ## Lemmas on `MappingCache` -/

theorem operator_index_miss (get_dim : Nat → Int) (check_assertions : Bool)
    (c : MappingCache) (quad_key : MappingCache.key_type)
    (hdim : check_assertions = false ∨ get_dim quad_key.1 = c.dim)
    (hmiss : c.d_mappings quad_key = none) :
    MappingCache.operator_index get_dim check_assertions c quad_key =
      some ({ c with
          d_mappings := fun k =>
            if k = quad_key then some (Mapping.build quad_key c.d_update_flags c.heap_next)
            else c.d_mappings k,
          heap_next := c.heap_next + 1 },
        Mapping.build quad_key c.d_update_flags c.heap_next) := by
  unfold MappingCache.operator_index MappingCache.emplace
  simp only [hmiss]
  rw [if_neg]
  rintro ⟨h1, h2⟩
  rcases hdim with h | h
  · rw [h] at h1; cases h1
  · exact h2 h

theorem operator_index_hit (get_dim : Nat → Int) (check_assertions : Bool)
    (c : MappingCache) (quad_key : MappingCache.key_type) (m : Mapping)
    (hhit : c.d_mappings quad_key = some m) :
    MappingCache.operator_index get_dim check_assertions c quad_key = some (c, m) := by
  unfold MappingCache.operator_index
  simp only [hhit]

/-- What a returning lookup leaves behind. -/
theorem operator_index_result (get_dim : Nat → Int) (check_assertions : Bool)
    (c c1 : MappingCache) (quad_key : MappingCache.key_type) (m1 : Mapping)
    (h : MappingCache.operator_index get_dim check_assertions c quad_key = some (c1, m1)) :
    c1.d_mappings quad_key = some m1 ∧
    (∀ k, k ≠ quad_key → c1.d_mappings k = c.d_mappings k) ∧
    (∀ k m, c.d_mappings k = some m → c1.d_mappings k = some m) ∧
    c1.dim = c.dim ∧ c1.d_update_flags = c.d_update_flags ∧
    ((c.d_mappings quad_key = none ∧ c1.heap_next = c.heap_next + 1 ∧
        m1 = Mapping.build quad_key c.d_update_flags c.heap_next) ∨
      (c.d_mappings quad_key = some m1 ∧ c1 = c)) := by
  cases hc : c.d_mappings quad_key with
  | some m =>
    rw [operator_index_hit get_dim check_assertions c quad_key m hc] at h
    obtain ⟨rfl, rfl⟩ := Prod.mk.inj (Option.some.inj h)
    exact ⟨hc, fun _ _ => rfl, fun _ _ hm => hm, rfl, rfl, Or.inr ⟨rfl, rfl⟩⟩
  | none =>
    by_cases hdim : check_assertions = false ∨ get_dim quad_key.1 = c.dim
    · rw [operator_index_miss get_dim check_assertions c quad_key hdim hc] at h
      obtain ⟨rfl, rfl⟩ := Prod.mk.inj (Option.some.inj h)
      refine ⟨if_pos rfl, fun k hk => if_neg hk, fun k m hm => ?_, rfl, rfl,
        Or.inl ⟨rfl, rfl, rfl⟩⟩
      have hk : k ≠ quad_key := fun hkq => by rw [hkq, hc] at hm; cases hm
      show (if k = quad_key then _ else c.d_mappings k) = some m
      rw [if_neg hk, hm]
    · exfalso
      unfold MappingCache.operator_index at h
      simp only [hc] at h
      rw [if_pos] at h
      · cases h
      · constructor
        · cases check_assertions
          · exact absurd (Or.inl rfl) hdim
          · rfl
        · exact fun hd => hdim (Or.inr hd)

theorem mk_empty_allocated (dim spacedim : Int) (update_flags : Nat) :
    (MappingCache.mk_empty dim spacedim update_flags).Allocated := by
  intro k m h
  cases h

theorem clear_allocated (c : MappingCache) : c.clear.Allocated := by
  intro k m h
  cases h

theorem operator_index_allocated (get_dim : Nat → Int) (check_assertions : Bool)
    (c c1 : MappingCache) (quad_key : MappingCache.key_type) (m1 : Mapping)
    (hc : c.Allocated)
    (h : MappingCache.operator_index get_dim check_assertions c quad_key = some (c1, m1)) :
    c1.Allocated := by
  obtain ⟨h1, h2, _, _, _, h3⟩ :=
    operator_index_result get_dim check_assertions c c1 quad_key m1 h
  rcases h3 with ⟨_, hn, hm⟩ | ⟨_, rfl⟩
  · intro k m hk
    by_cases hkq : k = quad_key
    · rw [hkq, h1] at hk
      rw [← Option.some.inj hk, hm, hn]
      exact Nat.lt_succ_self _
    · rw [h2 k hkq] at hk
      rw [hn]
      exact Nat.lt_succ_of_lt (hc k m hk)
  · exact hc

/-- C21. Get-or-insert lookup. For a key whose element dimension equals `dim`,
`operator[]` on a cache without the key returns, builds one mapping from the key
and the update flags (one allocation), stores it under the key and returns it. On
a cache holding the key it returns the stored mapping and leaves the cache as it
was. After any returning lookup the key maps to the returned mapping, a second
lookup of the same key returns the same mapping without changing the cache, and
the entries under all other keys are as before. -/
theorem mapping_cache_get_or_insert (get_dim : Nat → Int) (check_assertions : Bool)
    (c : MappingCache) (quad_key : MappingCache.key_type) :
    (get_dim quad_key.1 = c.dim → c.d_mappings quad_key = none →
      ∃ c1 m1, MappingCache.operator_index get_dim check_assertions c quad_key =
          some (c1, m1) ∧
        m1 = Mapping.build quad_key c.d_update_flags c.heap_next ∧
        m1.quad_key = quad_key ∧
        c1.heap_next = c.heap_next + 1 ∧
        c1.d_mappings quad_key = some m1) ∧
    (∀ m, c.d_mappings quad_key = some m →
      MappingCache.operator_index get_dim check_assertions c quad_key = some (c, m)) ∧
    (∀ c1 m1, MappingCache.operator_index get_dim check_assertions c quad_key =
        some (c1, m1) →
      c1.d_mappings quad_key = some m1 ∧
      MappingCache.operator_index get_dim check_assertions c1 quad_key = some (c1, m1) ∧
      (∀ k, k ≠ quad_key → c1.d_mappings k = c.d_mappings k)) := by
  refine ⟨fun hdim hmiss => ⟨_, _, operator_index_miss get_dim check_assertions c quad_key
      (Or.inr hdim) hmiss, rfl, rfl, rfl, if_pos rfl⟩,
    fun m hm => operator_index_hit get_dim check_assertions c quad_key m hm,
    fun c1 m1 h => ?_⟩
  have hr := operator_index_result get_dim check_assertions c c1 quad_key m1 h
  exact ⟨hr.1, operator_index_hit get_dim check_assertions c1 quad_key m1 hr.1, hr.2.1⟩

/-- Witness for C21: the first lookup of the key `(3, 0, 2)` in an empty
two-dimensional cache returns and stores one new mapping. -/
theorem mapping_cache_get_or_insert_witness :
    ∃ c1 m1, MappingCache.operator_index (fun _ => 2) true (MappingCache.mk_empty 2 2 7)
        (3, 0, 2) = some (c1, m1) ∧
      m1 = Mapping.build (3, 0, 2) 7 0 ∧ m1.quad_key = (3, 0, 2) ∧ c1.heap_next = 0 + 1 ∧
      c1.d_mappings (3, 0, 2) = some m1 :=
  (mapping_cache_get_or_insert (fun _ => 2) true (MappingCache.mk_empty 2 2 7) (3, 0, 2)).1
    rfl rfl

/-- C22. Clearing the cache. After `clear()` the cache holds no key, so a lookup
of any key finds nothing and enters the build branch. For a key passing the
dimension assertion (or with assertions compiled out) the lookup returns a
mapping built by that call (one allocation, at the next free address) and stores
it under the key; when every mapping held before the clear was allocated below
the next free address, the new mapping is none of them. -/
theorem mapping_cache_clear (get_dim : Nat → Int) (check_assertions : Bool)
    (c : MappingCache) (quad_key : MappingCache.key_type) :
    (∀ k, c.clear.d_mappings k = none) ∧
    (check_assertions = false ∨ get_dim quad_key.1 = c.dim →
      ∃ c1 m1, MappingCache.operator_index get_dim check_assertions c.clear quad_key =
          some (c1, m1) ∧
        m1 = Mapping.build quad_key c.d_update_flags c.heap_next ∧
        c1.heap_next = c.heap_next + 1 ∧
        c1.d_mappings quad_key = some m1 ∧
        (c.Allocated → ∀ k held, c.d_mappings k = some held → held ≠ m1)) := by
  refine ⟨fun _ => rfl, fun hdim => ⟨_, _, operator_index_miss get_dim check_assertions
    c.clear quad_key hdim rfl, rfl, rfl, if_pos rfl, fun ha k held hk heq => ?_⟩⟩
  have hlt := ha k held hk
  rw [heq] at hlt
  exact Nat.lt_irrefl _ hlt

/-- Witness for C22: after clearing the sample cache, the lookup of the key it
held before returns a mapping built at the next address. -/
theorem mapping_cache_clear_witness :
    ∃ c1 m1, MappingCache.operator_index (fun _ => 2) true sample_mapping_cache.clear
        (3, 0, 2) = some (c1, m1) ∧
      m1 = Mapping.build (3, 0, 2) 7 1 ∧ c1.heap_next = 1 + 1 ∧
      c1.d_mappings (3, 0, 2) = some m1 ∧
      (sample_mapping_cache.Allocated →
        ∀ k held, sample_mapping_cache.d_mappings k = some held → held ≠ m1) :=
  (mapping_cache_clear (fun _ => 2) true sample_mapping_cache (3, 0, 2)).2 (Or.inr rfl)

/-- Without rounding the loops in an arithmetic are the loops of the exact
model. -/
theorem rounded_loops_exact :
    Rounded.quadrature_loop exact_arithmetic = quadrature_loop ∧
    Rounded.trace_loop exact_arithmetic = trace_loop ∧
    Rounded.lump_vector_loop exact_arithmetic = lump_vector_loop ∧
    Rounded.element_mass_matrix exact_arithmetic = element_mass_matrix :=
  ⟨rfl, rfl, rfl, rfl⟩

theorem rounded_prune_step_eq (A : Arith) (d : ℚ) :
    Rounded.prune_step A d = prune_step (A.mul literal_1e_12 d / prune_tol) := by
  funext i M j
  unfold Rounded.prune_step prune_step
  rw [mul_div_cancel₀ _ (ne_of_gt prune_tol_pos)]

theorem rounded_prune_val (A : Arith) (M : DenseMatrix) (a b : Nat) :
    (Rounded.prune_roundoff_entries A M).val a b =
      if a < M.m ∧ b < M.n ∧ a ≠ b ∧
          |M.val a b| < A.mul literal_1e_12 (min_diagonal_entry M)
      then 0 else M.val a b := by
  unfold Rounded.prune_roundoff_entries
  simp only [rounded_prune_step_eq]
  rw [(prune_rows_spec _ M.n M.m M).2.2 a b, mul_div_cancel₀ _ (ne_of_gt prune_tol_pos)]

/-- C7. Roundoff pruning postcondition. Let `d` be the smallest diagonal entry of
a dense matrix `M_e` whose diagonal entries are finite doubles (at most
`DBL_MAX`), and let the threshold be the product `1e-12 * d` as the code computes
it: the double literal `1e-12` times `d` in the arithmetic of the type `double`,
whatever its rounding. After `prune_roundoff_entries` every off-diagonal entry
`(i, j)` whose magnitude is strictly below the threshold is exactly `0`;
equivalently, every non-zero off-diagonal entry of the result has magnitude at
least the threshold. -/
theorem prune_roundoff_entries_postcondition (A : Arith) (M_e : DenseMatrix) (d : ℚ)
    (i j : Nat) (hd : IsSmallestDiagonal M_e d)
    (hrep : ∀ k, k < min M_e.m M_e.n → M_e.val k k ≤ DBL_MAX)
    (hi : i < M_e.m) (hj : j < M_e.n) (hij : i ≠ j) :
    (|M_e.val i j| < A.mul literal_1e_12 d →
      (Rounded.prune_roundoff_entries A M_e).val i j = 0) ∧
    ((Rounded.prune_roundoff_entries A M_e).val i j ≠ 0 →
      A.mul literal_1e_12 d ≤ |(Rounded.prune_roundoff_entries A M_e).val i j|) := by
  have hmin := min_diagonal_entry_eq M_e d hd hrep
  rw [rounded_prune_val, hmin]
  by_cases hs : |M_e.val i j| < A.mul literal_1e_12 d
  · rw [if_pos ⟨hi, hj, hij, hs⟩]
    exact ⟨fun _ => rfl, fun h => absurd rfl h⟩
  · rw [if_neg (fun h => hs h.2.2.2)]
    exact ⟨fun h => absurd h hs, fun _ => not_lt.mp hs⟩

theorem round_half_even_intCast (n : ℤ) : round_half_even (n : ℚ) = n := by
  unfold round_half_even
  rw [Int.floor_intCast, sub_self, if_pos (by norm_num)]

theorem round_half_even_small (y : ℚ) (h0 : 0 ≤ y) (h1 : y < 1 / 2) : round_half_even y = 0 := by
  have hf : ⌊y⌋ = 0 := Int.floor_eq_iff.mpr ⟨by simpa using h0, by
    have : y < 1 := lt_trans h1 (by norm_num)
    simpa using this⟩
  unfold round_half_even
  rw [hf, Int.cast_zero, sub_zero, if_pos h1]

theorem round_double_zero : round_double 0 = 0 := by
  unfold round_double
  rw [zero_div]
  have : round_half_even 0 = 0 := round_half_even_small 0 le_rfl (by norm_num)
  rw [this, Int.cast_zero, zero_mul]

theorem int_log_two_eq (x : ℚ) (e : ℤ) (h1 : (2 : ℚ) ^ e ≤ x) (h2 : x < (2 : ℚ) ^ (e + 1)) :
    Int.log 2 x = e := by
  have hx : 0 < x := lt_of_lt_of_le (zpow_pos (by norm_num) e) h1
  have h1' : ((2 : ℕ) : ℚ) ^ e ≤ x := by exact_mod_cast h1
  have h2' : x < ((2 : ℕ) : ℚ) ^ (e + 1) := by exact_mod_cast h2
  have ha : e ≤ Int.log 2 x := (Int.zpow_le_iff_le_log (by norm_num) hx).mp h1'
  have hb : Int.log 2 x < e + 1 := (Int.lt_zpow_iff_log_lt (by norm_num) hx).mp h2'
  omega

/-- A value `n * 2 ^ k` with a 53-bit significand `n` and `k >= -1074` is a double
and is left as it is by rounding. -/
theorem round_double_normal (n k : ℤ) (hn1 : 2 ^ 52 ≤ n) (hn2 : n < 2 ^ 53) (hk : -1074 ≤ k) :
    round_double ((n : ℚ) * 2 ^ k) = (n : ℚ) * 2 ^ k := by
  have hpos : (0 : ℚ) < 2 ^ k := zpow_pos (by norm_num) k
  have hn1' : ((2 : ℚ) ^ (52 : ℤ)) ≤ (n : ℚ) := by
    have : ((2 ^ 52 : ℤ) : ℚ) ≤ (n : ℚ) := Int.cast_le.mpr hn1
    have e : ((2 : ℚ) ^ (52 : ℤ)) = ((2 ^ 52 : ℤ) : ℚ) := by norm_num
    rw [e]; exact this
  have hn2' : (n : ℚ) < ((2 : ℚ) ^ (53 : ℤ)) := by
    have : (n : ℚ) < ((2 ^ 53 : ℤ) : ℚ) := Int.cast_lt.mpr hn2
    have e : ((2 : ℚ) ^ (53 : ℤ)) = ((2 ^ 53 : ℤ) : ℚ) := by norm_num
    rw [e]; exact this
  have hnpos : (0 : ℚ) < n := lt_of_lt_of_le (by norm_num) hn1'
  have hxpos : (0 : ℚ) < (n : ℚ) * 2 ^ k := mul_pos hnpos hpos
  have hlog : Int.log 2 |(n : ℚ) * 2 ^ k| = k + 52 := by
    rw [abs_of_pos hxpos]
    refine int_log_two_eq _ _ ?_ ?_
    · rw [add_comm, zpow_add₀ (by norm_num : (2 : ℚ) ≠ 0)]
      exact mul_le_mul_of_nonneg_right hn1' hpos.le
    · rw [show k + 52 + 1 = 53 + k by ring, zpow_add₀ (by norm_num : (2 : ℚ) ≠ 0)]
      exact mul_lt_mul_of_pos_right hn2' hpos
  have hexp : double_exponent ((n : ℚ) * 2 ^ k) = k + 52 := by
    unfold double_exponent
    rw [hlog]
    exact max_eq_left (by omega)
  unfold round_double
  rw [hexp, show k + 52 - 52 = k by ring, mul_div_assoc, div_self (ne_of_gt hpos), mul_one,
    round_half_even_intCast]

/-- A non-negative value below half the smallest subnormal double, `2 ^ (-1075)`,
is rounded to zero. -/
theorem round_double_underflow (x : ℚ) (h0 : 0 ≤ x) (h1 : x < 2 ^ (-1075 : ℤ)) :
    round_double x = 0 := by
  rcases eq_or_lt_of_le h0 with h | hpos
  · rw [← h]; exact round_double_zero
  have hexp : double_exponent x = -1022 := by
    unfold double_exponent
    rw [abs_of_pos hpos]
    refine max_eq_right ?_
    have hlt : x < ((2 : ℕ) : ℚ) ^ (-1022 : ℤ) := by
      refine lt_trans h1 ?_
      have : (2 : ℚ) ^ (-1075 : ℤ) < (2 : ℚ) ^ (-1022 : ℤ) :=
        zpow_lt_zpow_right₀ (by norm_num) (by norm_num)
      exact_mod_cast this
    exact le_of_lt ((Int.lt_zpow_iff_log_lt (by norm_num) hpos).mp hlt)
  unfold round_double
  rw [hexp, show (-1022 : ℤ) - 52 = -1074 by norm_num]
  have hq : (0 : ℚ) < 2 ^ (-1074 : ℤ) := zpow_pos (by norm_num) _
  have hy : x / 2 ^ (-1074 : ℤ) < 1 / 2 := by
    rw [div_lt_iff₀ hq]
    have : (1 / 2 : ℚ) * 2 ^ (-1074 : ℤ) = 2 ^ (-1075 : ℤ) := by
      rw [show (-1075 : ℤ) = -1074 - 1 by norm_num, zpow_sub₀ (by norm_num : (2 : ℚ) ≠ 0)]
      ring
    rw [this]; exact h1
  rw [round_half_even_small _ (div_nonneg h0 hq.le) hy, Int.cast_zero, zero_mul]

theorem round_double_one : round_double 1 = 1 := by
  have h := round_double_normal (2 ^ 52) (-52) le_rfl (by norm_num) (by norm_num)
  have e : (((2 ^ 52 : ℤ) : ℚ)) * 2 ^ (-52 : ℤ) = 1 := by norm_num
  rw [e] at h
  exact h

theorem literal_1e_12_rounded : round_double literal_1e_12 = literal_1e_12 := by
  have h := round_double_normal 4951760157141521 (-92) (by norm_num) (by norm_num)
    (by norm_num)
  have e : ((4951760157141521 : ℤ) : ℚ) * 2 ^ (-92 : ℤ) = literal_1e_12 := by
    unfold literal_1e_12; norm_num
  rw [e] at h
  exact h

theorem double_threshold_unit : double_arithmetic.mul literal_1e_12 1 = literal_1e_12 := by
  show round_double (literal_1e_12 * 1) = literal_1e_12
  rw [mul_one, literal_1e_12_rounded]

theorem dyadic_offdiag_smallest : IsSmallestDiagonal dyadic_offdiag 1 :=
  ⟨⟨0, by decide, by simp [dyadic_offdiag]⟩, fun k _ => by simp [dyadic_offdiag]⟩

theorem threshold_offdiag_smallest : IsSmallestDiagonal threshold_offdiag 1 :=
  ⟨⟨0, by decide, by simp [threshold_offdiag]⟩, fun k _ => by simp [threshold_offdiag]⟩

/-- Witness for C7 in binary64 arithmetic on the matrix with unit diagonal and
off-diagonal `2 ^ (-50)`: the threshold is the double `1e-12`, entry `(0, 1)` is
below it and is zeroed. -/
theorem prune_roundoff_entries_postcondition_witness :
    (Rounded.prune_roundoff_entries double_arithmetic dyadic_offdiag).val 0 1 = 0 :=
  (prune_roundoff_entries_postcondition double_arithmetic dyadic_offdiag 1 0 1
    dyadic_offdiag_smallest
    (fun k _ => by simp only [dyadic_offdiag, if_true]; norm_num [DBL_MAX])
    (by decide) (by decide) (by decide)).1
    (by
      rw [double_threshold_unit]
      simp only [dyadic_offdiag, literal_1e_12]
      norm_num [abs_of_pos])

/-- In binary64 arithmetic an off-diagonal entry equal to the double `1e-12`
beside a unit diagonal is kept: it is not below the computed threshold
`1e-12 * 1`, although it is below `10 ^ (-12)`. -/
theorem prune_keeps_entry_at_threshold :
    (Rounded.prune_roundoff_entries double_arithmetic threshold_offdiag).val 0 1 =
      literal_1e_12 ∧
    literal_1e_12 < prune_tol * 1 := by
  constructor
  · rw [rounded_prune_val,
      min_diagonal_entry_eq threshold_offdiag 1 threshold_offdiag_smallest
        (fun k _ => by simp only [threshold_offdiag, if_true]; norm_num [DBL_MAX]),
      double_threshold_unit, if_neg]
    · rfl
    · rintro ⟨_, _, _, h⟩
      have h2 : |literal_1e_12| < literal_1e_12 := h
      rw [abs_of_pos (by unfold literal_1e_12; norm_num)] at h2
      exact lt_irrefl _ h2
  · unfold literal_1e_12 prune_tol; norm_num

theorem rounded_quadrature_2_1 (A : Arith) (phi : Nat → Nat → ℚ) (JxW : Nat → ℚ)
    (M : DenseMatrix) (i j : Nat) (hi : i < 2) (hj : j < 2) :
    (Rounded.quadrature_loop A phi JxW 2 1 (M.resize 2 2)).val i j =
      A.add 0 (A.mul (A.mul (phi i 0) (phi j 0)) (JxW 0)) := by
  interval_cases i <;> interval_cases j <;>
    simp [Rounded.quadrature_loop, List.range_succ, DenseMatrix.set, DenseMatrix.resize]

theorem underflow_M_e_val :
    (Rounded.element_mass_matrix double_arithmetic underflow_system 0 0
      DenseMatrix.empty).val 0 0 = 0 ∧
    (Rounded.element_mass_matrix double_arithmetic underflow_system 0 0
      DenseMatrix.empty).val 1 1 = 1 := by
  have h3 : (underflow_system.dof_map.dof_indices 0 0).length = 2 := rfl
  have hn : underflow_system.fe.n_points 0 = 1 := rfl
  unfold Rounded.element_mass_matrix
  simp only [h3, hn]
  rw [rounded_quadrature_2_1 _ _ _ _ 0 0 (by decide) (by decide),
    rounded_quadrature_2_1 _ _ _ _ 1 1 (by decide) (by decide)]
  have hsq : round_double ((1 / 2 ^ 600 : ℚ) * (1 / 2 ^ 600)) = 0 := by
    refine round_double_underflow _ (by positivity) ?_
    rw [show (2 : ℚ) ^ (-1075 : ℤ) = 1 / 2 ^ 1075 by
      rw [zpow_neg, one_div]; norm_cast]
    rw [one_div_mul_one_div, ← pow_add]
    exact one_div_lt_one_div_of_lt (by positivity) (pow_lt_pow_right₀ (by norm_num) (by norm_num))
  constructor
  · show round_double (0 + round_double (round_double ((1 / 2 ^ 600 : ℚ) * (1 / 2 ^ 600)) * 1)) = 0
    rw [hsq, zero_mul, round_double_zero, add_zero, round_double_zero]
  · show round_double (0 + round_double (round_double ((1 : ℚ) * 1) * 1)) = 1
    simp only [mul_one, zero_add, round_double_one]

theorem rounded_lump_vector_2 (A : Arith) (vol tr_M : ℚ) (M : DenseMatrix) (v : DenseVector) :
    (Rounded.lump_vector_loop A vol tr_M 2 M (v.resize 2)).size = 2 ∧
    (Rounded.lump_vector_loop A vol tr_M 2 M (v.resize 2)).val 0 =
      A.div (A.mul vol (M.val 0 0)) tr_M := by
  simp [Rounded.lump_vector_loop, List.range_succ, DenseVector.set, DenseVector.resize]

theorem rounded_add_vector_2 (A : Arith) (v : PetscVector) (dv : DenseVector)
    (h : dv.size = 2) :
    (Rounded.add_vector A v dv [0, 1]).val 0 = A.add (v.val 0) (dv.val 0) := by
  simp [Rounded.add_vector, h, List.range_succ]

theorem rounded_trace_2 (A : Arith) (M : DenseMatrix) :
    Rounded.trace_loop A 2 M = A.add (A.add 0 (M.val 0 0)) (M.val 1 1) := by
  simp [Rounded.trace_loop, List.range_succ]

theorem underflow_positive_quadrature : PositiveQuadrature unit_mesh underflow_system := by
  refine ⟨fun _ _ => by show (0 : ℚ) ≤ 1; norm_num, fun _ _ => by show (0 : ℚ) < 1; norm_num,
    fun e _ v _ i _ => ⟨0, by show 0 < 1; decide, by show (0 : ℚ) < 1; norm_num, ?_⟩⟩
  show (if i = 0 then (1 / 2 ^ 600 : ℚ) else 1) ≠ 0
  split <;> positivity

/-- C30, counterexample. The system `underflow_system` on the one-element mesh
meets the hypotheses of the claim: the quadrature weight is 1, the element volume
is 1, and both basis functions are non-zero at the quadrature point (`2 ^ (-600)`
and `1`). In binary64 arithmetic the product `phi[0] * phi[0] = 2 ^ (-1200)`
underflows to `0`, so `M_e(0,0) = 0` while the trace is `1`; the lumped entry of
local DOF 0 is `0`, and the vector built by `buildDiagonalL2MassMatrix` is `0` at
DOF 0, which belongs to the element: the direct-division path divides by zero
there. -/
theorem division_by_zero_by_underflow :
    PositiveQuadrature unit_mesh underflow_system ∧
    dof_on_mesh unit_mesh underflow_system 0 ∧
    Rounded.trace_loop double_arithmetic 2
      (Rounded.element_mass_matrix double_arithmetic underflow_system 0 0
        DenseMatrix.empty) = 1 ∧
    (Rounded.lump_vector_loop double_arithmetic (unit_mesh.volume 0)
      (Rounded.trace_loop double_arithmetic 2
        (Rounded.element_mass_matrix double_arithmetic underflow_system 0 0
          DenseMatrix.empty)) 2
      (Rounded.element_mass_matrix double_arithmetic underflow_system 0 0 DenseMatrix.empty)
      (DenseVector.empty.resize 2)).val 0 = 0 ∧
    (Rounded.buildDiagonalL2MassMatrix double_arithmetic underflow_projector
      sample_name).2.val 0 = 0 := by
  have htr : Rounded.trace_loop double_arithmetic 2
      (Rounded.element_mass_matrix double_arithmetic underflow_system 0 0
        DenseMatrix.empty) = 1 := by
    rw [rounded_trace_2, underflow_M_e_val.1, underflow_M_e_val.2]
    show round_double (round_double (0 + 0) + 1) = 1
    simp only [add_zero, zero_add, round_double_zero, round_double_one]
  have hlump : ∀ v : DenseVector, (Rounded.lump_vector_loop double_arithmetic
      (unit_mesh.volume 0)
      (Rounded.trace_loop double_arithmetic 2
        (Rounded.element_mass_matrix double_arithmetic underflow_system 0 0
          DenseMatrix.empty)) 2
      (Rounded.element_mass_matrix double_arithmetic underflow_system 0 0 DenseMatrix.empty)
      (v.resize 2)).val 0 = 0 := by
    intro v
    rw [(rounded_lump_vector_2 _ _ _ _ _).2, underflow_M_e_val.1, htr]
    show round_double (round_double (unit_mesh.volume 0 * 0) / 1) = 0
    rw [mul_zero, round_double_zero, zero_div, round_double_zero]
  refine ⟨underflow_positive_quadrature, ⟨0, by decide, 0, by decide, by decide⟩, htr,
    hlump _, ?_⟩
  show (Rounded.assemble_diagonal double_arithmetic unit_mesh underflow_system
    ⟨0, fun _ => 0⟩).val 0 = 0
  have h3 : (underflow_system.dof_map.dof_indices 0 0).length = 2 := rfl
  have hd : underflow_system.dof_map.dof_indices 0 0 = [0, 1] := rfl
  have hv : underflow_system.dof_map.n_variables = 1 := rfl
  have he : unit_mesh.active_local_elements = [0] := rfl
  unfold Rounded.assemble_diagonal
  rw [he, hv]
  simp only [List.range_succ, List.range_zero, List.nil_append, List.foldl_cons,
    List.foldl_nil, Rounded.diagonal_elem_var, h3]
  rw [hd, rounded_add_vector_2 _ _ _ (rounded_lump_vector_2 _ _ _ _ _).1, hlump]
  show round_double (0 + 0) = 0
  rw [add_zero, round_double_zero]

theorem round_half_even_near (y : ℚ) (n : ℤ) (h : |y - n| < 1 / 2) : round_half_even y = n := by
  have h1 := (abs_lt.mp h).1
  have h2 := (abs_lt.mp h).2
  unfold round_half_even
  by_cases hge : (n : ℚ) ≤ y
  · have hf : ⌊y⌋ = n := Int.floor_eq_iff.mpr ⟨hge, by linarith⟩
    rw [hf, if_pos (by linarith)]
  · have hlt : y < n := not_le.mp hge
    have hf : ⌊y⌋ = n - 1 := Int.floor_eq_iff.mpr ⟨by push_cast; linarith, by push_cast; linarith⟩
    rw [hf]
    push_cast
    rw [if_neg (by linarith), if_pos (by linarith)]
    ring

/-- A value in the binade of exponent `k + 52` whose distance to `n * 2 ^ k` is
below half the spacing `2 ^ k` is rounded to `n * 2 ^ k`. -/
theorem round_double_near (x : ℚ) (n k : ℤ) (hk : -1074 ≤ k)
    (hx1 : (2 : ℚ) ^ (k + 52) ≤ x) (hx2 : x < (2 : ℚ) ^ (k + 52 + 1))
    (h : |x / 2 ^ k - n| < 1 / 2) :
    round_double x = (n : ℚ) * 2 ^ k := by
  have hxpos : 0 < x := lt_of_lt_of_le (zpow_pos (by norm_num) _) hx1
  have hexp : double_exponent x = k + 52 := by
    unfold double_exponent
    rw [abs_of_pos hxpos, int_log_two_eq x (k + 52) hx1 hx2]
    exact max_eq_left (by omega)
  unfold round_double
  rw [hexp, show k + 52 - 52 = k by ring, round_half_even_near _ n h]

theorem round_double_product_a :
    round_double ((5404319552844595 / 2 ^ 54 : ℚ) * (5404319552844595 / 2 ^ 54)) =
      3242591731706757 / 2 ^ 55 := by
  have h := round_double_near ((5404319552844595 / 2 ^ 54 : ℚ) * (5404319552844595 / 2 ^ 54))
    6485183463413514 (-56) (by norm_num) (by norm_num) (by norm_num)
    (by rw [abs_lt]; constructor <;> norm_num)
  rw [h]; norm_num

theorem round_double_product_b :
    round_double ((5404319552844595 / 2 ^ 54 : ℚ) * (3152519739159347 / 2 ^ 52)) =
      7566047373982433 / 2 ^ 55 := by
  have h := round_double_near ((5404319552844595 / 2 ^ 54 : ℚ) * (3152519739159347 / 2 ^ 52))
    7566047373982433 (-55) (by norm_num) (by norm_num) (by norm_num)
    (by rw [abs_lt]; constructor <;> norm_num)
  rw [h]; norm_num

theorem round_double_product_c :
    round_double ((3152519739159347 / 2 ^ 52 : ℚ) * (3152519739159347 / 2 ^ 52)) =
      8827055269646171 / 2 ^ 54 := by
  have h := round_double_near ((3152519739159347 / 2 ^ 52 : ℚ) * (3152519739159347 / 2 ^ 52))
    8827055269646171 (-54) (by norm_num) (by norm_num) (by norm_num)
    (by rw [abs_lt]; constructor <;> norm_num)
  rw [h]; norm_num

theorem rounded_quadrature_dims (A : Arith) (phi : Nat → Nat → ℚ) (JxW : Nat → ℚ)
    (n_basis n_qp : Nat) (M : DenseMatrix) :
    (Rounded.quadrature_loop A phi JxW n_basis n_qp M).m = M.m ∧
    (Rounded.quadrature_loop A phi JxW n_basis n_qp M).n = M.n := by
  unfold Rounded.quadrature_loop
  refine foldl_invariant (fun X : DenseMatrix => X.m = M.m ∧ X.n = M.n) _ _ M ⟨rfl, rfl⟩ ?_
  intro X i hX
  refine foldl_invariant (fun X : DenseMatrix => X.m = M.m ∧ X.n = M.n) _ _ X hX ?_
  intro X j hX
  refine foldl_invariant (fun X : DenseMatrix => X.m = M.m ∧ X.n = M.n) _ _ X hX ?_
  intro X qp hX
  exact hX

theorem round_double_gram_a :
    round_double (3242591731706757 / 2 ^ 55) = 3242591731706757 / 2 ^ 55 := by
  have h := round_double_normal 6485183463413514 (-56) (by norm_num) (by norm_num)
    (by norm_num)
  have e : ((6485183463413514 : ℤ) : ℚ) * 2 ^ (-56 : ℤ) = 3242591731706757 / 2 ^ 55 := by
    norm_num
  rw [e] at h; exact h

theorem round_double_gram_b :
    round_double (7566047373982433 / 2 ^ 55) = 7566047373982433 / 2 ^ 55 := by
  have h := round_double_normal 7566047373982433 (-55) (by norm_num) (by norm_num)
    (by norm_num)
  have e : ((7566047373982433 : ℤ) : ℚ) * 2 ^ (-55 : ℤ) = 7566047373982433 / 2 ^ 55 := by
    norm_num
  rw [e] at h; exact h

theorem round_double_gram_c :
    round_double (8827055269646171 / 2 ^ 54) = 8827055269646171 / 2 ^ 54 := by
  have h := round_double_normal 8827055269646171 (-54) (by norm_num) (by norm_num)
    (by norm_num)
  have e : ((8827055269646171 : ℤ) : ℚ) * 2 ^ (-54 : ℤ) = 8827055269646171 / 2 ^ 54 := by
    norm_num
  rw [e] at h; exact h

/-- The element mass matrix of `gram_system` computed in binary64 arithmetic:
the doubles `0.09`, `0.21`, `0.21` and `0.48999999999999994`. -/
theorem gram_M_e_val :
    (Rounded.element_mass_matrix double_arithmetic gram_system 0 0 DenseMatrix.empty).val 0 0 =
      3242591731706757 / 2 ^ 55 ∧
    (Rounded.element_mass_matrix double_arithmetic gram_system 0 0 DenseMatrix.empty).val 0 1 =
      7566047373982433 / 2 ^ 55 ∧
    (Rounded.element_mass_matrix double_arithmetic gram_system 0 0 DenseMatrix.empty).val 1 0 =
      7566047373982433 / 2 ^ 55 ∧
    (Rounded.element_mass_matrix double_arithmetic gram_system 0 0 DenseMatrix.empty).val 1 1 =
      8827055269646171 / 2 ^ 54 := by
  have h3 : (gram_system.dof_map.dof_indices 0 0).length = 2 := rfl
  have hn : gram_system.fe.n_points 0 = 1 := rfl
  unfold Rounded.element_mass_matrix
  simp only [h3, hn]
  rw [rounded_quadrature_2_1 _ _ _ _ 0 0 (by decide) (by decide),
    rounded_quadrature_2_1 _ _ _ _ 0 1 (by decide) (by decide),
    rounded_quadrature_2_1 _ _ _ _ 1 0 (by decide) (by decide),
    rounded_quadrature_2_1 _ _ _ _ 1 1 (by decide) (by decide)]
  refine ⟨?_, ?_, ?_, ?_⟩
  · show round_double (0 + round_double (round_double
      ((5404319552844595 / 2 ^ 54 : ℚ) * (5404319552844595 / 2 ^ 54)) * 1)) = _
    simp only [round_double_product_a, mul_one, zero_add, round_double_gram_a]
  · show round_double (0 + round_double (round_double
      ((5404319552844595 / 2 ^ 54 : ℚ) * (3152519739159347 / 2 ^ 52)) * 1)) = _
    simp only [round_double_product_b, mul_one, zero_add, round_double_gram_b]
  · show round_double (0 + round_double (round_double
      ((3152519739159347 / 2 ^ 52 : ℚ) * (5404319552844595 / 2 ^ 54)) * 1)) = _
    rw [mul_comm (3152519739159347 / 2 ^ 52 : ℚ)]
    simp only [round_double_product_b, mul_one, zero_add, round_double_gram_b]
  · show round_double (0 + round_double (round_double
      ((3152519739159347 / 2 ^ 52 : ℚ) * (3152519739159347 / 2 ^ 52)) * 1)) = _
    simp only [round_double_product_c, mul_one, zero_add, round_double_gram_c]

/-- In binary64 arithmetic the consistent element matrix of two basis functions
with the values `0.3` and `0.7` at one quadrature point of weight 1 is left as it
is by roundoff pruning and has a negative quadratic form at `x = (7, -3)`: the
rounding of the three products makes the singular matrix `phi phi^T` indefinite.
The weight is non-negative and no constraint is applied. -/
theorem rounded_element_matrix_not_psd :
    (∀ qp, 0 ≤ gram_system.fe.JxW 0 qp) ∧
    (∀ a b, (Rounded.prune_roundoff_entries double_arithmetic
        (Rounded.element_mass_matrix double_arithmetic gram_system 0 0
          DenseMatrix.empty)).val a b =
      (Rounded.element_mass_matrix double_arithmetic gram_system 0 0
        DenseMatrix.empty).val a b) ∧
    quad_form (Rounded.prune_roundoff_entries double_arithmetic
        (Rounded.element_mass_matrix double_arithmetic gram_system 0 0
          DenseMatrix.empty)).val
      (fun i => if i = 0 then 7 else -3) 2 < 0 := by
  obtain ⟨h00, h01, h10, h11⟩ := gram_M_e_val
  have h3 : (gram_system.dof_map.dof_indices 0 0).length = 2 := rfl
  have hm : (Rounded.element_mass_matrix double_arithmetic gram_system 0 0
      DenseMatrix.empty).m = 2 := by
    unfold Rounded.element_mass_matrix
    rw [(rounded_quadrature_dims _ _ _ _ _ _).1, h3]; rfl
  have hn : (Rounded.element_mass_matrix double_arithmetic gram_system 0 0
      DenseMatrix.empty).n = 2 := by
    unfold Rounded.element_mass_matrix
    rw [(rounded_quadrature_dims _ _ _ _ _ _).2, h3]; rfl
  have hsm : IsSmallestDiagonal (Rounded.element_mass_matrix double_arithmetic gram_system 0 0
      DenseMatrix.empty) (3242591731706757 / 2 ^ 55) := by
    refine ⟨⟨0, by rw [hm, hn]; decide, h00⟩, fun k hk => ?_⟩
    rw [hm, hn] at hk
    have hk2 : k < 2 := by simpa using hk
    interval_cases k
    · rw [h00]
    · rw [h11]; norm_num
  have hmin := min_diagonal_entry_eq _ _ hsm (fun k hk => by
    rw [hm, hn] at hk
    have hk2 : k < 2 := by simpa using hk
    interval_cases k
    · rw [h00]; norm_num [DBL_MAX]
    · rw [h11]; norm_num [DBL_MAX])
  have hthr : double_arithmetic.mul literal_1e_12 (3242591731706757 / 2 ^ 55) =
      7130534626283790 / 2 ^ 96 := by
    show round_double (literal_1e_12 * (3242591731706757 / 2 ^ 55)) = _
    have h := round_double_near (literal_1e_12 * (3242591731706757 / 2 ^ 55))
      7130534626283790 (-96) (by norm_num) (by unfold literal_1e_12; norm_num)
      (by unfold literal_1e_12; norm_num)
      (by unfold literal_1e_12; rw [abs_lt]; constructor <;> norm_num)
    rw [h]; norm_num
  have hkeep : ∀ a b, (Rounded.prune_roundoff_entries double_arithmetic
        (Rounded.element_mass_matrix double_arithmetic gram_system 0 0
          DenseMatrix.empty)).val a b =
      (Rounded.element_mass_matrix double_arithmetic gram_system 0 0
        DenseMatrix.empty).val a b := by
    intro a b
    rw [rounded_prune_val, hmin, hthr, hm, hn]
    by_cases c : a < 2 ∧ b < 2 ∧ a ≠ b ∧
        |(Rounded.element_mass_matrix double_arithmetic gram_system 0 0
          DenseMatrix.empty).val a b| < 7130534626283790 / 2 ^ 96
    · exfalso
      obtain ⟨ha, hb, hab, hlt⟩ := c
      interval_cases a <;> interval_cases b
      · exact hab rfl
      · rw [h01] at hlt; norm_num [abs_of_pos] at hlt
      · rw [h10] at hlt; norm_num [abs_of_pos] at hlt
      · exact hab rfl
    · rw [if_neg c]
  refine ⟨fun _ => by show (0 : ℚ) ≤ 1; norm_num, hkeep, ?_⟩
  unfold quad_form
  simp only [hkeep, Finset.sum_range_succ, Finset.sum_range_zero, h00, h01, h10, h11]
  norm_num

end IBTK
